import Mathlib

/-! The gradient-stops model of the Qt gradient editor.

A shallow embedding of `src/shared/qtgradienteditor/qtgradientstopsmodel.cpp`.

* `qreal` positions and colour channels are exact rationals.
* A `QtGradientStop *` is an address (`StopPtr`); `0` is the null pointer.  The stop
  objects themselves live in `Model.heap`, the part of the heap holding the
  `QtGradientStop` objects created by the model.
* `QMap<qreal, QtGradientStop *>` is an association list kept in ascending key
  order; `QHash` is an association list.  The container functions are total on
  arbitrary lists; `Assoc.Ordered` states the key order that every `QMap` has, and
  `Model.PointersValid` that the stops a model owns are live objects.
* Every `emit` is recorded in `Model.emitted` together with the state a slot
  connected to the signal can query at that moment.
-/

namespace QtGradient

/-! ## Containers -/

namespace Assoc

variable {κ : Type} {β : Type}

/-- Value bound to `k` (`QMap::value`, `QHash::value`, `operator[]` on a present key). -/
def find? [DecidableEq κ] : List (κ × β) → κ → Option β
  | [], _ => none
  | e :: t, k => if e.1 = k then some e.2 else find? t k

/-- Membership of a key (`contains`). -/
def contains [DecidableEq κ] (l : List (κ × β)) (k : κ) : Bool :=
  (find? l k).isSome

/-- Removal of a key (`remove`). -/
def remove [DecidableEq κ] : List (κ × β) → κ → List (κ × β)
  | [], _ => []
  | e :: t, k => if e.1 = k then remove t k else e :: remove t k

/-- Assignment `h[k] = v` on a `QHash`: overwrite the binding of `k`, or add one. -/
def set [DecidableEq κ] : List (κ × β) → κ → β → List (κ × β)
  | [], k, v => [(k, v)]
  | e :: t, k, v => if e.1 = k then (k, v) :: t else e :: set t k v

/-- Assignment `m[k] = v` on a `QMap`: overwrite the binding of `k`, or insert one at
its place in the key order. -/
def insertOrdered : List (ℚ × β) → ℚ → β → List (ℚ × β)
  | [], k, v => [(k, v)]
  | e :: t, k, v =>
    if k < e.1 then (k, v) :: e :: t
    else if k = e.1 then (k, v) :: t
    else e :: insertOrdered t k v

/-- The keys, in iteration order (`keys`). -/
def keys (l : List (κ × β)) : List κ := l.map Prod.fst

/-- The values, in iteration order (`values`). -/
def values (l : List (κ × β)) : List β := l.map Prod.snd

end Assoc

/-! ## Data model -/

/-- A `QtGradientStop *`; `0` is the null pointer. -/
abbrev StopPtr := Nat

/-- Modelled from the spec: `QColor` (QtGui, not part of the sources) as an
"RGBA float quadruple", with exact rational channels. -/
structure QColor where
  redF : ℚ
  greenF : ℚ
  blueF : ℚ
  alphaF : ℚ
deriving DecidableEq

/-- The colour built by `QColor::fromRgbF`. -/
def QColor.fromRgbF (r g b a : ℚ) : QColor := ⟨r, g, b, a⟩

/-- The colour `Qt::white`. -/
def QColor.white : QColor := ⟨1, 1, 1, 1⟩

/-- The colour `Qt::black`. -/
def QColor.black : QColor := ⟨0, 0, 0, 1⟩

/-- The fields of `QtGradientStopPrivate` that the model reads and writes. -/
structure QtGradientStopPrivate where
  m_position : ℚ := 0
  m_color : QColor := QColor.white
deriving DecidableEq

/-- The heap of stop objects: address ↦ object. -/
abbrev Heap := List (StopPtr × QtGradientStopPrivate)

/-- Data members of `QtGradientStopsModelPrivate`. -/
structure QtGradientStopsModelPrivate where
  m_posToStop : List (ℚ × StopPtr) := []
  m_stopToPos : List (StopPtr × ℚ) := []
  m_selection : List (StopPtr × Bool) := []
  m_current : StopPtr := 0
deriving DecidableEq

/-- The signals of `QtGradientStopsModel`, with their arguments. -/
inductive Signal where
  | stopAdded (stop : StopPtr)
  | stopRemoved (stop : StopPtr)
  | stopMoved (stop : StopPtr) (newPos : ℚ)
  | stopsSwapped (stop1 stop2 : StopPtr)
  | stopChanged (stop : StopPtr) (newColor : QColor)
  | stopSelected (stop : StopPtr) (selected : Bool)
  | currentStopChanged (stop : StopPtr)
deriving DecidableEq

/-- What a slot can query while a signal is being delivered: the stop objects and the
data members of the model. -/
structure Observed where
  heap : Heap
  d_ptr : QtGradientStopsModelPrivate
deriving DecidableEq

/-- A `QtGradientStopsModel` with the stop objects it created and the signals it has
emitted so far (oldest first), each with the state observable at emission. -/
structure Model where
  heap : Heap := []
  d_ptr : QtGradientStopsModelPrivate := {}
  emitted : List (Signal × Observed) := []
deriving DecidableEq

/-- The model built by the constructor `QtGradientStopsModel(QObject *parent)`. -/
def Model.empty : Model := {}

/-- The state a slot would observe now. -/
def Model.observe (m : Model) : Observed := ⟨m.heap, m.d_ptr⟩

/-- Deliver a signal: `emit sig`. -/
def Model.emit (m : Model) (sig : Signal) : Model :=
  { m with emitted := m.emitted ++ [(sig, m.observe)] }

/-! ## `QtGradientStop` -/

/-- The object behind a pointer (a default-constructed one when the pointer is not live). -/
def deref (h : Heap) (stop : StopPtr) : QtGradientStopPrivate :=
  (Assoc.find? h stop).getD {}

/-- The method `QtGradientStop::position`. -/
def Model.position (m : Model) (stop : StopPtr) : ℚ := (deref m.heap stop).m_position

/-- The method `QtGradientStop::color`. -/
def Model.stopColor (m : Model) (stop : StopPtr) : QColor := (deref m.heap stop).m_color

/-- Overwrite the position field of the object at `stop`. -/
def heapSetPosition : Heap → StopPtr → ℚ → Heap
  | [], _, _ => []
  | e :: t, stop, p =>
    if e.1 = stop then (e.1, { e.2 with m_position := p }) :: t
    else e :: heapSetPosition t stop p

/-- Overwrite the colour field of the object at `stop`. -/
def heapSetColor : Heap → StopPtr → QColor → Heap
  | [], _, _ => []
  | e :: t, stop, c =>
    if e.1 = stop then (e.1, { e.2 with m_color := c }) :: t
    else e :: heapSetColor t stop c

/-- The method `QtGradientStop::setPosition`. -/
def Model.setPosition (m : Model) (stop : StopPtr) (position : ℚ) : Model :=
  { m with heap := heapSetPosition m.heap stop position }

/-- The method `QtGradientStop::setColor`. -/
def Model.setColor (m : Model) (stop : StopPtr) (color : QColor) : Model :=
  { m with heap := heapSetColor m.heap stop color }

/-- The address handed out by `new QtGradientStop()`: non-null and not live. -/
def newAddress (h : Heap) : StopPtr := (Assoc.keys h).foldr max 0 + 1

/-- The statement `new QtGradientStop()`: a default-constructed stop at a fresh address. -/
def Model.newStop (m : Model) : Model × StopPtr :=
  ({ m with heap := m.heap ++ [(newAddress m.heap, {})] }, newAddress m.heap)

/-- The statement `delete stop`. -/
def Model.deleteStop (m : Model) (stop : StopPtr) : Model :=
  { m with heap := Assoc.remove m.heap stop }

/-! ## `QtGradientStopsModel`: queries -/

/-- The method `QtGradientStopsModel::stops`. -/
def Model.stops (m : Model) : List (ℚ × StopPtr) := m.d_ptr.m_posToStop

/-- The method `QtGradientStopsModel::at`. -/
def Model.at (m : Model) (pos : ℚ) : StopPtr :=
  if Assoc.contains m.d_ptr.m_posToStop pos then
    (Assoc.find? m.d_ptr.m_posToStop pos).getD 0
  else 0

/-- The method `QtGradientStopsModel::selectedStops`. -/
def Model.selectedStops (m : Model) : List StopPtr := Assoc.keys m.d_ptr.m_selection

/-- The method `QtGradientStopsModel::currentStop`. -/
def Model.currentStop (m : Model) : StopPtr := m.d_ptr.m_current

/-- The method `QtGradientStopsModel::isSelected`. -/
def Model.isSelected (m : Model) (stop : StopPtr) : Bool :=
  if Assoc.contains m.d_ptr.m_selection stop then true else false

/-! ## `QtGradientStopsModel`: the elementary mutators -/

/-- The method `QtGradientStopsModel::setCurrentStop`. -/
def Model.setCurrentStop (m : Model) (stop : StopPtr) : Model :=
  if stop ≠ 0 ∧ ¬ Assoc.contains m.d_ptr.m_stopToPos stop then m
  else if stop = m.currentStop then m
  else
    let m := m.emit (.currentStopChanged stop)
    { m with d_ptr := { m.d_ptr with m_current := stop } }

/-- The method `QtGradientStopsModel::selectStop`. -/
def Model.selectStop (m : Model) (stop : StopPtr) (select : Bool) : Model :=
  if ¬ Assoc.contains m.d_ptr.m_stopToPos stop then m
  else
    let selected := Assoc.contains m.d_ptr.m_selection stop
    if select = selected then m
    else
      let m := m.emit (.stopSelected stop select)
      if select then
        { m with d_ptr := { m.d_ptr with m_selection := Assoc.set m.d_ptr.m_selection stop true } }
      else
        { m with d_ptr := { m.d_ptr with m_selection := Assoc.remove m.d_ptr.m_selection stop } }

/-- The method `QtGradientStopsModel::addStop`, for a `pos` that is a number; the second
component is the returned pointer.  `RealModel.addStop` is the same method for a `pos`
that may be NaN. -/
def Model.addStop (m : Model) (pos : ℚ) (color : QColor) : Model × StopPtr :=
  let newPos := pos
  let newPos := if pos < 0 then 0 else newPos
  let newPos := if pos > 1 then 1 else newPos
  if Assoc.contains m.d_ptr.m_posToStop newPos then (m, 0)
  else
    let (m, stop) := m.newStop
    let m := m.setPosition stop newPos
    let m := m.setColor stop color
    let m := { m with d_ptr := { m.d_ptr with
      m_posToStop := Assoc.insertOrdered m.d_ptr.m_posToStop newPos stop } }
    let m := { m with d_ptr := { m.d_ptr with
      m_stopToPos := Assoc.set m.d_ptr.m_stopToPos stop newPos } }
    let m := m.emit (.stopAdded stop)
    (m, stop)

/-- The method `QtGradientStopsModel::removeStop`. -/
def Model.removeStop (m : Model) (stop : StopPtr) : Model :=
  if ¬ Assoc.contains m.d_ptr.m_stopToPos stop then m
  else
    let m := if m.currentStop = stop then m.setCurrentStop 0 else m
    let m := m.selectStop stop false
    let m := m.emit (.stopRemoved stop)
    let pos := (Assoc.find? m.d_ptr.m_stopToPos stop).getD 0
    let m := { m with d_ptr := { m.d_ptr with
      m_stopToPos := Assoc.remove m.d_ptr.m_stopToPos stop } }
    let m := { m with d_ptr := { m.d_ptr with
      m_posToStop := Assoc.remove m.d_ptr.m_posToStop pos } }
    m.deleteStop stop

/-- The method `QtGradientStopsModel::moveStop`. -/
def Model.moveStop (m : Model) (stop : StopPtr) (newPos : ℚ) : Model :=
  if ¬ Assoc.contains m.d_ptr.m_stopToPos stop then m
  else if Assoc.contains m.d_ptr.m_posToStop newPos then m
  else
    let newPos := if newPos > 1 then 1 else if newPos < 0 then 0 else newPos
    let m := m.emit (.stopMoved stop newPos)
    let oldPos := m.position stop
    let m := m.setPosition stop newPos
    let m := { m with d_ptr := { m.d_ptr with
      m_stopToPos := Assoc.set m.d_ptr.m_stopToPos stop newPos } }
    let m := { m with d_ptr := { m.d_ptr with
      m_posToStop := Assoc.remove m.d_ptr.m_posToStop oldPos } }
    { m with d_ptr := { m.d_ptr with
      m_posToStop := Assoc.insertOrdered m.d_ptr.m_posToStop newPos stop } }

/-- The method `QtGradientStopsModel::swapStops`. -/
def Model.swapStops (m : Model) (stop1 stop2 : StopPtr) : Model :=
  if stop1 = stop2 then m
  else if ¬ Assoc.contains m.d_ptr.m_stopToPos stop1 then m
  else if ¬ Assoc.contains m.d_ptr.m_stopToPos stop2 then m
  else
    let m := m.emit (.stopsSwapped stop1 stop2)
    let pos1 := m.position stop1
    let pos2 := m.position stop2
    let m := m.setPosition stop1 pos2
    let m := m.setPosition stop2 pos1
    let m := { m with d_ptr := { m.d_ptr with
      m_stopToPos := Assoc.set m.d_ptr.m_stopToPos stop1 pos2 } }
    let m := { m with d_ptr := { m.d_ptr with
      m_stopToPos := Assoc.set m.d_ptr.m_stopToPos stop2 pos1 } }
    let m := { m with d_ptr := { m.d_ptr with
      m_posToStop := Assoc.insertOrdered m.d_ptr.m_posToStop pos1 stop2 } }
    { m with d_ptr := { m.d_ptr with
      m_posToStop := Assoc.insertOrdered m.d_ptr.m_posToStop pos2 stop1 } }

/-- The method `QtGradientStopsModel::changeStop`. -/
def Model.changeStop (m : Model) (stop : StopPtr) (newColor : QColor) : Model :=
  if ¬ Assoc.contains m.d_ptr.m_stopToPos stop then m
  else if m.stopColor stop = newColor then m
  else
    let m := m.emit (.stopChanged stop newColor)
    m.setColor stop newColor

/-! ## `QtGradientStopsModel`: colour query -/

/-- The statement `QMap::constFind` on a present key, as the index of the element. -/
def Assoc.constFind (l : List (ℚ × StopPtr)) (k : ℚ) : Nat :=
  l.findIdx (fun e => decide (e.1 = k))

/-- The statement `it.key()` for the iterator at index `i`. -/
def Assoc.keyAt (l : List (ℚ × StopPtr)) (i : Nat) : ℚ := (l.getD i (0, 0)).1

/-- The statement `it.value()` for the iterator at index `i`. -/
def Assoc.valueAt (l : List (ℚ × StopPtr)) (i : Nat) : StopPtr := (l.getD i (0, 0)).2

/-- The method `QtGradientStopsModel::color`. -/
def Model.color (m : Model) (pos : ℚ) : QColor :=
  let gradStops := m.stops
  if gradStops.isEmpty then QColor.fromRgbF pos pos pos 1
  else if Assoc.contains gradStops pos then
    m.stopColor ((Assoc.find? gradStops pos).getD 0)
  else
    let gradStops := Assoc.insertOrdered gradStops pos 0
    let itStop := Assoc.constFind gradStops pos
    if itStop = 0 then
      m.stopColor (Assoc.valueAt gradStops (itStop + 1))
    else if itStop = gradStops.length - 1 then
      m.stopColor (Assoc.valueAt gradStops (itStop - 1))
    else
      let itPrev := itStop - 1
      let itNext := itStop + 1
      let prevX := Assoc.keyAt gradStops itPrev
      let nextX := Assoc.keyAt gradStops itNext
      let coefX := (pos - prevX) / (nextX - prevX)
      let prevCol := m.stopColor (Assoc.valueAt gradStops itPrev)
      let nextCol := m.stopColor (Assoc.valueAt gradStops itNext)
      QColor.fromRgbF
        ((nextCol.redF - prevCol.redF) * coefX + prevCol.redF)
        ((nextCol.greenF - prevCol.greenF) * coefX + prevCol.greenF)
        ((nextCol.blueF - prevCol.blueF) * coefX + prevCol.blueF)
        ((nextCol.alphaF - prevCol.alphaF) * coefX + prevCol.alphaF)

/-! ## `QtGradientStopsModel`: selection scans and bulk operations -/

/-- The scan of `firstSelected` / `lastSelected` over the entries still to visit. -/
def Model.scanSelected (m : Model) : List (ℚ × StopPtr) → StopPtr
  | [] => 0
  | e :: t => if m.isSelected e.2 then e.2 else Model.scanSelected m t

/-- The method `QtGradientStopsModel::firstSelected`. -/
def Model.firstSelected (m : Model) : StopPtr := m.scanSelected m.stops

/-- The method `QtGradientStopsModel::lastSelected`. -/
def Model.lastSelected (m : Model) : StopPtr := m.scanSelected m.stops.reverse

/-- The method `QtGradientStopsModel::clone`: the new model. -/
def Model.clone (m : Model) : Model :=
  m.stops.foldl (fun model it => (model.addStop it.1 (m.stopColor it.2)).1) Model.empty

/-- One iteration of the loop of `moveStops`, for the entry `it` of `stopList`. -/
def Model.moveStopsStep (current : StopPtr) (newPos offset : ℚ)
    (stopList : List (ℚ × StopPtr)) (m : Model) (it : ℚ × StopPtr) : Model :=
  let stop := it.2
  let pos := m.position stop + offset
  let pos := if pos > 1 then 1 else pos
  let pos := if pos < 0 then 0 else pos
  let pos := if current = stop then newPos else pos
  let oldStop := m.at pos
  let m := if oldStop ≠ 0 ∧ oldStop ∉ Assoc.values stopList then m.removeStop oldStop else m
  m.moveStop stop pos

/-- The method `QtGradientStopsModel::moveStops`. -/
def Model.moveStops (m : Model) (newPosition : ℚ) : Model :=
  let current := m.currentStop
  if current = 0 then m
  else
    let newPos := if newPosition > 1 then 1 else if newPosition < 0 then 0 else newPosition
    if newPos = m.position current then m
    else
      let offset := newPos - m.position current
      let first := m.firstSelected
      let last := m.lastSelected
      let offset :=
        if first ≠ 0 ∧ last ≠ 0 then
          let maxOffset := 1 - m.position last
          let minOffset := - m.position first
          if offset > maxOffset then maxOffset
          else if offset < minOffset then minOffset
          else offset
        else offset
      if offset = 0 then m
      else
        let forward := if offset > 0 then false else true
        let stopList : List (ℚ × StopPtr) :=
          m.selectedStops.foldl (fun sl stop => Assoc.insertOrdered sl (m.position stop) stop) []
        let stopList := Assoc.insertOrdered stopList (m.position current) current
        (if forward then stopList else stopList.reverse).foldl
          (Model.moveStopsStep current newPos offset stopList) m

/-- The method `QtGradientStopsModel::clear`. -/
def Model.clear (m : Model) : Model :=
  (Assoc.values m.stops).foldl Model.removeStop m

/-- The method `QtGradientStopsModel::clearSelection`. -/
def Model.clearSelection (m : Model) : Model :=
  m.selectedStops.foldl (fun m stop => m.selectStop stop false) m

/-! ## IEEE double arithmetic in `flipAll`

A `qreal` is an IEEE binary64 number.  Positions are modelled by the rationals they denote;
the one arithmetic result that `flipAll` uses as a map key, `1.0 - key`, is rounded as the
machine rounds it. -/

/-- Rounding to the nearest integer, ties to the even one. -/
def roundHalfEven (x : ℚ) : Int :=
  if x - Int.floor x < 1 / 2 then Int.floor x
  else if 1 / 2 < x - Int.floor x then Int.floor x + 1
  else if Int.floor x % 2 = 0 then Int.floor x
  else Int.floor x + 1

/-- The binary exponent of the unit in the last place of the doubles around `x`:
53-bit significands, least normal exponent -1022 (below it the spacing is that of the
subnormal numbers). -/
def ulpExponent (x : ℚ) : Int := max (Int.log 2 |x|) (-1022) - 52

/-- The double nearest to `x` (round to nearest, ties to even), for `x` of magnitude below
the overflow threshold; larger magnitudes, whose result is an infinity, do not arise from
`1.0 - key`. -/
def roundToDouble (x : ℚ) : ℚ :=
  roundHalfEven (x / 2 ^ ulpExponent x) * 2 ^ ulpExponent x

/-- The expression `a - b` on doubles: the exact difference, rounded once. -/
def doubleSub (a b : ℚ) : ℚ := roundToDouble (a - b)

/-- One iteration of the loop of `flipAll`, for the entry `it` of `stopsMap`; the state
is the model together with the local `swappedList`. -/
def Model.flipAllStep (stopsMap : List (ℚ × StopPtr))
    (st : Model × List (StopPtr × Bool)) (it : ℚ × StopPtr) : Model × List (StopPtr × Bool) :=
  let stop := it.2
  if Assoc.contains st.2 stop then st
  else
    let newPos := doubleSub 1 it.1
    if Assoc.contains stopsMap newPos then
      let swapped := (Assoc.find? stopsMap newPos).getD 0
      (st.1.swapStops stop swapped, Assoc.set st.2 swapped true)
    else
      (st.1.moveStop stop newPos, st.2)

/-- The iteration `flipAllStep` with the subtraction `1.0 - key` carried out without
rounding: what the loop does when that difference is itself a double. -/
def Model.flipAllStepExact (stopsMap : List (ℚ × StopPtr))
    (st : Model × List (StopPtr × Bool)) (it : ℚ × StopPtr) : Model × List (StopPtr × Bool) :=
  let stop := it.2
  if Assoc.contains st.2 stop then st
  else
    let newPos := 1 - it.1
    if Assoc.contains stopsMap newPos then
      let swapped := (Assoc.find? stopsMap newPos).getD 0
      (st.1.swapStops stop swapped, Assoc.set st.2 swapped true)
    else
      (st.1.moveStop stop newPos, st.2)

/-- The method `QtGradientStopsModel::flipAll`. -/
def Model.flipAll (m : Model) : Model :=
  (m.stops.reverse.foldl (Model.flipAllStep m.stops) (m, [])).1

/-- The method `QtGradientStopsModel::selectAll`. -/
def Model.selectAll (m : Model) : Model :=
  m.stops.foldl (fun m it => m.selectStop it.2 true) m

/-- The method `QtGradientStopsModel::deleteStops`. -/
def Model.deleteStops (m : Model) : Model :=
  let m := m.selectedStops.foldl Model.removeStop m
  let current := m.currentStop
  if current ≠ 0 then m.removeStop current else m

/-! ## Call sequences -/

/-- A call of one of the public mutators, with its arguments. -/
inductive Call where
  | addStop (pos : ℚ) (color : QColor)
  | removeStop (stop : StopPtr)
  | moveStop (stop : StopPtr) (newPos : ℚ)
  | swapStops (stop1 stop2 : StopPtr)
  | changeStop (stop : StopPtr) (newColor : QColor)
  | selectStop (stop : StopPtr) (select : Bool)
  | setCurrentStop (stop : StopPtr)
  | moveStops (newPosition : ℚ)
  | flipAll
  | clear
  | clearSelection
  | selectAll
  | deleteStops

/-- The model after one call. -/
def Model.call (m : Model) : Call → Model
  | .addStop pos color => (m.addStop pos color).1
  | .removeStop stop => m.removeStop stop
  | .moveStop stop newPos => m.moveStop stop newPos
  | .swapStops stop1 stop2 => m.swapStops stop1 stop2
  | .changeStop stop newColor => m.changeStop stop newColor
  | .selectStop stop select => m.selectStop stop select
  | .setCurrentStop stop => m.setCurrentStop stop
  | .moveStops newPosition => m.moveStops newPosition
  | .flipAll => m.flipAll
  | .clear => m.clear
  | .clearSelection => m.clearSelection
  | .selectAll => m.selectAll
  | .deleteStops => m.deleteStops

/-- The model after a sequence of calls, made in list order. -/
def Model.run (m : Model) (calls : List Call) : Model := calls.foldl Model.call m

/-- A call of `addStop` or of `removeStop`. -/
inductive AddRemove where
  | addStop (pos : ℚ) (color : QColor)
  | removeStop (stop : StopPtr)

/-- The call denoted by an `AddRemove`. -/
def AddRemove.toCall : AddRemove → Call
  | .addStop pos color => .addStop pos color
  | .removeStop stop => .removeStop stop

/-! ## Properties of model states -/

/-- The value `x` restricted to the closed interval [0,1]. -/
def clamp01 (x : ℚ) : ℚ := max 0 (min 1 x)

/-- Keys in strictly ascending order: the representation invariant of `QMap`. -/
def Assoc.Ordered {β : Type} (l : List (ℚ × β)) : Prop := l.Pairwise (fun a b => a.1 < b.1)

/-- The model owns `stop`: the reverse index has an entry for it. -/
def Model.Owns (m : Model) (stop : StopPtr) : Prop :=
  Assoc.contains m.d_ptr.m_stopToPos stop = true

/-- Every owned stop is a live object at a non-null address. -/
def Model.PointersValid (m : Model) : Prop :=
  ∀ s, m.Owns s → s ≠ 0 ∧ Assoc.contains m.heap s = true

/-- The position index and the reverse index are inverse to each other, and agree with
the position stored in each stop. -/
def Model.Consistent (m : Model) : Prop :=
  ∀ s p, (Assoc.find? m.d_ptr.m_posToStop p = some s ↔ Assoc.find? m.d_ptr.m_stopToPos s = some p)
    ∧ (Assoc.find? m.d_ptr.m_stopToPos s = some p → m.position s = p)

/-- Selected stops and the current stop are owned. -/
def Model.SelectionOwned (m : Model) : Prop :=
  (∀ s ∈ m.selectedStops, m.Owns s) ∧ (m.currentStop = 0 ∨ m.Owns m.currentStop)

/-- Every key of the position index and every stored stop position lies in [0,1]. -/
def Model.InUnitInterval (m : Model) : Prop :=
  (∀ e ∈ m.d_ptr.m_posToStop, 0 ≤ e.1 ∧ e.1 ≤ 1) ∧
  (∀ e ∈ m.heap, 0 ≤ e.2.m_position ∧ e.2.m_position ≤ 1)

/-- The representation invariants of a model state: the position index is in key order,
owned stops are live objects, selected and current stops are owned, and positions lie
in [0,1].  They hold in every state reached from the empty model. -/
def Model.WellFormed (m : Model) : Prop :=
  Assoc.Ordered m.d_ptr.m_posToStop ∧ m.PointersValid ∧ m.SelectionOwned ∧ m.InUnitInterval

/-- The loop invariant of `flipAll` when no difference `1.0 - key` is rounded, for the
original model `m0`, the set `F` of original positions whose stop is already mirrored, the
entries `P` visited so far, and the loop state `st` (model and local `swappedList`). -/
structure FlipInv (m0 : Model) (F : ℚ → Prop) (P : List (ℚ × StopPtr))
    (st : Model × List (StopPtr × Bool)) : Prop where
  cons : st.1.Consistent
  valid : st.1.PointersValid
  owns : ∀ y, st.1.Owns y ↔ m0.Owns y
  pos_flipped : ∀ k s, Assoc.find? m0.stops k = some s → F k → st.1.position s = 1 - k
  pos_kept : ∀ k s, Assoc.find? m0.stops k = some s → ¬ F k → st.1.position s = k
  colour : ∀ y, st.1.stopColor y = m0.stopColor y
  sel : st.1.d_ptr.m_selection = m0.d_ptr.m_selection
  cur : st.1.d_ptr.m_current = m0.d_ptr.m_current
  processed : ∀ e ∈ P, F e.1
  swapped_flipped : ∀ k s, Assoc.find? m0.stops k = some s → Assoc.contains st.2 s = true → F k
  flipped_cases : ∀ k s, Assoc.find? m0.stops k = some s → F k →
    (∃ e ∈ P, e.1 = k) ∨ Assoc.contains st.2 s = true
  closed : ∀ k, F k → Assoc.contains m0.stops (1 - k) = true → F (1 - k)

/-- The clamped target `newPos` computed at the start of `moveStops`. -/
def moveStopsNewPos (newPosition : ℚ) : ℚ :=
  if newPosition > 1 then 1 else if newPosition < 0 then 0 else newPosition

/-- The `offset` that `moveStops` applies: the distance from the current stop to `newPos`,
clamped by the first and last selected stop when there is a selection. -/
def Model.moveStopsOffset (m : Model) (newPosition : ℚ) : ℚ :=
  if m.firstSelected ≠ 0 ∧ m.lastSelected ≠ 0 then
    if moveStopsNewPos newPosition - m.position m.currentStop > 1 - m.position m.lastSelected then
      1 - m.position m.lastSelected
    else if moveStopsNewPos newPosition - m.position m.currentStop < - m.position m.firstSelected then
      - m.position m.firstSelected
    else moveStopsNewPos newPosition - m.position m.currentStop
  else moveStopsNewPos newPosition - m.position m.currentStop

/-- The local `stopList` of `moveStops`: the selected stops and the current stop, keyed by
position. -/
def Model.moveStopsList (m : Model) : List (ℚ × StopPtr) :=
  Assoc.insertOrdered
    (m.selectedStops.foldl (fun sl stop => Assoc.insertOrdered sl (m.position stop) stop) [])
    (m.position m.currentStop) m.currentStop

/-- The position `pos` that one iteration of the loop of `moveStops` computes for `stop`
in the model `m`. -/
def Model.moveStopsTarget (current : StopPtr) (newPos offset : ℚ) (m : Model) (stop : StopPtr) : ℚ :=
  if current = stop then newPos
  else if (if m.position stop + offset > 1 then 1 else m.position stop + offset) < 0 then 0
  else if m.position stop + offset > 1 then 1 else m.position stop + offset

/-- The stops moved by `moveStops`: the selected stops and the current stop. -/
def Model.InGroup (m : Model) (stop : StopPtr) : Prop :=
  stop ∈ m.selectedStops ∨ stop = m.currentStop

/-- The loop invariant of `moveStops`, for the original model `m`, the stops `vals` of the
local `stopList`, the target `T` of each of them, the model `μ` reached so far and the
entries `Q` still to visit. -/
structure GroupInv (m : Model) (vals : List StopPtr) (T : StopPtr → ℚ) (μ : Model)
    (Q : List (ℚ × StopPtr)) : Prop where
  cons : μ.Consistent
  valid : μ.PointersValid
  sel : μ.d_ptr.m_selection = m.d_ptr.m_selection
  cur : μ.d_ptr.m_current = m.d_ptr.m_current
  owns : ∀ g ∈ vals, μ.Owns g
  pending : ∀ e ∈ Q, μ.position e.2 = m.position e.2
  frame : ∀ y, m.Owns y → y ∉ vals →
    (μ.Owns y ∧ μ.position y = m.position y ∧ μ.stopColor y = m.stopColor y) ∨
    (¬ μ.Owns y ∧ ∃ g ∈ vals, m.position y = T g)

/-- The offset of `moveStops` in the words of the specification: the clamped target minus
the position of the current stop, and, when at least one stop is selected, that difference
clamped into [-firstSelected.position, 1 - lastSelected.position]. -/
def Model.groupOffset (m : Model) (newPosition : ℚ) : ℚ :=
  if m.selectedStops = [] then clamp01 newPosition - m.position m.currentStop
  else max (- m.position m.firstSelected)
    (min (1 - m.position m.lastSelected) (clamp01 newPosition - m.position m.currentStop))

/-- The model built from the empty one by adding a black stop at `a` (stop 1) and a white
stop at `b` (stop 2), selecting the stops listed in `sel`, and making `cur` current. -/
def dragModel (a b : ℚ) (sel : List StopPtr) (cur : StopPtr) : Model :=
  Model.empty.run ([Call.addStop a QColor.black, Call.addStop b QColor.white] ++
    sel.map (fun s => Call.selectStop s true) ++ [Call.setCurrentStop cur])

/-! ## `QProgressDialog::setValue`: the time estimate -/

/-- The constant `defaultShowTime`, in milliseconds. -/
def defaultShowTime : Int := 4000

/-- The constant `minWaitTime`, in milliseconds. -/
def minWaitTime : Int := 50

/-- The constant `INT_MAX` of a 32-bit `int`. -/
def INT_MAX : Int := 2 ^ 31 - 1

/-- The value of a 32-bit `int` expression whose mathematical value is `x`
(two's complement wrap-around). -/
def wrapInt (x : Int) : Int := (x + 2 ^ 31) % 2 ^ 32 - 2 ^ 31

/-- The value of a 64-bit expression (the representation of `std::chrono::nanoseconds`)
whose mathematical value is `x`. -/
def wrapInt64 (x : Int) : Int := (x + 2 ^ 63) % 2 ^ 64 - 2 ^ 63

/-- Integer division as the machine executes it: truncating, and without a result when
the divisor is zero. -/
def machineDiv (a b : Int) : Option Int := if b = 0 then none else some (Int.tdiv a b)

/-- The number of nanoseconds in `ms` milliseconds (the conversion that comparing a
`nanoseconds` with a `milliseconds` value performs). -/
def msToNs (ms : Int) : Int := ms * 1000000

/-- The variable `myprogress` of `QProgressDialog::setValue`. -/
def QProgressDialog.myprogress (progress minimum : Int) : Int :=
  max (wrapInt (progress - minimum)) 1

/-- The variable `estimate` of `QProgressDialog::setValue` (lines 641-648), for the reading
`elapsed` of `d->starttime.durationElapsed()` in nanoseconds; there is no result when one
of the two divisions executed has divisor zero. -/
def QProgressDialog.estimate (elapsed progress minimum maximum : Int) : Option Int :=
  let totalSteps := wrapInt (maximum - minimum)
  let myprogress := QProgressDialog.myprogress progress minimum
  let remainingSteps := wrapInt (totalSteps - myprogress)
  match machineDiv INT_MAX elapsed with
  | none => none
  | some bound =>
    if remainingSteps ≥ bound then
      match machineDiv remainingSteps myprogress with
      | none => none
      | some steps => some (wrapInt64 (steps * elapsed))
    else
      machineDiv (wrapInt64 (elapsed * remainingSteps)) myprogress

/-- The variable `need_show` of `QProgressDialog::setValue` as computed in lines 634-651,
for `d->showTime` in milliseconds and the reading `elapsed` of the timer in nanoseconds. -/
def QProgressDialog.need_show (showTime elapsed progress minimum maximum : Int) : Option Bool :=
  if elapsed ≥ msToNs showTime then some true
  else if elapsed > msToNs minWaitTime then
    match QProgressDialog.estimate elapsed progress minimum maximum with
    | none => none
    | some estimate => some (decide (estimate ≥ msToNs showTime))
  else some false

/-- The four channels of a colour. -/
inductive Channel where
  | red
  | green
  | blue
  | alpha
deriving DecidableEq

/-- The value of a channel: `redF()`, `greenF()`, `blueF()` or `alphaF()`. -/
def QColor.channel (c : QColor) : Channel → ℚ
  | .red => c.redF
  | .green => c.greenF
  | .blue => c.blueF
  | .alpha => c.alphaF

/-- The loop invariant of `clone`, for the original model `m`, the entries `P` of
`stopsToClone` visited so far and the new model `μ`. -/
structure CloneInv (m : Model) (P : List (ℚ × StopPtr)) (μ : Model) : Prop where
  valid : μ.PointersValid
  cons : μ.Consistent
  ordered : Assoc.Ordered μ.stops
  sel : μ.d_ptr.m_selection = []
  cur : μ.d_ptr.m_current = 0
  keys : ∀ k, (∃ s', (k, s') ∈ μ.stops) ↔ (∃ s, (k, s) ∈ P)
  colours : ∀ k s s', (k, s) ∈ P → (k, s') ∈ μ.stops → μ.stopColor s' = m.stopColor s

/-- The double written `0.2`: 0x3FC999999999999A. -/
def double_0_2 : ℚ := 3602879701896397 / 18014398509481984

/-- The double written `0.8`: 0x3FE999999999999A. -/
def double_0_8 : ℚ := 3602879701896397 / 4503599627370496

/-- The double written `0.3`: 0x3FD3333333333333. -/
def double_0_3 : ℚ := 5404319552844595 / 18014398509481984

/-- The double written `0.7`: 0x3FE6666666666666. -/
def double_0_7 : ℚ := 3152519739159347 / 4503599627370496

/-! ## `qreal` arguments that are not numbers

`Model` keeps positions as the rationals they denote.  A `qreal` argument can also be a
NaN, for which every comparison is false.  The definitions below embed `addStop`, `at` and
`position` once more, over positions that may be NaN; the data members that these methods
do not touch (selection, current stop) and the emitted signals are left out. -/

/-- A `qreal`: a number, or NaN. -/
inductive QReal where
  | num (x : ℚ)
  | nan
deriving DecidableEq

/-- The comparison `a < b` on `qreal`: false when an operand is NaN. -/
def QReal.lt : QReal → QReal → Bool
  | .num a, .num b => decide (a < b)
  | _, _ => false

/-- The comparison `a <= b` on `qreal`: false when an operand is NaN. -/
def QReal.le : QReal → QReal → Bool
  | .num a, .num b => decide (a ≤ b)
  | _, _ => false

/-- The comparison `a == b` on `qreal`: false when an operand is NaN. -/
def QReal.eq : QReal → QReal → Bool
  | .num a, .num b => decide (a = b)
  | _, _ => false

/-- Lookup in a `QMap<qreal, T>` given by its entries in iteration order: the first entry
whose key is not less than `k` is the one found, provided `k` is not less than its key. -/
def RealMap.find? {β : Type} : List (QReal × β) → QReal → Option β
  | [], _ => none
  | e :: t, k =>
    if QReal.lt e.1 k then RealMap.find? t k
    else if QReal.lt k e.1 then none
    else some e.2

/-- Assignment `m[k] = v` on a `QMap<qreal, T>`: the entry found for `k` gets the value
`v`; without one, `(k, v)` is inserted before the first entry whose key is not less
than `k`. -/
def RealMap.insert {β : Type} : List (QReal × β) → QReal → β → List (QReal × β)
  | [], k, v => [(k, v)]
  | e :: t, k, v =>
    if QReal.lt e.1 k then e :: RealMap.insert t k v
    else if QReal.lt k e.1 then (k, v) :: e :: t
    else (e.1, v) :: t

/-- The fields of a stop object, with a position that may be NaN. -/
structure RealStop where
  m_position : QReal
  m_color : QColor
deriving DecidableEq

/-- The stop objects and the two indices of a `QtGradientStopsModel`, with positions that
may be NaN. -/
structure RealModel where
  heap : List (StopPtr × RealStop) := []
  m_posToStop : List (QReal × StopPtr) := []
  m_stopToPos : List (StopPtr × QReal) := []
deriving DecidableEq

/-- The model built by the constructor. -/
def RealModel.empty : RealModel := {}

/-- The method `QtGradientStopsModel::addStop`, for a position that may be NaN; the
second component is the returned pointer. -/
def RealModel.addStop (m : RealModel) (pos : QReal) (color : QColor) : RealModel × StopPtr :=
  let newPos := pos
  let newPos := if QReal.lt pos (.num 0) then .num 0 else newPos
  let newPos := if QReal.lt (.num 1) pos then .num 1 else newPos
  if (RealMap.find? m.m_posToStop newPos).isSome then (m, 0)
  else
    let stop := (Assoc.keys m.heap).foldr max 0 + 1
    ({ heap := m.heap ++ [(stop, { m_position := newPos, m_color := color })]
       m_posToStop := RealMap.insert m.m_posToStop newPos stop
       m_stopToPos := Assoc.set m.m_stopToPos stop newPos }, stop)

/-- The method `QtGradientStopsModel::at`, for a position that may be NaN. -/
def RealModel.at (m : RealModel) (pos : QReal) : StopPtr :=
  if (RealMap.find? m.m_posToStop pos).isSome then
    (RealMap.find? m.m_posToStop pos).getD 0
  else 0

/-- The method `QtGradientStop::position`, for a position that may be NaN. -/
def RealModel.position (m : RealModel) (stop : StopPtr) : QReal :=
  ((Assoc.find? m.heap stop).map RealStop.m_position).getD (.num 0)

/-- A property of models kept by the seven elementary mutators. -/
structure Preserved (P : Model → Prop) : Prop where
  addStop : ∀ m pos c, P m → P (m.addStop pos c).1
  removeStop : ∀ m s, P m → P (m.removeStop s)
  moveStop : ∀ m s p, P m → P (m.moveStop s p)
  swapStops : ∀ m s1 s2, P m → P (m.swapStops s1 s2)
  changeStop : ∀ m s c, P m → P (m.changeStop s c)
  selectStop : ∀ m s b, P m → P (m.selectStop s b)
  setCurrentStop : ∀ m s, P m → P (m.setCurrentStop s)

/-! # Theorems -/

/-! ## Container facts -/

namespace Assoc

variable {κ : Type} {β : Type}

theorem find?_remove [DecidableEq κ] (l : List (κ × β)) (k k' : κ) :
    find? (remove l k) k' = if k' = k then none else find? l k' := by
  induction l with
  | nil => simp [remove, find?]
  | cons e t ih =>
    simp only [remove, find?]
    split_ifs with h1 h2 h3 h4 h5 <;> simp_all [find?]

theorem find?_set [DecidableEq κ] (l : List (κ × β)) (k k' : κ) (v : β) :
    find? (set l k v) k' = if k' = k then some v else find? l k' := by
  induction l with
  | nil =>
    simp only [set, find?]
    split_ifs <;> simp_all
  | cons e t ih =>
    simp only [set, find?]
    split_ifs <;> simp_all [find?]

theorem find?_insertOrdered (l : List (ℚ × β)) (k k' : ℚ) (v : β) :
    find? (insertOrdered l k v) k' = if k' = k then some v else find? l k' := by
  induction l with
  | nil =>
    simp only [insertOrdered, find?]
    split_ifs <;> simp_all
  | cons e t ih =>
    simp only [insertOrdered, find?]
    split_ifs <;> simp_all [find?] <;> intro h <;>
      exact absurd h.symm (by assumption)

theorem contains_iff [DecidableEq κ] (l : List (κ × β)) (k : κ) :
    contains l k = true ↔ ∃ v, find? l k = some v := by
  simp [contains, Option.isSome_iff_exists]

theorem contains_eq_false_iff [DecidableEq κ] (l : List (κ × β)) (k : κ) :
    contains l k = false ↔ find? l k = none := by
  simp [contains]

theorem find?_append [DecidableEq κ] (l l' : List (κ × β)) (k : κ) :
    find? (l ++ l') k = (find? l k).orElse (fun _ => find? l' k) := by
  induction l with
  | nil => simp [find?]
  | cons e t ih =>
    by_cases h : e.1 = k
    · simp [find?, h]
    · simp [find?, h, ih]

theorem find?_eq_none_of_not_mem_keys [DecidableEq κ] (l : List (κ × β)) (k : κ)
    (h : k ∉ keys l) : find? l k = none := by
  induction l with
  | nil => simp [find?]
  | cons e t ih =>
    simp only [keys, List.map_cons, List.mem_cons, not_or] at h
    have h1 : ¬ e.1 = k := fun h2 => h.1 h2.symm
    simp only [find?, h1, if_false]
    exact ih h.2

end Assoc

namespace Assoc
variable {κ : Type} {β : Type}

theorem remove_of_not_contains [DecidableEq κ] (l : List (κ × β)) (k : κ)
    (h : contains l k = false) : remove l k = l := by
  induction l with
  | nil => rfl
  | cons e t ih =>
    simp only [contains, find?] at h
    by_cases h1 : e.1 = k
    · simp [h1] at h
    · simp only [h1, if_false] at h
      simp only [remove, h1, if_false]
      rw [ih (by simpa [contains] using h)]

theorem mem_keys_iff_contains [DecidableEq κ] (l : List (κ × β)) (k : κ) :
    k ∈ keys l ↔ contains l k = true := by
  induction l with
  | nil => simp [keys, contains, find?]
  | cons e t ih =>
    by_cases h1 : e.1 = k
    · simp [keys, contains, find?, h1]
    · have h2 : ¬ k = e.1 := fun h => h1 h.symm
      simp only [keys, List.map_cons, List.mem_cons, h2, false_or, contains, find?, h1, if_false]
      simpa [keys, contains] using ih

theorem contains_remove [DecidableEq κ] (l : List (κ × β)) (k k' : κ) :
    contains (remove l k) k' = (if k' = k then false else contains l k') := by
  simp only [contains, find?_remove]
  split_ifs <;> simp

theorem contains_set [DecidableEq κ] (l : List (κ × β)) (k k' : κ) (v : β) :
    contains (set l k v) k' = (if k' = k then true else contains l k') := by
  simp only [contains, find?_set]
  split_ifs <;> simp

theorem contains_insertOrdered (l : List (ℚ × β)) (k k' : ℚ) (v : β) :
    contains (insertOrdered l k v) k' = (if k' = k then true else contains l k') := by
  simp only [contains, find?_insertOrdered]
  split_ifs <;> simp

end Assoc

/-! ## The heap -/

theorem find?_heapSetPosition (h : Heap) (stop s : StopPtr) (p : ℚ) :
    Assoc.find? (heapSetPosition h stop p) s =
      if s = stop then (Assoc.find? h s).map (fun o => { o with m_position := p })
      else Assoc.find? h s := by
  induction h with
  | nil => simp [heapSetPosition, Assoc.find?]
  | cons e t ih =>
    simp only [heapSetPosition, Assoc.find?]
    split_ifs <;> simp_all [Assoc.find?]

theorem find?_heapSetColor (h : Heap) (stop s : StopPtr) (c : QColor) :
    Assoc.find? (heapSetColor h stop c) s =
      if s = stop then (Assoc.find? h s).map (fun o => { o with m_color := c })
      else Assoc.find? h s := by
  induction h with
  | nil => simp [heapSetColor, Assoc.find?]
  | cons e t ih =>
    simp only [heapSetColor, Assoc.find?]
    split_ifs <;> simp_all [Assoc.find?]

theorem le_foldr_max (l : List Nat) (k : Nat) (h : k ∈ l) : k ≤ l.foldr max 0 := by
  induction l with
  | nil => simp at h
  | cons a t ih =>
    simp only [List.mem_cons] at h
    simp only [List.foldr_cons]
    rcases h with rfl | h
    · exact le_max_left _ _
    · exact le_trans (ih h) (le_max_right _ _)

theorem newAddress_ne_zero (h : Heap) : newAddress h ≠ 0 := by
  simp [newAddress]

theorem newAddress_not_live (h : Heap) : Assoc.contains h (newAddress h) = false := by
  by_contra hc
  have hc' : Assoc.contains h (newAddress h) = true := by simpa using hc
  have hm := (Assoc.mem_keys_iff_contains h _).2 hc'
  have := le_foldr_max _ _ hm
  simp [newAddress] at this

theorem find?_newAddress (h : Heap) : Assoc.find? h (newAddress h) = none :=
  (Assoc.contains_eq_false_iff _ _).1 (newAddress_not_live h)

/-! ## Elementary mutators: effect on each component of the state -/

theorem setCurrentStop_heap (m : Model) (s : StopPtr) : (m.setCurrentStop s).heap = m.heap := by
  unfold Model.setCurrentStop; split_ifs <;> rfl

theorem setCurrentStop_posToStop (m : Model) (s : StopPtr) :
    (m.setCurrentStop s).d_ptr.m_posToStop = m.d_ptr.m_posToStop := by
  unfold Model.setCurrentStop; split_ifs <;> rfl

theorem setCurrentStop_stopToPos (m : Model) (s : StopPtr) :
    (m.setCurrentStop s).d_ptr.m_stopToPos = m.d_ptr.m_stopToPos := by
  unfold Model.setCurrentStop; split_ifs <;> rfl

theorem setCurrentStop_selection (m : Model) (s : StopPtr) :
    (m.setCurrentStop s).d_ptr.m_selection = m.d_ptr.m_selection := by
  unfold Model.setCurrentStop; split_ifs <;> rfl

theorem setCurrentStop_current (m : Model) (s : StopPtr) :
    (m.setCurrentStop s).d_ptr.m_current =
      if s ≠ 0 ∧ ¬ Assoc.contains m.d_ptr.m_stopToPos s then m.d_ptr.m_current else s := by
  unfold Model.setCurrentStop Model.currentStop
  split_ifs with h1 h2
  · rfl
  · exact h2.symm
  · rfl

theorem selectStop_heap (m : Model) (s : StopPtr) (b : Bool) : (m.selectStop s b).heap = m.heap := by
  unfold Model.selectStop; simp only []; split_ifs <;> rfl

theorem selectStop_posToStop (m : Model) (s : StopPtr) (b : Bool) :
    (m.selectStop s b).d_ptr.m_posToStop = m.d_ptr.m_posToStop := by
  unfold Model.selectStop; simp only []; split_ifs <;> rfl

theorem selectStop_stopToPos (m : Model) (s : StopPtr) (b : Bool) :
    (m.selectStop s b).d_ptr.m_stopToPos = m.d_ptr.m_stopToPos := by
  unfold Model.selectStop; simp only []; split_ifs <;> rfl

theorem selectStop_current (m : Model) (s : StopPtr) (b : Bool) :
    (m.selectStop s b).d_ptr.m_current = m.d_ptr.m_current := by
  unfold Model.selectStop; simp only []; split_ifs <;> rfl

theorem selectStop_selection_contains (m : Model) (s s' : StopPtr) (b : Bool) :
    Assoc.contains (m.selectStop s b).d_ptr.m_selection s' =
      if Assoc.contains m.d_ptr.m_stopToPos s = true ∧ s' = s then b
      else Assoc.contains m.d_ptr.m_selection s' := by
  unfold Model.selectStop
  simp only []
  split_ifs with h1 h2 h3 h4 h5 h6 <;>
    simp_all [Model.emit, Assoc.contains_set, Assoc.contains_remove]

theorem selectStop_false_selection (m : Model) (s : StopPtr)
    (h : Assoc.contains m.d_ptr.m_stopToPos s = true) :
    (m.selectStop s false).d_ptr.m_selection = Assoc.remove m.d_ptr.m_selection s := by
  unfold Model.selectStop
  simp only [h, not_true_eq_false, if_false]
  by_cases hs : Assoc.contains m.d_ptr.m_selection s = true
  · simp [hs, Model.emit]
  · have hs' : Assoc.contains m.d_ptr.m_selection s = false := by simpa using hs
    simp [hs', Assoc.remove_of_not_contains]

theorem removeStop_of_not_owned (m : Model) (s : StopPtr)
    (h : Assoc.contains m.d_ptr.m_stopToPos s = false) : m.removeStop s = m := by
  simp [Model.removeStop, h]

theorem removeStop_heap (m : Model) (s : StopPtr)
    (h : Assoc.contains m.d_ptr.m_stopToPos s = true) :
    (m.removeStop s).heap = Assoc.remove m.heap s := by
  simp only [Model.removeStop, h, not_true_eq_false, if_false, Model.deleteStop, Model.emit]
  split_ifs <;> simp [selectStop_heap, setCurrentStop_heap]

theorem removeStop_stopToPos (m : Model) (s : StopPtr)
    (h : Assoc.contains m.d_ptr.m_stopToPos s = true) :
    (m.removeStop s).d_ptr.m_stopToPos = Assoc.remove m.d_ptr.m_stopToPos s := by
  simp only [Model.removeStop, h, not_true_eq_false, if_false, Model.deleteStop, Model.emit]
  split_ifs <;> simp [selectStop_stopToPos, setCurrentStop_stopToPos]

theorem removeStop_posToStop (m : Model) (s : StopPtr)
    (h : Assoc.contains m.d_ptr.m_stopToPos s = true) :
    (m.removeStop s).d_ptr.m_posToStop =
      Assoc.remove m.d_ptr.m_posToStop ((Assoc.find? m.d_ptr.m_stopToPos s).getD 0) := by
  simp only [Model.removeStop, h, not_true_eq_false, if_false, Model.deleteStop, Model.emit]
  split_ifs <;>
    simp [selectStop_stopToPos, setCurrentStop_stopToPos, selectStop_posToStop,
      setCurrentStop_posToStop]

theorem removeStop_selection (m : Model) (s : StopPtr)
    (h : Assoc.contains m.d_ptr.m_stopToPos s = true) :
    (m.removeStop s).d_ptr.m_selection = Assoc.remove m.d_ptr.m_selection s := by
  simp only [Model.removeStop, h, not_true_eq_false, if_false, Model.deleteStop, Model.emit]
  split_ifs
  · rw [selectStop_false_selection _ _ (by rw [setCurrentStop_stopToPos]; exact h),
      setCurrentStop_selection]
  · rw [selectStop_false_selection _ _ h]

theorem removeStop_current (m : Model) (s : StopPtr)
    (h : Assoc.contains m.d_ptr.m_stopToPos s = true) :
    (m.removeStop s).d_ptr.m_current = if m.d_ptr.m_current = s then 0 else m.d_ptr.m_current := by
  simp only [Model.removeStop, h, not_true_eq_false, if_false, Model.deleteStop, Model.emit,
    Model.currentStop]
  split_ifs <;> simp [selectStop_current, setCurrentStop_current]

/-- The clamp written in `addStop` and in `moveStop`. -/
theorem clamp_eq_clamp01 (pos : ℚ) :
    (if pos > 1 then (1 : ℚ) else if pos < 0 then 0 else pos) = clamp01 pos := by
  unfold clamp01
  split_ifs with h1 h2
  · rw [min_eq_left (le_of_lt h1), max_eq_right zero_le_one]
  · rw [min_eq_right (le_of_not_lt h1), max_eq_left (le_of_lt h2)]
  · rw [min_eq_right (le_of_not_lt h1), max_eq_right (le_of_not_lt h2)]

theorem addStop_of_contains (m : Model) (pos : ℚ) (c : QColor)
    (h : Assoc.contains m.d_ptr.m_posToStop (clamp01 pos) = true) : m.addStop pos c = (m, 0) := by
  have hc : (if pos > 1 then (1 : ℚ) else if pos < 0 then 0 else pos) = clamp01 pos :=
    clamp_eq_clamp01 pos
  simp only [Model.addStop]
  rw [hc]
  simp [h]

theorem find?_addStopHeap (h : Heap) (p : ℚ) (c : QColor) (s : StopPtr) :
    Assoc.find? (heapSetColor (heapSetPosition (h ++ [(newAddress h, ({} : QtGradientStopPrivate))])
        (newAddress h) p) (newAddress h) c) s =
      if s = newAddress h then some { m_position := p, m_color := c } else Assoc.find? h s := by
  rw [find?_heapSetColor, find?_heapSetPosition, Assoc.find?_append]
  by_cases hs : s = newAddress h
  · subst hs
    simp [find?_newAddress, Assoc.find?]
  · have : ¬ newAddress h = s := fun h' => hs h'.symm
    simp [hs, Assoc.find?, this]

theorem addStop_of_not_contains (m : Model) (pos : ℚ) (c : QColor)
    (h : Assoc.contains m.d_ptr.m_posToStop (clamp01 pos) = false) :
    m.addStop pos c =
      ({ heap := heapSetColor (heapSetPosition (m.heap ++ [(newAddress m.heap, ({} : QtGradientStopPrivate))])
           (newAddress m.heap) (clamp01 pos)) (newAddress m.heap) c
         d_ptr := { m.d_ptr with
           m_posToStop := Assoc.insertOrdered m.d_ptr.m_posToStop (clamp01 pos) (newAddress m.heap)
           m_stopToPos := Assoc.set m.d_ptr.m_stopToPos (newAddress m.heap) (clamp01 pos) }
         emitted := m.emitted ++ [(Signal.stopAdded (newAddress m.heap),
           { heap := heapSetColor (heapSetPosition (m.heap ++ [(newAddress m.heap, ({} : QtGradientStopPrivate))])
           (newAddress m.heap) (clamp01 pos)) (newAddress m.heap) c
             d_ptr := { m.d_ptr with
               m_posToStop :=
                 Assoc.insertOrdered m.d_ptr.m_posToStop (clamp01 pos) (newAddress m.heap)
               m_stopToPos := Assoc.set m.d_ptr.m_stopToPos (newAddress m.heap) (clamp01 pos) } })] },
        newAddress m.heap) := by
  have hc : (if pos > 1 then (1 : ℚ) else if pos < 0 then 0 else pos) = clamp01 pos :=
    clamp_eq_clamp01 pos
  simp only [Model.addStop]
  rw [hc]
  simp [h, Model.newStop, Model.setPosition, Model.setColor, Model.emit, Model.observe]

theorem moveStop_of_not_owned (m : Model) (s : StopPtr) (p : ℚ)
    (h : Assoc.contains m.d_ptr.m_stopToPos s = false) : m.moveStop s p = m := by
  simp [Model.moveStop, h]

theorem moveStop_of_occupied (m : Model) (s : StopPtr) (p : ℚ)
    (h : Assoc.contains m.d_ptr.m_posToStop p = true) : m.moveStop s p = m := by
  simp [Model.moveStop, h]

theorem moveStop_of_moves (m : Model) (s : StopPtr) (p : ℚ)
    (h1 : Assoc.contains m.d_ptr.m_stopToPos s = true)
    (h2 : Assoc.contains m.d_ptr.m_posToStop p = false) :
    m.moveStop s p =
      { heap := heapSetPosition m.heap s (clamp01 p)
        d_ptr := { m.d_ptr with
          m_posToStop :=
            Assoc.insertOrdered (Assoc.remove m.d_ptr.m_posToStop (m.position s)) (clamp01 p) s
          m_stopToPos := Assoc.set m.d_ptr.m_stopToPos s (clamp01 p) }
        emitted := m.emitted ++ [(Signal.stopMoved s (clamp01 p), m.observe)] } := by
  have hc : (if p > 1 then (1 : ℚ) else if p < 0 then 0 else p) = clamp01 p := clamp_eq_clamp01 p
  simp only [Model.moveStop, h1, h2]
  rw [hc]
  simp [Model.emit, Model.setPosition, Model.position]

theorem swapStops_of_swaps (m : Model) (s1 s2 : StopPtr) (hne : s1 ≠ s2)
    (h1 : Assoc.contains m.d_ptr.m_stopToPos s1 = true)
    (h2 : Assoc.contains m.d_ptr.m_stopToPos s2 = true) :
    m.swapStops s1 s2 =
      { heap := heapSetPosition (heapSetPosition m.heap s1 (m.position s2)) s2 (m.position s1)
        d_ptr := { m.d_ptr with
          m_posToStop :=
            Assoc.insertOrdered (Assoc.insertOrdered m.d_ptr.m_posToStop (m.position s1) s2)
              (m.position s2) s1
          m_stopToPos :=
            Assoc.set (Assoc.set m.d_ptr.m_stopToPos s1 (m.position s2)) s2 (m.position s1) }
        emitted := m.emitted ++ [(Signal.stopsSwapped s1 s2, m.observe)] } := by
  simp [Model.swapStops, hne, h1, h2, Model.emit, Model.setPosition, Model.position]

theorem swapStops_of_not_swaps (m : Model) (s1 s2 : StopPtr)
    (h : s1 = s2 ∨ Assoc.contains m.d_ptr.m_stopToPos s1 = false
      ∨ Assoc.contains m.d_ptr.m_stopToPos s2 = false) :
    m.swapStops s1 s2 = m := by
  unfold Model.swapStops
  rcases h with h | h | h
  · simp [h]
  · simp [h]
  · simp [h]

theorem changeStop_of_changes (m : Model) (s : StopPtr) (c : QColor)
    (h1 : Assoc.contains m.d_ptr.m_stopToPos s = true) (h2 : m.stopColor s ≠ c) :
    m.changeStop s c =
      { heap := heapSetColor m.heap s c
        d_ptr := m.d_ptr
        emitted := m.emitted ++ [(Signal.stopChanged s c, m.observe)] } := by
  simp [Model.changeStop, h1, h2, Model.emit, Model.setColor]

theorem changeStop_of_not_changes (m : Model) (s : StopPtr) (c : QColor)
    (h : Assoc.contains m.d_ptr.m_stopToPos s = false ∨ m.stopColor s = c) :
    m.changeStop s c = m := by
  unfold Model.changeStop
  rcases h with h | h
  · simp [h]
  · simp [h]

/-! ## The index invariant under `addStop` and `removeStop` -/

theorem newAddress_not_owned (m : Model) (hv : m.PointersValid) :
    Assoc.find? m.d_ptr.m_stopToPos (newAddress m.heap) = none := by
  rw [← Assoc.contains_eq_false_iff]
  by_contra hc
  have ho : m.Owns (newAddress m.heap) := by simpa [Model.Owns] using hc
  have := (hv _ ho).2
  rw [newAddress_not_live] at this
  exact Bool.noConfusion this

theorem addStop_pointersValid (m : Model) (pos : ℚ) (c : QColor) (hv : m.PointersValid) :
    (m.addStop pos c).1.PointersValid := by
  by_cases hcon : Assoc.contains m.d_ptr.m_posToStop (clamp01 pos) = true
  · rw [addStop_of_contains m pos c hcon]; exact hv
  · have hcon' : Assoc.contains m.d_ptr.m_posToStop (clamp01 pos) = false := by simpa using hcon
    rw [addStop_of_not_contains m pos c hcon']
    intro s hs
    simp only [Model.Owns, Assoc.contains_set] at hs
    simp only [Assoc.contains, find?_addStopHeap]
    by_cases hsa : s = newAddress m.heap
    · subst hsa
      exact ⟨newAddress_ne_zero _, by simp⟩
    · simp only [hsa, if_false] at hs ⊢
      exact hv s hs

theorem addStop_consistent (m : Model) (pos : ℚ) (c : QColor) (hv : m.PointersValid)
    (hc : m.Consistent) : (m.addStop pos c).1.Consistent := by
  by_cases hcon : Assoc.contains m.d_ptr.m_posToStop (clamp01 pos) = true
  · rw [addStop_of_contains m pos c hcon]; exact hc
  · have hcon' : Assoc.contains m.d_ptr.m_posToStop (clamp01 pos) = false := by simpa using hcon
    have hfree : Assoc.find? m.d_ptr.m_posToStop (clamp01 pos) = none :=
      (Assoc.contains_eq_false_iff _ _).1 hcon'
    have hnew := newAddress_not_owned m hv
    rw [addStop_of_not_contains m pos c hcon']
    intro s p
    simp only [Model.position, deref, Assoc.find?_insertOrdered, Assoc.find?_set,
      find?_addStopHeap]
    by_cases hp : p = clamp01 pos <;> by_cases hs : s = newAddress m.heap
    · subst hp; subst hs; simp
    · subst hp
      have h1 : ¬ Assoc.find? m.d_ptr.m_stopToPos s = some (clamp01 pos) := by
        intro h
        rw [((hc s _).1).2 h] at hfree
        exact Option.noConfusion hfree
      have h2 : ¬ newAddress m.heap = s := fun h => hs h.symm
      simp [hs, h1, h2]
    · subst hs
      have h1 : ¬ Assoc.find? m.d_ptr.m_posToStop p = some (newAddress m.heap) := by
        intro h
        rw [((hc _ p).1).1 h] at hnew
        exact Option.noConfusion hnew
      have h2 : ¬ clamp01 pos = p := fun h => hp h.symm
      simp [hp, h1, h2]
    · simp only [hp, hs, if_false]
      exact hc s p

theorem removeStop_pointersValid (m : Model) (s0 : StopPtr) (hv : m.PointersValid) :
    (m.removeStop s0).PointersValid := by
  by_cases ho : Assoc.contains m.d_ptr.m_stopToPos s0 = true
  · intro s hs
    simp only [Model.Owns, removeStop_stopToPos m s0 ho, Assoc.contains_remove] at hs
    rw [removeStop_heap m s0 ho, Assoc.contains_remove]
    by_cases hss : s = s0
    · simp [hss] at hs
    · simp only [hss, if_false] at hs ⊢
      exact hv s hs
  · rw [removeStop_of_not_owned m s0 (by simpa using ho)]; exact hv

theorem removeStop_consistent (m : Model) (s0 : StopPtr) (hc : m.Consistent) :
    (m.removeStop s0).Consistent := by
  by_cases ho : Assoc.contains m.d_ptr.m_stopToPos s0 = true
  · obtain ⟨p0, hp0⟩ := (Assoc.contains_iff _ _).1 ho
    have hk0 : Assoc.find? m.d_ptr.m_posToStop p0 = some s0 := ((hc s0 p0).1).2 hp0
    intro s p
    simp only [Model.position, deref, removeStop_stopToPos m s0 ho, removeStop_posToStop m s0 ho,
      removeStop_heap m s0 ho, Assoc.find?_remove, hp0, Option.getD_some]
    by_cases hp : p = p0 <;> by_cases hs : s = s0
    · simp [hp, hs]
    · subst hp
      have h1 : ¬ Assoc.find? m.d_ptr.m_stopToPos s = some p := by
        intro h
        rw [((hc s _).1).2 h] at hk0
        exact hs (Option.some.inj hk0)
      simp [hs, h1]
    · subst hs
      have h1 : ¬ Assoc.find? m.d_ptr.m_posToStop p = some s := by
        intro h
        rw [((hc _ p).1).1 h] at hp0
        exact hp (Option.some.inj hp0)
      simp [hp, h1]
    · simp only [hp, hs, if_false]
      exact hc s p
  · rw [removeStop_of_not_owned m s0 (by simpa using ho)]; exact hc

theorem empty_pointersValid : Model.empty.PointersValid := by
  intro s hs
  simp [Model.Owns, Model.empty, Assoc.contains, Assoc.find?] at hs

theorem empty_consistent : Model.empty.Consistent := by
  intro s p
  simp [Model.empty, Assoc.find?]

theorem run_addRemove_invariant (cs : List AddRemove) (m : Model) (hv : m.PointersValid)
    (hc : m.Consistent) :
    (m.run (cs.map AddRemove.toCall)).PointersValid ∧ (m.run (cs.map AddRemove.toCall)).Consistent := by
  induction cs generalizing m with
  | nil => exact ⟨hv, hc⟩
  | cons c t ih =>
    simp only [List.map_cons, Model.run, List.foldl_cons]
    cases c with
    | addStop pos color =>
      exact ih _ (addStop_pointersValid m pos color hv) (addStop_consistent m pos color hv hc)
    | removeStop stop =>
      exact ih _ (removeStop_pointersValid m stop hv) (removeStop_consistent m stop hc)

/-- For positions that are numbers (a NaN position is the subject of
`addStop_nan_breaks_index_consistency`): starting from the empty model, after every finite
sequence of `addStop` and `removeStop` calls (any rational positions and any stop
arguments) the position index and the reverse index are inverse to each other: a stop `s`
is keyed at `p` in the position index exactly when the reverse index maps `s` to `p`, and
then `s.position() == p`. -/
theorem addStop_removeStop_indices_consistent (calls : List AddRemove) :
    (Model.empty.run (calls.map AddRemove.toCall)).Consistent :=
  (run_addRemove_invariant calls Model.empty empty_pointersValid empty_consistent).2

theorem run_two_stops :
    Model.empty.run [.addStop (1/2) QColor.black, .addStop 1 QColor.white] =
      { heap := [(1, ⟨1/2, QColor.black⟩), (2, ⟨1, QColor.white⟩)]
        d_ptr := { m_posToStop := [(1/2, 1), (1, 2)], m_stopToPos := [(1, 1/2), (2, 1)],
                   m_selection := [], m_current := 0 }
        emitted := [(.stopAdded 1, ⟨[(1, ⟨1/2, QColor.black⟩)],
                      { m_posToStop := [(1/2, 1)], m_stopToPos := [(1, 1/2)],
                        m_selection := [], m_current := 0 }⟩),
                    (.stopAdded 2, ⟨[(1, ⟨1/2, QColor.black⟩), (2, ⟨1, QColor.white⟩)],
                      { m_posToStop := [(1/2, 1), (1, 2)], m_stopToPos := [(1, 1/2), (2, 1)],
                        m_selection := [], m_current := 0 }⟩)] } := by
  norm_num [Model.run, Model.call, Model.addStop, Model.empty, Assoc.contains, Assoc.find?,
    Model.newStop, newAddress, Assoc.keys, Model.setPosition, Model.setColor, heapSetPosition,
    heapSetColor, Assoc.insertOrdered, Assoc.set, Model.emit, Model.observe]

theorem moveStop_two_stops_beyond_one :
    (Model.empty.run [.addStop (1/2) QColor.black, .addStop 1 QColor.white]).moveStop 1 (3/2) =
      { heap := [(1, ⟨1, QColor.black⟩), (2, ⟨1, QColor.white⟩)]
        d_ptr := { m_posToStop := [(1, 1)], m_stopToPos := [(1, 1), (2, 1)],
                   m_selection := [], m_current := 0 }
        emitted :=
          (Model.empty.run [.addStop (1/2) QColor.black, .addStop 1 QColor.white]).emitted ++
            [(.stopMoved 1 1,
              (Model.empty.run [.addStop (1/2) QColor.black, .addStop 1 QColor.white]).observe)] } := by
  rw [run_two_stops]
  norm_num [Model.moveStop, Assoc.contains, Assoc.find?, Model.setPosition, heapSetPosition,
    Assoc.insertOrdered, Assoc.set, Assoc.remove, Model.emit, Model.observe, Model.position, deref]

/-- C2, evaluated at the failing call sequence `addStop(0.5, black)`, `addStop(1.0, white)`,
`moveStop(first stop, 1.5)`: afterwards the reverse index still records the second stop
at position 1, but the position index keys the first stop there, and both owned stops
have position 1; the two indices are not consistent. -/
theorem run_moveStop_beyond_one_inconsistent :
    Assoc.find? (Model.empty.run [.addStop (1/2) QColor.black, .addStop 1 QColor.white,
      .moveStop 1 (3/2)]).d_ptr.m_stopToPos 2 = some 1 ∧
    Assoc.find? (Model.empty.run [.addStop (1/2) QColor.black, .addStop 1 QColor.white,
      .moveStop 1 (3/2)]).d_ptr.m_posToStop 1 = some 1 ∧
    (Model.empty.run [.addStop (1/2) QColor.black, .addStop 1 QColor.white,
      .moveStop 1 (3/2)]).Owns 1 ∧
    (Model.empty.run [.addStop (1/2) QColor.black, .addStop 1 QColor.white,
      .moveStop 1 (3/2)]).Owns 2 ∧
    (Model.empty.run [.addStop (1/2) QColor.black, .addStop 1 QColor.white,
      .moveStop 1 (3/2)]).position 1 = 1 ∧
    (Model.empty.run [.addStop (1/2) QColor.black, .addStop 1 QColor.white,
      .moveStop 1 (3/2)]).position 2 = 1 ∧
    ¬ (Model.empty.run [.addStop (1/2) QColor.black, .addStop 1 QColor.white,
      .moveStop 1 (3/2)]).Consistent := by
  have h : Model.empty.run
      [.addStop (1/2) QColor.black, .addStop 1 QColor.white, .moveStop 1 (3/2)] =
      (Model.empty.run [.addStop (1/2) QColor.black, .addStop 1 QColor.white]).moveStop 1 (3/2) := rfl
  simp only [h, moveStop_two_stops_beyond_one]
  refine ⟨?_, ?_, ?_, ?_, ?_, ?_, ?_⟩
  · simp [Assoc.find?]
  · simp [Assoc.find?]
  · simp [Model.Owns, Assoc.contains, Assoc.find?]
  · simp [Model.Owns, Assoc.contains, Assoc.find?]
  · simp [Model.position, deref, Assoc.find?]
  · simp [Model.position, deref, Assoc.find?]
  · intro hc
    have := ((hc 2 1).1).2 (by simp [Assoc.find?])
    simp [Assoc.find?] at this

/-- C3, evaluated at the failing input: in the model with stop 1 at 0.5 and stop 2 at 1.0,
the clamped target of `moveStop(stop 1, 1.5)` is 1.0, which stop 2 occupies; the call
is not a no-op: it emits `stopMoved`, moves stop 1 to 1.0 and overwrites the entry of
stop 2 in the position index. -/
theorem moveStop_clamped_collision_not_noop :
    (Model.empty.run [.addStop (1/2) QColor.black, .addStop 1 QColor.white]).Consistent ∧
    (Model.empty.run [.addStop (1/2) QColor.black, .addStop 1 QColor.white]).Owns 1 ∧
    (Model.empty.run [.addStop (1/2) QColor.black, .addStop 1 QColor.white]).at (clamp01 (3/2)) = 2 ∧
    (Model.empty.run [.addStop (1/2) QColor.black, .addStop 1 QColor.white]).moveStop 1 (3/2)
      ≠ Model.empty.run [.addStop (1/2) QColor.black, .addStop 1 QColor.white] ∧
    ((Model.empty.run [.addStop (1/2) QColor.black, .addStop 1 QColor.white]).moveStop 1
      (3/2)).at 1 = 1 ∧
    ((Model.empty.run [.addStop (1/2) QColor.black, .addStop 1 QColor.white]).moveStop 1
      (3/2)).position 1 = 1 ∧
    ((Model.empty.run [.addStop (1/2) QColor.black, .addStop 1 QColor.white]).moveStop 1
      (3/2)).emitted =
      (Model.empty.run [.addStop (1/2) QColor.black, .addStop 1 QColor.white]).emitted ++
        [(.stopMoved 1 1,
          (Model.empty.run [.addStop (1/2) QColor.black, .addStop 1 QColor.white]).observe)] := by
  refine ⟨?_, ?_, ?_, ?_, ?_, ?_, ?_⟩
  · exact (run_addRemove_invariant [.addStop (1/2) QColor.black, .addStop 1 QColor.white]
      Model.empty empty_pointersValid empty_consistent).2
  · rw [run_two_stops]; simp [Model.Owns, Assoc.contains, Assoc.find?]
  · rw [run_two_stops]; norm_num [Model.at, clamp01, Assoc.contains, Assoc.find?]
  · rw [moveStop_two_stops_beyond_one, run_two_stops]
    intro h
    have := congrArg (fun x => x.d_ptr.m_posToStop.length) h
    simp at this
  · rw [moveStop_two_stops_beyond_one]; simp [Model.at, Assoc.contains, Assoc.find?]
  · rw [moveStop_two_stops_beyond_one]; simp [Model.position, deref, Assoc.find?]
  · rw [moveStop_two_stops_beyond_one]

theorem at_eq_zero_not_contains (m : Model) (hv : m.PointersValid) (hc : m.Consistent) (p : ℚ)
    (h : m.at p = 0) : Assoc.contains m.d_ptr.m_posToStop p = false := by
  by_contra hcon
  have hcon' : Assoc.contains m.d_ptr.m_posToStop p = true := by simpa using hcon
  obtain ⟨s, hs⟩ := (Assoc.contains_iff _ _).1 hcon'
  have hs0 : s = 0 := by
    simpa [Model.at, hcon', hs] using h
  subst hs0
  have ho : m.Owns 0 := (Assoc.contains_iff _ _).2 ⟨p, ((hc 0 p).1).1 hs⟩
  exact (hv 0 ho).1 rfl

/-- C4: if the position index already has an entry at the clamped position, `addStop`
returns null and leaves the model unchanged (no stop, position, colour, selection or
current-stop change, and no signal); in particular, after a successful
`addStop(pos, c)` an immediately following `addStop(pos, c2)` returns null, changes
nothing, and the stop at that position still has colour `c`. -/
theorem addStop_occupied_rejected (m : Model) (pos : ℚ) (c c2 : QColor) :
    (Assoc.contains m.d_ptr.m_posToStop (clamp01 pos) = true → m.addStop pos c2 = (m, 0)) ∧
    ((m.addStop pos c).2 ≠ 0 →
      (m.addStop pos c).1.addStop pos c2 = ((m.addStop pos c).1, 0) ∧
      ((m.addStop pos c).1.addStop pos c2).1.at (clamp01 pos) = (m.addStop pos c).2 ∧
      ((m.addStop pos c).1.addStop pos c2).1.stopColor
        (((m.addStop pos c).1.addStop pos c2).1.at (clamp01 pos)) = c) := by
  refine ⟨fun h => addStop_of_contains m pos c2 h, fun hne => ?_⟩
  by_cases hcon : Assoc.contains m.d_ptr.m_posToStop (clamp01 pos) = true
  · rw [addStop_of_contains m pos c hcon] at hne
    exact absurd rfl hne
  · have hcon' : Assoc.contains m.d_ptr.m_posToStop (clamp01 pos) = false := by simpa using hcon
    have hocc : Assoc.contains (m.addStop pos c).1.d_ptr.m_posToStop (clamp01 pos) = true := by
      rw [addStop_of_not_contains m pos c hcon']
      simp [Assoc.contains_insertOrdered]
    rw [addStop_of_contains _ pos c2 hocc]
    have hat : (m.addStop pos c).1.at (clamp01 pos) = (m.addStop pos c).2 := by
      rw [addStop_of_not_contains m pos c hcon']
      simp [Model.at, Assoc.contains_insertOrdered, Assoc.find?_insertOrdered]
    refine ⟨rfl, hat, ?_⟩
    simp only [hat]
    rw [addStop_of_not_contains m pos c hcon']
    simp [Model.stopColor, deref, find?_addStopHeap]

/-- C4 at a concrete input: on the empty model `addStop(0.5, black)` succeeds, and the
following `addStop(0.5, white)` is rejected and leaves the black stop in place. -/
theorem addStop_occupied_rejected_witness :
    (Assoc.contains (Model.empty.addStop (1/2) QColor.black).1.d_ptr.m_posToStop (clamp01 (1/2)) = true ∧
      (Model.empty.addStop (1/2) QColor.black).1.addStop (1/2) QColor.white =
        ((Model.empty.addStop (1/2) QColor.black).1, 0)) ∧
    ((Model.empty.addStop (1/2) QColor.black).2 ≠ 0 ∧
      ((Model.empty.addStop (1/2) QColor.black).1.addStop (1/2) QColor.white).1.stopColor
        (((Model.empty.addStop (1/2) QColor.black).1.addStop (1/2) QColor.white).1.at
          (clamp01 (1/2))) = QColor.black) := by
  have h1 : Assoc.contains (Model.empty.addStop (1/2) QColor.black).1.d_ptr.m_posToStop
      (clamp01 (1/2)) = true := by
    norm_num [Model.addStop, Model.empty, Assoc.contains, Assoc.find?, Model.newStop, newAddress,
      Assoc.keys, Model.setPosition, Model.setColor, heapSetPosition, heapSetColor,
      Assoc.insertOrdered, Assoc.set, Model.emit, Model.observe, clamp01]
  have h2 : (Model.empty.addStop (1/2) QColor.black).2 ≠ 0 := by
    norm_num [Model.addStop, Model.empty, Assoc.contains, Assoc.find?, Model.newStop, newAddress,
      Assoc.keys, Model.setPosition, Model.setColor, heapSetPosition, heapSetColor,
      Assoc.insertOrdered, Assoc.set, Model.emit, Model.observe]
  exact ⟨⟨h1, (addStop_occupied_rejected _ (1/2) QColor.white QColor.white).1 h1⟩,
    h2, ((addStop_occupied_rejected Model.empty (1/2) QColor.black QColor.white).2 h2).2.2⟩

/-- C6: in a model with consistent indices, after `removeStop(s)` of an owned stop `s`,
`s` is absent from the position index, the reverse index and the selection; the
current stop is null if it was `s` and unchanged otherwise; every other stop keeps its
entries in both indices, its position, its colour and its selection state. -/
theorem removeStop_owned (m : Model) (s : StopPtr) (hc : m.Consistent) (ho : m.Owns s) :
    (∀ p, Assoc.find? (m.removeStop s).d_ptr.m_posToStop p ≠ some s) ∧
    ¬ (m.removeStop s).Owns s ∧
    s ∉ (m.removeStop s).selectedStops ∧
    (m.removeStop s).isSelected s = false ∧
    (m.removeStop s).currentStop = (if m.currentStop = s then 0 else m.currentStop) ∧
    (∀ s', s' ≠ s →
      Assoc.find? (m.removeStop s).d_ptr.m_stopToPos s' = Assoc.find? m.d_ptr.m_stopToPos s' ∧
      (∀ p, (Assoc.find? (m.removeStop s).d_ptr.m_posToStop p = some s' ↔
        Assoc.find? m.d_ptr.m_posToStop p = some s')) ∧
      (m.removeStop s).position s' = m.position s' ∧
      (m.removeStop s).stopColor s' = m.stopColor s' ∧
      (m.removeStop s).isSelected s' = m.isSelected s') := by
  have ho' : Assoc.contains m.d_ptr.m_stopToPos s = true := ho
  obtain ⟨p0, hp0⟩ := (Assoc.contains_iff _ _).1 ho'
  have hk0 : Assoc.find? m.d_ptr.m_posToStop p0 = some s := ((hc s p0).1).2 hp0
  refine ⟨?_, ?_, ?_, ?_, ?_, ?_⟩
  · intro p
    rw [removeStop_posToStop m s ho', hp0, Option.getD_some, Assoc.find?_remove]
    by_cases hp : p = p0
    · simp [hp]
    · simp only [hp, if_false]
      intro h
      rw [((hc s p).1).1 h] at hp0
      exact hp (Option.some.inj hp0)
  · simp [Model.Owns, removeStop_stopToPos m s ho', Assoc.contains_remove]
  · rw [Model.selectedStops, Assoc.mem_keys_iff_contains, removeStop_selection m s ho',
      Assoc.contains_remove]
    simp
  · simp [Model.isSelected, removeStop_selection m s ho', Assoc.contains_remove]
  · simp only [Model.currentStop]
    exact removeStop_current m s ho'
  · intro s' hs'
    refine ⟨?_, ?_, ?_, ?_, ?_⟩
    · simp [removeStop_stopToPos m s ho', Assoc.find?_remove, hs']
    · intro p
      rw [removeStop_posToStop m s ho', hp0, Option.getD_some, Assoc.find?_remove]
      by_cases hp : p = p0
      · subst hp
        have h1 : ¬ s = s' := fun h => hs' h.symm
        simp [hk0, h1]
      · simp [hp]
    · simp [Model.position, deref, removeStop_heap m s ho', Assoc.find?_remove, hs']
    · simp [Model.stopColor, deref, removeStop_heap m s ho', Assoc.find?_remove, hs']
    · simp [Model.isSelected, removeStop_selection m s ho', Assoc.contains_remove, hs']

/-- C6 at a concrete input: removing stop 1 from the model with stops at 0.5 and 1.0. -/
theorem removeStop_owned_witness :
    (Model.empty.run [.addStop (1/2) QColor.black, .addStop 1 QColor.white]).Consistent ∧
    (Model.empty.run [.addStop (1/2) QColor.black, .addStop 1 QColor.white]).Owns 1 ∧
    ¬ ((Model.empty.run [.addStop (1/2) QColor.black, .addStop 1 QColor.white]).removeStop 1).Owns 1 :=
  have hc := (run_addRemove_invariant [.addStop (1/2) QColor.black, .addStop 1 QColor.white]
      Model.empty empty_pointersValid empty_consistent).2
  have ho : (Model.empty.run [.addStop (1/2) QColor.black, .addStop 1 QColor.white]).Owns 1 := by
    rw [run_two_stops]; simp [Model.Owns, Assoc.contains, Assoc.find?]
  ⟨hc, ho, (removeStop_owned _ 1 hc ho).2.1⟩

/-! ## Properties kept by every public mutator -/

theorem foldl_preserves {α : Type} (P : Model → Prop) (f : Model → α → Model)
    (hf : ∀ m a, P m → P (f m a)) (l : List α) (m : Model) (hm : P m) : P (l.foldl f m) := by
  induction l generalizing m with
  | nil => exact hm
  | cons a t ih => exact ih _ (hf m a hm)

theorem preserved_moveStopsStep {P : Model → Prop} (hP : Preserved P) (current : StopPtr)
    (newPos offset : ℚ) (stopList : List (ℚ × StopPtr)) (m : Model) (it : ℚ × StopPtr)
    (hm : P m) : P (Model.moveStopsStep current newPos offset stopList m it) := by
  unfold Model.moveStopsStep
  simp only []
  apply hP.moveStop
  split_ifs <;> first | exact hP.removeStop _ _ hm | exact hm

theorem ite3_preserves (P : Model → Prop) {c1 c2 c3 : Prop} [Decidable c1] [Decidable c2]
    [Decidable c3] {m x : Model} (hm : P m) (hx : P x) :
    P (if c1 then m else if c2 then m else if c3 then m else x) := by
  split_ifs <;> assumption

theorem preserved_moveStops {P : Model → Prop} (hP : Preserved P) (m : Model) (newPosition : ℚ)
    (hm : P m) : P (m.moveStops newPosition) := by
  unfold Model.moveStops
  exact ite3_preserves P hm (foldl_preserves P _ (preserved_moveStopsStep hP _ _ _ _) _ _ hm)

theorem preserved_flipAll {P : Model → Prop} (hP : Preserved P) (m : Model) (hm : P m) :
    P m.flipAll := by
  unfold Model.flipAll
  have key : ∀ (l : List (ℚ × StopPtr)) (st : Model × List (StopPtr × Bool)),
      P st.1 → P (l.foldl (Model.flipAllStep m.stops) st).1 := by
    intro l
    induction l with
    | nil => intro st h; exact h
    | cons a t ih =>
      intro st h
      apply ih
      unfold Model.flipAllStep
      simp only []
      split_ifs
      · exact h
      · exact hP.swapStops _ _ _ h
      · exact hP.moveStop _ _ _ h
  exact key _ _ hm

theorem preserved_call {P : Model → Prop} (hP : Preserved P) (m : Model) (c : Call) (hm : P m) :
    P (m.call c) := by
  cases c with
  | addStop pos color => exact hP.addStop m pos color hm
  | removeStop stop => exact hP.removeStop m stop hm
  | moveStop stop newPos => exact hP.moveStop m stop newPos hm
  | swapStops stop1 stop2 => exact hP.swapStops m stop1 stop2 hm
  | changeStop stop newColor => exact hP.changeStop m stop newColor hm
  | selectStop stop select => exact hP.selectStop m stop select hm
  | setCurrentStop stop => exact hP.setCurrentStop m stop hm
  | moveStops newPosition => exact preserved_moveStops hP m newPosition hm
  | flipAll => exact preserved_flipAll hP m hm
  | clear => exact foldl_preserves P _ (fun m' s h => hP.removeStop m' s h) _ _ hm
  | clearSelection => exact foldl_preserves P _ (fun m' s h => hP.selectStop m' s false h) _ _ hm
  | selectAll => exact foldl_preserves P _ (fun m' it h => hP.selectStop m' it.2 true h) _ _ hm
  | deleteStops =>
    show P (Model.deleteStops m)
    unfold Model.deleteStops
    simp only []
    have h1 := foldl_preserves P _ (fun m' s h => hP.removeStop m' s h) m.selectedStops m hm
    split_ifs
    · exact hP.removeStop _ _ h1
    · exact h1

theorem preserved_run {P : Model → Prop} (hP : Preserved P) (calls : List Call) (m : Model)
    (hm : P m) : P (m.run calls) := by
  induction calls generalizing m with
  | nil => exact hm
  | cons c t ih => exact ih _ (preserved_call hP m c hm)

/-! ## Selection and current stop reference owned stops only -/

theorem selectionOwned_of_eq (m m' : Model)
    (hsub : ∀ s, m.Owns s → m'.Owns s) (hsel : m'.d_ptr.m_selection = m.d_ptr.m_selection)
    (hcur : m'.d_ptr.m_current = m.d_ptr.m_current) (h : m.SelectionOwned) : m'.SelectionOwned := by
  refine ⟨fun s hs => hsub s (h.1 s ?_), ?_⟩
  · simpa [Model.selectedStops, hsel] using hs
  · rcases h.2 with h0 | ho
    · left; simpa [Model.currentStop, hcur] using h0
    · right
      have := hsub _ ho
      simpa [Model.currentStop, hcur] using this

theorem selectionOwned_preserved : Preserved Model.SelectionOwned where
  addStop := by
    intro m pos c h
    by_cases hcon : Assoc.contains m.d_ptr.m_posToStop (clamp01 pos) = true
    · rw [addStop_of_contains m pos c hcon]; exact h
    · rw [addStop_of_not_contains m pos c (by simpa using hcon)]
      refine selectionOwned_of_eq m _ ?_ rfl rfl h
      intro s hs
      simp only [Model.Owns, Assoc.contains_set]
      split_ifs
      · rfl
      · exact hs
  removeStop := by
    intro m s0 h
    by_cases ho : Assoc.contains m.d_ptr.m_stopToPos s0 = true
    · have hown : ∀ s, s ≠ s0 → m.Owns s → (m.removeStop s0).Owns s := by
        intro s hne hs
        simpa [Model.Owns, removeStop_stopToPos m s0 ho, Assoc.contains_remove, hne] using hs
      refine ⟨?_, ?_⟩
      · intro s hs
        rw [Model.selectedStops, Assoc.mem_keys_iff_contains, removeStop_selection m s0 ho,
          Assoc.contains_remove] at hs
        by_cases hne : s = s0
        · simp [hne] at hs
        · simp only [hne, if_false] at hs
          exact hown s hne (h.1 s ((Assoc.mem_keys_iff_contains _ _).2 hs))
      · simp only [Model.currentStop, removeStop_current m s0 ho]
        by_cases hcur : m.d_ptr.m_current = s0
        · left; simp [hcur]
        · simp only [hcur, if_false]
          rcases h.2 with h0 | hown'
          · left; exact h0
          · right; exact hown _ hcur hown'
    · rw [removeStop_of_not_owned m s0 (by simpa using ho)]; exact h
  moveStop := by
    intro m s p h
    by_cases h1 : Assoc.contains m.d_ptr.m_stopToPos s = true
    · by_cases h2 : Assoc.contains m.d_ptr.m_posToStop p = true
      · rw [moveStop_of_occupied m s p h2]; exact h
      · rw [moveStop_of_moves m s p h1 (by simpa using h2)]
        refine selectionOwned_of_eq m _ ?_ rfl rfl h
        intro s' hs'
        simp only [Model.Owns, Assoc.contains_set]
        split_ifs
        · rfl
        · exact hs'
    · rw [moveStop_of_not_owned m s p (by simpa using h1)]; exact h
  swapStops := by
    intro m s1 s2 h
    by_cases hsw : s1 ≠ s2 ∧ Assoc.contains m.d_ptr.m_stopToPos s1 = true
        ∧ Assoc.contains m.d_ptr.m_stopToPos s2 = true
    · rw [swapStops_of_swaps m s1 s2 hsw.1 hsw.2.1 hsw.2.2]
      refine selectionOwned_of_eq m _ ?_ rfl rfl h
      intro s' hs'
      simp only [Model.Owns, Assoc.contains_set]
      split_ifs
      · rfl
      · rfl
      · exact hs'
    · rw [swapStops_of_not_swaps m s1 s2]
      · exact h
      · by_cases h1 : s1 = s2
        · exact Or.inl h1
        · by_cases h2 : Assoc.contains m.d_ptr.m_stopToPos s1 = true
          · right; right
            have : ¬ Assoc.contains m.d_ptr.m_stopToPos s2 = true := fun h3 => hsw ⟨h1, h2, h3⟩
            simpa using this
          · right; left; simpa using h2
  changeStop := by
    intro m s c h
    by_cases hch : Assoc.contains m.d_ptr.m_stopToPos s = true ∧ m.stopColor s ≠ c
    · rw [changeStop_of_changes m s c hch.1 hch.2]
      exact selectionOwned_of_eq m _ (fun _ hs => hs) rfl rfl h
    · rw [changeStop_of_not_changes m s c]
      · exact h
      · by_cases h1 : Assoc.contains m.d_ptr.m_stopToPos s = true
        · right
          by_contra h2
          exact hch ⟨h1, h2⟩
        · left; simpa using h1
  selectStop := by
    intro m s b h
    refine ⟨?_, ?_⟩
    · intro s' hs'
      rw [Model.selectedStops, Assoc.mem_keys_iff_contains, selectStop_selection_contains] at hs'
      simp only [Model.Owns, selectStop_stopToPos]
      split_ifs at hs' with hc
      · rw [hc.2]; exact hc.1
      · exact h.1 s' ((Assoc.mem_keys_iff_contains _ _).2 hs')
    · simp only [Model.currentStop, Model.Owns, selectStop_current, selectStop_stopToPos]
      exact h.2
  setCurrentStop := by
    intro m s h
    refine ⟨?_, ?_⟩
    · intro s' hs'
      simp only [Model.selectedStops, setCurrentStop_selection] at hs'
      simp only [Model.Owns, setCurrentStop_stopToPos]
      exact h.1 s' hs'
    · simp only [Model.currentStop, Model.Owns, setCurrentStop_current, setCurrentStop_stopToPos]
      split_ifs with hc
      · exact h.2
      · by_cases hs0 : s = 0
        · exact Or.inl hs0
        · right
          by_contra hno
          exact hc ⟨hs0, hno⟩

theorem empty_selectionOwned : Model.empty.SelectionOwned := by
  refine ⟨?_, Or.inl rfl⟩
  intro s hs
  simp [Model.selectedStops, Model.empty, Assoc.keys] at hs

/-- C7: in every state reached from the empty model by any finite sequence of calls of the
public mutators, every selected stop is owned by the model and the current stop is
null or owned. -/
theorem reachable_selection_and_current_owned (calls : List Call) :
    (Model.empty.run calls).SelectionOwned :=
  preserved_run selectionOwned_preserved calls Model.empty empty_selectionOwned

/-! ## Calls on stops the model does not own -/

/-- C8: for a non-null stop `u` that the model does not own, `removeStop(u)`,
`moveStop(u, p)`, `swapStops(u, s)`, `swapStops(s, u)`, `changeStop(u, c)`,
`selectStop(u, b)` and `setCurrentStop(u)` return the model unchanged, the list of
emitted signals included. -/
theorem unowned_stop_calls_are_noops (m : Model) (u : StopPtr) (hu : u ≠ 0) (hn : ¬ m.Owns u) :
    m.removeStop u = m ∧ (∀ p, m.moveStop u p = m) ∧ (∀ s, m.swapStops u s = m) ∧
    (∀ s, m.swapStops s u = m) ∧ (∀ c, m.changeStop u c = m) ∧ (∀ b, m.selectStop u b = m) ∧
    m.setCurrentStop u = m := by
  have h : Assoc.contains m.d_ptr.m_stopToPos u = false := by
    simpa [Model.Owns] using hn
  refine ⟨removeStop_of_not_owned m u h, fun p => moveStop_of_not_owned m u p h,
    fun s => swapStops_of_not_swaps m u s (Or.inr (Or.inl h)),
    fun s => swapStops_of_not_swaps m s u (Or.inr (Or.inr h)),
    fun c => changeStop_of_not_changes m u c (Or.inl h), fun b => ?_, ?_⟩
  · simp [Model.selectStop, h]
  · simp [Model.setCurrentStop, h, hu]

/-- C8 at a concrete input: stop 2 is not owned by the model whose only stop is stop 1. -/
theorem unowned_stop_calls_are_noops_witness :
    (2 : StopPtr) ≠ 0 ∧ ¬ (Model.empty.addStop (1/2) QColor.black).1.Owns 2 ∧
    (Model.empty.addStop (1/2) QColor.black).1.removeStop 2 =
      (Model.empty.addStop (1/2) QColor.black).1 ∧
    (Model.empty.addStop (1/2) QColor.black).1.setCurrentStop 2 =
      (Model.empty.addStop (1/2) QColor.black).1 :=
  have hn : ¬ (Model.empty.addStop (1/2) QColor.black).1.Owns 2 := by
    norm_num [Model.Owns, Model.addStop, Model.empty, Assoc.contains, Assoc.find?, Model.newStop,
      newAddress, Assoc.keys, Model.setPosition, Model.setColor, heapSetPosition, heapSetColor,
      Assoc.insertOrdered, Assoc.set, Model.emit, Model.observe]
  have h := unowned_stop_calls_are_noops (Model.empty.addStop (1/2) QColor.black).1 2
    (by decide) hn
  ⟨by decide, hn, h.1, h.2.2.2.2.2.2⟩

/-! ## Order of signal and mutation -/

/-- C9 as stated fails for `addStop`: on the empty model, `addStop(0.5, black)` emits
`stopAdded` for the new stop 1 when that stop is already in both indices; the state
observable at emission differs from the state before the call. -/
theorem addStop_emits_after_insertion :
    ∃ obs, (Model.empty.addStop (1/2) QColor.black).1.emitted = [(Signal.stopAdded 1, obs)] ∧
      Assoc.find? obs.d_ptr.m_posToStop (1/2) = some 1 ∧
      Assoc.find? obs.d_ptr.m_stopToPos 1 = some (1/2) ∧
      Assoc.find? Model.empty.observe.d_ptr.m_posToStop (1/2) = none ∧
      obs ≠ Model.empty.observe := by
  refine ⟨⟨[(1, ⟨1/2, QColor.black⟩)],
    { m_posToStop := [(1/2, 1)], m_stopToPos := [(1, 1/2)], m_selection := [], m_current := 0 }⟩,
    ?_, ?_, ?_, ?_, ?_⟩
  · norm_num [Model.addStop, Model.empty, Assoc.contains, Assoc.find?, Model.newStop,
      newAddress, Assoc.keys, Model.setPosition, Model.setColor, heapSetPosition, heapSetColor,
      Assoc.insertOrdered, Assoc.set, Model.emit, Model.observe]
  · simp [Assoc.find?]
  · simp [Assoc.find?]
  · simp [Model.empty, Model.observe, Assoc.find?]
  · intro h
    have := congrArg (fun o => o.heap.length) h
    simp [Model.empty, Model.observe] at this

/-- C9, amended: `removeStop`, `moveStop`, `swapStops`, `changeStop`, `selectStop` and
`setCurrentStop` either change nothing or emit their signal with the state that was
observable before the mutation it reports (for `removeStop`: after the current stop
and the selection were cleared of the stop, with the heap and both indices as before
the call, the stop still in them); `addStop` either is rejected or emits `stopAdded`
last, with the state observable after the new stop was inserted into both indices. -/
theorem signal_and_mutation_order (m : Model) :
    (∀ s, m.removeStop s = m ∨
      ((m.removeStop s).emitted =
          ((if m.currentStop = s then m.setCurrentStop 0 else m).selectStop s false).emitted ++
            [(Signal.stopRemoved s,
              ((if m.currentStop = s then m.setCurrentStop 0 else m).selectStop s false).observe)] ∧
        ((if m.currentStop = s then m.setCurrentStop 0 else m).selectStop s false).observe.heap
          = m.heap ∧
        ((if m.currentStop = s then m.setCurrentStop 0 else m).selectStop s
          false).observe.d_ptr.m_posToStop = m.d_ptr.m_posToStop ∧
        ((if m.currentStop = s then m.setCurrentStop 0 else m).selectStop s
          false).observe.d_ptr.m_stopToPos = m.d_ptr.m_stopToPos)) ∧
    (∀ s p, m.moveStop s p = m ∨
      (m.moveStop s p).emitted = m.emitted ++ [(Signal.stopMoved s (clamp01 p), m.observe)]) ∧
    (∀ s1 s2, m.swapStops s1 s2 = m ∨
      (m.swapStops s1 s2).emitted = m.emitted ++ [(Signal.stopsSwapped s1 s2, m.observe)]) ∧
    (∀ s c, m.changeStop s c = m ∨
      (m.changeStop s c).emitted = m.emitted ++ [(Signal.stopChanged s c, m.observe)]) ∧
    (∀ s b, m.selectStop s b = m ∨
      (m.selectStop s b).emitted = m.emitted ++ [(Signal.stopSelected s b, m.observe)]) ∧
    (∀ s, m.setCurrentStop s = m ∨
      (m.setCurrentStop s).emitted = m.emitted ++ [(Signal.currentStopChanged s, m.observe)]) ∧
    (∀ pos c, m.addStop pos c = (m, 0) ∨
      ((m.addStop pos c).1.emitted =
          m.emitted ++ [(Signal.stopAdded (m.addStop pos c).2, (m.addStop pos c).1.observe)] ∧
        Assoc.find? (m.addStop pos c).1.observe.d_ptr.m_posToStop (clamp01 pos)
          = some (m.addStop pos c).2 ∧
        Assoc.find? (m.addStop pos c).1.observe.d_ptr.m_stopToPos (m.addStop pos c).2
          = some (clamp01 pos))) := by
  refine ⟨?_, ?_, ?_, ?_, ?_, ?_, ?_⟩
  · intro s
    by_cases ho : Assoc.contains m.d_ptr.m_stopToPos s = true
    · right
      refine ⟨?_, ?_, ?_, ?_⟩
      · simp [Model.removeStop, ho, Model.deleteStop, Model.emit]
      · simp only [Model.observe, selectStop_heap]; split_ifs <;> simp [setCurrentStop_heap]
      · simp only [Model.observe, selectStop_posToStop]
        split_ifs <;> simp [setCurrentStop_posToStop]
      · simp only [Model.observe, selectStop_stopToPos]
        split_ifs <;> simp [setCurrentStop_stopToPos]
    · exact Or.inl (removeStop_of_not_owned m s (by simpa using ho))
  · intro s p
    by_cases h1 : Assoc.contains m.d_ptr.m_stopToPos s = true
    · by_cases h2 : Assoc.contains m.d_ptr.m_posToStop p = true
      · exact Or.inl (moveStop_of_occupied m s p h2)
      · right; rw [moveStop_of_moves m s p h1 (by simpa using h2)]
    · exact Or.inl (moveStop_of_not_owned m s p (by simpa using h1))
  · intro s1 s2
    by_cases h0 : s1 = s2
    · exact Or.inl (swapStops_of_not_swaps m s1 s2 (Or.inl h0))
    · by_cases h1 : Assoc.contains m.d_ptr.m_stopToPos s1 = true
      · by_cases h2 : Assoc.contains m.d_ptr.m_stopToPos s2 = true
        · right; rw [swapStops_of_swaps m s1 s2 h0 h1 h2]
        · exact Or.inl (swapStops_of_not_swaps m s1 s2 (Or.inr (Or.inr (by simpa using h2))))
      · exact Or.inl (swapStops_of_not_swaps m s1 s2 (Or.inr (Or.inl (by simpa using h1))))
  · intro s c
    by_cases h1 : Assoc.contains m.d_ptr.m_stopToPos s = true
    · by_cases h2 : m.stopColor s = c
      · exact Or.inl (changeStop_of_not_changes m s c (Or.inr h2))
      · right; rw [changeStop_of_changes m s c h1 h2]
    · exact Or.inl (changeStop_of_not_changes m s c (Or.inl (by simpa using h1)))
  · intro s b
    unfold Model.selectStop
    simp only []
    split_ifs <;> first | exact Or.inl rfl | exact Or.inr (by simp [Model.emit])
  · intro s
    unfold Model.setCurrentStop
    split_ifs <;> first | exact Or.inl rfl | exact Or.inr (by simp [Model.emit])
  · intro pos c
    by_cases hcon : Assoc.contains m.d_ptr.m_posToStop (clamp01 pos) = true
    · exact Or.inl (addStop_of_contains m pos c hcon)
    · right
      rw [addStop_of_not_contains m pos c (by simpa using hcon)]
      simp [Model.observe, Assoc.find?_insertOrdered, Assoc.find?_set]

/-! ## Colour interpolation -/

theorem Assoc.insertOrdered_append_of_lt {β : Type} (l1 r : List (ℚ × β)) (k : ℚ) (v : β)
    (h : ∀ e ∈ l1, e.1 < k) :
    Assoc.insertOrdered (l1 ++ r) k v = l1 ++ Assoc.insertOrdered r k v := by
  induction l1 with
  | nil => rfl
  | cons e t ih =>
    have he : e.1 < k := h e (List.mem_cons_self _ _)
    have h1 : ¬ k < e.1 := not_lt.mpr (le_of_lt he)
    have h2 : ¬ k = e.1 := ne_of_gt he
    simp only [List.cons_append, Assoc.insertOrdered, h1, h2, if_false, List.append_eq]
    rw [ih (fun e' he' => h e' (List.mem_cons_of_mem _ he'))]

theorem Assoc.constFind_append (l1 r : List (ℚ × StopPtr)) (k : ℚ) (v : StopPtr)
    (h : ∀ e ∈ l1, e.1 ≠ k) : Assoc.constFind (l1 ++ (k, v) :: r) k = l1.length := by
  induction l1 with
  | nil => simp [Assoc.constFind, List.findIdx_cons]
  | cons e t ih =>
    have he : e.1 ≠ k := h e (List.mem_cons_self _ _)
    have := ih (fun e' he' => h e' (List.mem_cons_of_mem _ he'))
    simp only [Assoc.constFind] at this
    simp [Assoc.constFind, List.findIdx_cons, he, this]

theorem getD_append_add {α : Type} (l1 r : List α) (i : Nat) (d : α) :
    (l1 ++ r).getD (l1.length + i) d = r.getD i d := by
  induction l1 with
  | nil => simp
  | cons e t ih =>
    have : (e :: t).length + i = (t.length + i) + 1 := by simp; omega
    rw [List.cons_append, this, List.getD_cons_succ, ih]

/-- In an ordered map where `lo` is the greatest key below `pos`, `hi` the least key above
`pos`, and `pos` is not a key, the entries of `lo` and `hi` are adjacent. -/
theorem Assoc.adjacent_of_neighbours (l : List (ℚ × StopPtr)) (pos lo hi : ℚ) (sLo sHi : StopPtr)
    (hord : Assoc.Ordered l) (hnot : ∀ e ∈ l, e.1 ≠ pos)
    (hlo : (lo, sLo) ∈ l) (hhi : (hi, sHi) ∈ l) (hlt : lo < pos) (hgt : pos < hi)
    (hgreatest : ∀ e ∈ l, e.1 < pos → e.1 ≤ lo) (hleast : ∀ e ∈ l, pos < e.1 → hi ≤ e.1) :
    ∃ l1 l2, l = l1 ++ (lo, sLo) :: (hi, sHi) :: l2 ∧ ∀ e ∈ l1, e.1 < lo := by
  obtain ⟨l1, r, hl⟩ := List.append_of_mem hlo
  subst hl
  have hp := List.pairwise_append.1 hord
  have hr := List.pairwise_cons.1 hp.2.1
  have hl1 : ∀ e ∈ l1, e.1 < lo := fun e he => hp.2.2 e he (lo, sLo) (List.mem_cons_self _ _)
  have hhi_r : (hi, sHi) ∈ r := by
    rcases List.mem_append.1 hhi with h | h
    · exact absurd (hl1 _ h) (not_lt.mpr (le_of_lt (lt_trans hlt hgt)))
    · rcases List.mem_cons.1 h with h | h
      · have : hi = lo := congrArg Prod.fst h
        exact absurd (this ▸ lt_trans hlt hgt) (lt_irrefl _)
      · exact h
  cases r with
  | nil => simp at hhi_r
  | cons e l2 =>
    have he_mem : e ∈ l1 ++ (lo, sLo) :: e :: l2 := by simp
    have he_gt : lo < e.1 := hr.1 e (List.mem_cons_self _ _)
    have he_pos : pos < e.1 := by
      rcases lt_trichotomy e.1 pos with h | h | h
      · exact absurd (hgreatest e he_mem h) (not_le.mpr he_gt)
      · exact absurd h (hnot e he_mem)
      · exact h
    have he_hi : hi ≤ e.1 := hleast e he_mem he_pos
    have hee : e = (hi, sHi) := by
      rcases List.mem_cons.1 hhi_r with h | h
      · exact h.symm
      · have := (List.pairwise_cons.1 hr.2).1 _ h
        exact absurd this (not_lt.mpr he_hi)
    subst hee
    exact ⟨l1, l2, rfl, hl1⟩

theorem color_between (m : Model) (pos lo hi : ℚ) (sLo sHi : StopPtr)
    (l1 l2 : List (ℚ × StopPtr)) (hl : m.stops = l1 ++ (lo, sLo) :: (hi, sHi) :: l2)
    (hl1 : ∀ e ∈ l1, e.1 < lo) (hnot : ∀ e ∈ m.stops, e.1 ≠ pos) (hlt : lo < pos) (hgt : pos < hi) :
    m.color pos = QColor.fromRgbF
      (((m.stopColor sHi).redF - (m.stopColor sLo).redF) * ((pos - lo) / (hi - lo))
        + (m.stopColor sLo).redF)
      (((m.stopColor sHi).greenF - (m.stopColor sLo).greenF) * ((pos - lo) / (hi - lo))
        + (m.stopColor sLo).greenF)
      (((m.stopColor sHi).blueF - (m.stopColor sLo).blueF) * ((pos - lo) / (hi - lo))
        + (m.stopColor sLo).blueF)
      (((m.stopColor sHi).alphaF - (m.stopColor sLo).alphaF) * ((pos - lo) / (hi - lo))
        + (m.stopColor sLo).alphaF) := by
  have hne : m.stops.isEmpty = false := by rw [hl]; cases l1 <;> rfl
  have hcon : Assoc.contains m.stops pos = false := by
    rw [Assoc.contains_eq_false_iff]
    apply Assoc.find?_eq_none_of_not_mem_keys
    intro hk
    obtain ⟨e, he, hek⟩ := List.mem_map.1 hk
    exact hnot e he hek
  have hins : Assoc.insertOrdered m.stops pos 0 =
      (l1 ++ [(lo, sLo)]) ++ (pos, 0) :: (hi, sHi) :: l2 := by
    have h1 : m.stops = (l1 ++ [(lo, sLo)]) ++ (hi, sHi) :: l2 := by rw [hl]; simp
    rw [h1, Assoc.insertOrdered_append_of_lt]
    · simp [Assoc.insertOrdered, hgt]
    · intro e he
      rcases List.mem_append.1 he with h | h
      · exact lt_trans (hl1 e h) hlt
      · simp at h; rw [h]; exact hlt
  have hidx : Assoc.constFind (Assoc.insertOrdered m.stops pos 0) pos = l1.length + 1 := by
    rw [hins, Assoc.constFind_append]
    · simp
    · intro e he
      rcases List.mem_append.1 he with h | h
      · exact ne_of_lt (lt_trans (hl1 e h) hlt)
      · simp at h; rw [h]; exact ne_of_lt hlt
  have hlen : (Assoc.insertOrdered m.stops pos 0).length = l1.length + 1 + 1 + 1 + l2.length := by
    rw [hins]; simp; omega
  have hprev : (Assoc.insertOrdered m.stops pos 0).getD l1.length (0, 0) = (lo, sLo) := by
    have : Assoc.insertOrdered m.stops pos 0 = l1 ++ (lo, sLo) :: (pos, 0) :: (hi, sHi) :: l2 := by
      rw [hins]; simp
    rw [this]
    exact getD_append_add l1 ((lo, sLo) :: (pos, 0) :: (hi, sHi) :: l2) 0 ((0 : ℚ), (0 : StopPtr))
  have hnext : (Assoc.insertOrdered m.stops pos 0).getD (l1.length + 1 + 1) (0, 0) = (hi, sHi) := by
    have : Assoc.insertOrdered m.stops pos 0 = l1 ++ (lo, sLo) :: (pos, 0) :: (hi, sHi) :: l2 := by
      rw [hins]; simp
    rw [this]
    exact getD_append_add l1 ((lo, sLo) :: (pos, 0) :: (hi, sHi) :: l2) 2 ((0 : ℚ), (0 : StopPtr))
  have h0 : ¬ l1.length + 1 = 0 := by omega
  have hlast : ¬ l1.length + 1 = l1.length + 1 + 1 + 1 + l2.length - 1 := by omega
  unfold Model.color
  simp only [hne, hcon, hidx, hlen, h0, hlast, if_false, Bool.false_eq_true, Assoc.keyAt,
    Assoc.valueAt, Nat.add_sub_cancel, hprev, hnext]

theorem run_black_white :
    Model.empty.run [.addStop 0 QColor.black, .addStop 1 QColor.white] =
      { heap := [(1, ⟨0, QColor.black⟩), (2, ⟨1, QColor.white⟩)]
        d_ptr := { m_posToStop := [(0, 1), (1, 2)], m_stopToPos := [(1, 0), (2, 1)],
                   m_selection := [], m_current := 0 }
        emitted := [(.stopAdded 1, ⟨[(1, ⟨0, QColor.black⟩)],
                      { m_posToStop := [(0, 1)], m_stopToPos := [(1, 0)],
                        m_selection := [], m_current := 0 }⟩),
                    (.stopAdded 2, ⟨[(1, ⟨0, QColor.black⟩), (2, ⟨1, QColor.white⟩)],
                      { m_posToStop := [(0, 1), (1, 2)], m_stopToPos := [(1, 0), (2, 1)],
                        m_selection := [], m_current := 0 }⟩)] } := by
  norm_num [Model.run, Model.call, Model.addStop, Model.empty, Assoc.contains, Assoc.find?,
    Model.newStop, newAddress, Assoc.keys, Model.setPosition, Model.setColor, heapSetPosition,
    heapSetColor, Assoc.insertOrdered, Assoc.set, Model.emit, Model.observe]

theorem black_white_facts :
    (Model.empty.run [.addStop 0 QColor.black, .addStop 1 QColor.white]).stops = [(0, 1), (1, 2)] ∧
    (Model.empty.run [.addStop 0 QColor.black, .addStop 1 QColor.white]).stopColor 1
      = QColor.black ∧
    (Model.empty.run [.addStop 0 QColor.black, .addStop 1 QColor.white]).stopColor 2
      = QColor.white := by
  rw [run_black_white]
  simp [Model.stops, Model.stopColor, deref, Assoc.find?]

/-- C10: with exact rational positions and channels, for a position `pos` that is not a
stop position and lies between the stop `(lo, sLo)` with the greatest position below
`pos` and the stop `(hi, sHi)` with the least position above `pos`, each of the R, G, B,
A channels of `color(pos)` is `cLo + (cHi - cLo) * (pos - lo) / (hi - lo)`.  In
particular, with stops (0, black) and (1, white), `color(1/2)` is (1/2, 1/2, 1/2, 1). -/
theorem color_interpolates (m : Model) (pos lo hi : ℚ) (sLo sHi : StopPtr)
    (hord : Assoc.Ordered m.stops) (hnot : ∀ e ∈ m.stops, e.1 ≠ pos)
    (hlo : (lo, sLo) ∈ m.stops) (hhi : (hi, sHi) ∈ m.stops) (hlt : lo < pos) (hgt : pos < hi)
    (hgreatest : ∀ e ∈ m.stops, e.1 < pos → e.1 ≤ lo)
    (hleast : ∀ e ∈ m.stops, pos < e.1 → hi ≤ e.1) :
    ((m.color pos).redF = (m.stopColor sLo).redF
        + ((m.stopColor sHi).redF - (m.stopColor sLo).redF) * (pos - lo) / (hi - lo) ∧
      (m.color pos).greenF = (m.stopColor sLo).greenF
        + ((m.stopColor sHi).greenF - (m.stopColor sLo).greenF) * (pos - lo) / (hi - lo) ∧
      (m.color pos).blueF = (m.stopColor sLo).blueF
        + ((m.stopColor sHi).blueF - (m.stopColor sLo).blueF) * (pos - lo) / (hi - lo) ∧
      (m.color pos).alphaF = (m.stopColor sLo).alphaF
        + ((m.stopColor sHi).alphaF - (m.stopColor sLo).alphaF) * (pos - lo) / (hi - lo)) ∧
    (Model.empty.run [.addStop 0 QColor.black, .addStop 1 QColor.white]).color (1/2)
      = QColor.fromRgbF (1/2) (1/2) (1/2) 1 := by
  constructor
  · obtain ⟨l1, l2, hl, hl1⟩ :=
      Assoc.adjacent_of_neighbours m.stops pos lo hi sLo sHi hord hnot hlo hhi hlt hgt hgreatest
        hleast
    rw [color_between m pos lo hi sLo sHi l1 l2 hl hl1 hnot hlt hgt]
    simp only [QColor.fromRgbF]
    refine ⟨?_, ?_, ?_, ?_⟩ <;> ring
  · obtain ⟨hs, hc1, hc2⟩ := black_white_facts
    rw [color_between _ (1/2) 0 1 1 2 [] [] (by rw [hs]; rfl) (by simp)
      (by rw [hs]; norm_num) (by norm_num) (by norm_num), hc1, hc2]
    norm_num [QColor.fromRgbF, QColor.black, QColor.white]

/-- C10 at a concrete input: the model with stops (0, black) and (1, white), queried at
1/2, where the neighbours are the stops at 0 and at 1. -/
theorem color_interpolates_witness :
    Assoc.Ordered (Model.empty.run [.addStop 0 QColor.black, .addStop 1 QColor.white]).stops ∧
    (Model.empty.run [.addStop 0 QColor.black, .addStop 1 QColor.white]).stops = [(0, 1), (1, 2)] ∧
    ((Model.empty.run [.addStop 0 QColor.black, .addStop 1 QColor.white]).color (1/2)).redF
      = ((Model.empty.run [.addStop 0 QColor.black, .addStop 1 QColor.white]).stopColor 1).redF
        + (((Model.empty.run [.addStop 0 QColor.black, .addStop 1 QColor.white]).stopColor 2).redF
          - ((Model.empty.run [.addStop 0 QColor.black, .addStop 1 QColor.white]).stopColor 1).redF)
          * (1/2 - 0) / (1 - 0) :=
  have hs := black_white_facts.1
  have hord : Assoc.Ordered
      (Model.empty.run [.addStop 0 QColor.black, .addStop 1 QColor.white]).stops := by
    rw [hs]; simp [Assoc.Ordered]
  ⟨hord, hs,
    (color_interpolates (Model.empty.run [.addStop 0 QColor.black, .addStop 1 QColor.white])
      (1/2) 0 1 1 2 hord (by rw [hs]; norm_num) (by rw [hs]; simp) (by rw [hs]; simp)
      (by norm_num) (by norm_num)
      (by rw [hs]; intro e he hp; simp at he; rcases he with h | h <;>
        (subst h; norm_num at *))
      (by rw [hs]; intro e he hp; simp at he; rcases he with h | h <;>
        (subst h; norm_num at *))).1.1⟩

/-! ## Representation invariants hold in every reachable state -/

theorem Assoc.mem_remove {κ β : Type} [DecidableEq κ] (l : List (κ × β)) (k : κ) (x : κ × β) :
    x ∈ Assoc.remove l k ↔ x ∈ l ∧ x.1 ≠ k := by
  induction l with
  | nil => simp [Assoc.remove]
  | cons e t ih =>
    simp only [Assoc.remove]
    split_ifs with h
    · rw [ih]
      constructor
      · rintro ⟨h1, h2⟩; exact ⟨List.mem_cons_of_mem _ h1, h2⟩
      · rintro ⟨h1, h2⟩
        rcases List.mem_cons.1 h1 with h3 | h3
        · exact absurd (h3 ▸ h) h2
        · exact ⟨h3, h2⟩
    · simp only [List.mem_cons, ih]
      constructor
      · rintro (h1 | ⟨h1, h2⟩)
        · exact ⟨Or.inl h1, h1 ▸ h⟩
        · exact ⟨Or.inr h1, h2⟩
      · rintro ⟨h1 | h1, h2⟩
        · exact Or.inl h1
        · exact Or.inr ⟨h1, h2⟩

theorem Assoc.mem_insertOrdered {β : Type} (l : List (ℚ × β)) (k : ℚ) (v : β) (x : ℚ × β)
    (h : x ∈ Assoc.insertOrdered l k v) : x = (k, v) ∨ x ∈ l := by
  induction l with
  | nil => simpa [Assoc.insertOrdered] using h
  | cons e t ih =>
    simp only [Assoc.insertOrdered] at h
    split_ifs at h
    · rcases List.mem_cons.1 h with h1 | h1
      · exact Or.inl h1
      · exact Or.inr h1
    · rcases List.mem_cons.1 h with h1 | h1
      · exact Or.inl h1
      · exact Or.inr (List.mem_cons_of_mem _ h1)
    · rcases List.mem_cons.1 h with h1 | h1
      · exact Or.inr (h1 ▸ List.mem_cons_self _ _)
      · rcases ih h1 with h2 | h2
        · exact Or.inl h2
        · exact Or.inr (List.mem_cons_of_mem _ h2)

theorem Assoc.ordered_remove {β : Type} (l : List (ℚ × β)) (k : ℚ) (h : Assoc.Ordered l) :
    Assoc.Ordered (Assoc.remove l k) := by
  induction l with
  | nil => exact List.Pairwise.nil
  | cons e t ih =>
    have hp := List.pairwise_cons.1 h
    simp only [Assoc.remove]
    split_ifs
    · exact ih hp.2
    · exact List.pairwise_cons.2
        ⟨fun x hx => hp.1 x ((Assoc.mem_remove t k x).1 hx).1, ih hp.2⟩

theorem Assoc.ordered_insertOrdered {β : Type} (l : List (ℚ × β)) (k : ℚ) (v : β)
    (h : Assoc.Ordered l) : Assoc.Ordered (Assoc.insertOrdered l k v) := by
  induction l with
  | nil => exact List.pairwise_singleton _ _
  | cons e t ih =>
    have hp := List.pairwise_cons.1 h
    simp only [Assoc.insertOrdered]
    split_ifs with h1 h2
    · refine List.pairwise_cons.2 ⟨?_, h⟩
      intro x hx
      rcases List.mem_cons.1 hx with h3 | h3
      · rw [h3]; exact h1
      · exact lt_trans h1 (hp.1 x h3)
    · refine List.pairwise_cons.2 ⟨?_, hp.2⟩
      intro x hx
      show k < x.1
      rw [h2]; exact hp.1 x hx
    · refine List.pairwise_cons.2 ⟨?_, ih hp.2⟩
      intro x hx
      rcases Assoc.mem_insertOrdered t k v x hx with h3 | h3
      · rw [h3]
        exact lt_of_le_of_ne (not_lt.1 h1) (fun h4 => h2 h4.symm)
      · exact hp.1 x h3

theorem clamp01_mem (x : ℚ) : 0 ≤ clamp01 x ∧ clamp01 x ≤ 1 := by
  unfold clamp01
  exact ⟨le_max_left _ _, max_le zero_le_one (min_le_left _ _)⟩

theorem clamp01_of_mem (x : ℚ) (h0 : 0 ≤ x) (h1 : x ≤ 1) : clamp01 x = x := by
  unfold clamp01
  rw [min_eq_right h1, max_eq_right h0]

theorem Assoc.mem_of_find? {κ β : Type} [DecidableEq κ] (l : List (κ × β)) (k : κ) (v : β)
    (h : Assoc.find? l k = some v) : (k, v) ∈ l := by
  induction l with
  | nil => simp [Assoc.find?] at h
  | cons e t ih =>
    simp only [Assoc.find?] at h
    split_ifs at h with h1
    · have : e = (k, v) := by
        cases e
        simp only [Option.some.injEq] at h
        simp only at h1
        rw [h1, h]
      rw [this]; exact List.mem_cons_self _ _
    · exact List.mem_cons_of_mem _ (ih h)

theorem contains_heapSetPosition (h : Heap) (stop s : StopPtr) (p : ℚ) :
    Assoc.contains (heapSetPosition h stop p) s = Assoc.contains h s := by
  simp only [Assoc.contains, find?_heapSetPosition]
  split_ifs with h1
  · cases Assoc.find? h s <;> rfl
  · rfl

theorem contains_heapSetColor (h : Heap) (stop s : StopPtr) (c : QColor) :
    Assoc.contains (heapSetColor h stop c) s = Assoc.contains h s := by
  simp only [Assoc.contains, find?_heapSetColor]
  split_ifs with h1
  · cases Assoc.find? h s <;> rfl
  · rfl

theorem mem_heapSetPosition (h : Heap) (stop : StopPtr) (p : ℚ) (x : StopPtr × QtGradientStopPrivate)
    (hx : x ∈ heapSetPosition h stop p) : x ∈ h ∨ x.2.m_position = p := by
  induction h with
  | nil => simp [heapSetPosition] at hx
  | cons e t ih =>
    simp only [heapSetPosition] at hx
    split_ifs at hx
    · rcases List.mem_cons.1 hx with h1 | h1
      · right; rw [h1]
      · left; exact List.mem_cons_of_mem _ h1
    · rcases List.mem_cons.1 hx with h1 | h1
      · left; rw [h1]; exact List.mem_cons_self _ _
      · rcases ih h1 with h2 | h2
        · left; exact List.mem_cons_of_mem _ h2
        · right; exact h2

theorem mem_heapSetColor (h : Heap) (stop : StopPtr) (c : QColor) (x : StopPtr × QtGradientStopPrivate)
    (hx : x ∈ heapSetColor h stop c) : ∃ y ∈ h, y.2.m_position = x.2.m_position := by
  induction h with
  | nil => simp [heapSetColor] at hx
  | cons e t ih =>
    simp only [heapSetColor] at hx
    split_ifs at hx
    · rcases List.mem_cons.1 hx with h1 | h1
      · exact ⟨e, List.mem_cons_self _ _, by rw [h1]⟩
      · exact ⟨x, List.mem_cons_of_mem _ h1, rfl⟩
    · rcases List.mem_cons.1 hx with h1 | h1
      · exact ⟨x, by rw [h1]; exact List.mem_cons_self _ _, rfl⟩
      · obtain ⟨y, hy, hyx⟩ := ih h1
        exact ⟨y, List.mem_cons_of_mem _ hy, hyx⟩

theorem position_mem_of_inUnitInterval (m : Model) (h : m.InUnitInterval) (s : StopPtr) :
    0 ≤ m.position s ∧ m.position s ≤ 1 := by
  unfold Model.position deref
  cases hf : Assoc.find? m.heap s with
  | none => simp
  | some o => exact h.2 _ (Assoc.mem_of_find? _ _ _ hf)

theorem preserved_and {P Q : Model → Prop} (hP : Preserved P) (hQ : Preserved Q) :
    Preserved (fun m => P m ∧ Q m) where
  addStop := fun m pos c h => ⟨hP.addStop m pos c h.1, hQ.addStop m pos c h.2⟩
  removeStop := fun m s h => ⟨hP.removeStop m s h.1, hQ.removeStop m s h.2⟩
  moveStop := fun m s p h => ⟨hP.moveStop m s p h.1, hQ.moveStop m s p h.2⟩
  swapStops := fun m s1 s2 h => ⟨hP.swapStops m s1 s2 h.1, hQ.swapStops m s1 s2 h.2⟩
  changeStop := fun m s c h => ⟨hP.changeStop m s c h.1, hQ.changeStop m s c h.2⟩
  selectStop := fun m s b h => ⟨hP.selectStop m s b h.1, hQ.selectStop m s b h.2⟩
  setCurrentStop := fun m s h => ⟨hP.setCurrentStop m s h.1, hQ.setCurrentStop m s h.2⟩

/-- The three outcomes of `moveStop`. -/
theorem moveStop_cases (m : Model) (s : StopPtr) (p : ℚ) :
    m.moveStop s p = m ∨
      (Assoc.contains m.d_ptr.m_stopToPos s = true ∧ Assoc.contains m.d_ptr.m_posToStop p = false ∧
        m.moveStop s p =
          { heap := heapSetPosition m.heap s (clamp01 p)
            d_ptr := { m.d_ptr with
              m_posToStop :=
                Assoc.insertOrdered (Assoc.remove m.d_ptr.m_posToStop (m.position s)) (clamp01 p) s
              m_stopToPos := Assoc.set m.d_ptr.m_stopToPos s (clamp01 p) }
            emitted := m.emitted ++ [(Signal.stopMoved s (clamp01 p), m.observe)] }) := by
  by_cases h1 : Assoc.contains m.d_ptr.m_stopToPos s = true
  · by_cases h2 : Assoc.contains m.d_ptr.m_posToStop p = true
    · exact Or.inl (moveStop_of_occupied m s p h2)
    · have h2' : Assoc.contains m.d_ptr.m_posToStop p = false := by simpa using h2
      exact Or.inr ⟨h1, h2', moveStop_of_moves m s p h1 h2'⟩
  · exact Or.inl (moveStop_of_not_owned m s p (by simpa using h1))

/-- The two outcomes of `swapStops`. -/
theorem swapStops_cases (m : Model) (s1 s2 : StopPtr) :
    m.swapStops s1 s2 = m ∨
      (s1 ≠ s2 ∧ Assoc.contains m.d_ptr.m_stopToPos s1 = true ∧
        Assoc.contains m.d_ptr.m_stopToPos s2 = true ∧
        m.swapStops s1 s2 =
          { heap := heapSetPosition (heapSetPosition m.heap s1 (m.position s2)) s2 (m.position s1)
            d_ptr := { m.d_ptr with
              m_posToStop :=
                Assoc.insertOrdered (Assoc.insertOrdered m.d_ptr.m_posToStop (m.position s1) s2)
                  (m.position s2) s1
              m_stopToPos :=
                Assoc.set (Assoc.set m.d_ptr.m_stopToPos s1 (m.position s2)) s2 (m.position s1) }
            emitted := m.emitted ++ [(Signal.stopsSwapped s1 s2, m.observe)] }) := by
  by_cases h0 : s1 = s2
  · exact Or.inl (swapStops_of_not_swaps m s1 s2 (Or.inl h0))
  · by_cases h1 : Assoc.contains m.d_ptr.m_stopToPos s1 = true
    · by_cases h2 : Assoc.contains m.d_ptr.m_stopToPos s2 = true
      · exact Or.inr ⟨h0, h1, h2, swapStops_of_swaps m s1 s2 h0 h1 h2⟩
      · exact Or.inl (swapStops_of_not_swaps m s1 s2 (Or.inr (Or.inr (by simpa using h2))))
    · exact Or.inl (swapStops_of_not_swaps m s1 s2 (Or.inr (Or.inl (by simpa using h1))))

/-- The two outcomes of `changeStop`. -/
theorem changeStop_cases (m : Model) (s : StopPtr) (c : QColor) :
    m.changeStop s c = m ∨
      m.changeStop s c =
        { heap := heapSetColor m.heap s c
          d_ptr := m.d_ptr
          emitted := m.emitted ++ [(Signal.stopChanged s c, m.observe)] } := by
  by_cases h1 : Assoc.contains m.d_ptr.m_stopToPos s = true
  · by_cases h2 : m.stopColor s = c
    · exact Or.inl (changeStop_of_not_changes m s c (Or.inr h2))
    · exact Or.inr (changeStop_of_changes m s c h1 h2)
  · exact Or.inl (changeStop_of_not_changes m s c (Or.inl (by simpa using h1)))

/-- The two outcomes of `addStop`. -/
theorem addStop_cases (m : Model) (pos : ℚ) (c : QColor) :
    m.addStop pos c = (m, 0) ∨
      (Assoc.contains m.d_ptr.m_posToStop (clamp01 pos) = false ∧
        (m.addStop pos c).1.heap =
          heapSetColor (heapSetPosition (m.heap ++ [(newAddress m.heap, ({} : QtGradientStopPrivate))])
            (newAddress m.heap) (clamp01 pos)) (newAddress m.heap) c ∧
        (m.addStop pos c).1.d_ptr = { m.d_ptr with
          m_posToStop := Assoc.insertOrdered m.d_ptr.m_posToStop (clamp01 pos) (newAddress m.heap)
          m_stopToPos := Assoc.set m.d_ptr.m_stopToPos (newAddress m.heap) (clamp01 pos) } ∧
        (m.addStop pos c).2 = newAddress m.heap) := by
  by_cases hcon : Assoc.contains m.d_ptr.m_posToStop (clamp01 pos) = true
  · exact Or.inl (addStop_of_contains m pos c hcon)
  · have hcon' : Assoc.contains m.d_ptr.m_posToStop (clamp01 pos) = false := by simpa using hcon
    right
    rw [addStop_of_not_contains m pos c hcon']
    exact ⟨hcon', rfl, rfl, rfl⟩

/-- The two outcomes of `removeStop`. -/
theorem removeStop_cases (m : Model) (s : StopPtr) :
    m.removeStop s = m ∨
      (Assoc.contains m.d_ptr.m_stopToPos s = true ∧
        (m.removeStop s).heap = Assoc.remove m.heap s ∧
        (m.removeStop s).d_ptr.m_stopToPos = Assoc.remove m.d_ptr.m_stopToPos s ∧
        (m.removeStop s).d_ptr.m_posToStop =
          Assoc.remove m.d_ptr.m_posToStop ((Assoc.find? m.d_ptr.m_stopToPos s).getD 0) ∧
        (m.removeStop s).d_ptr.m_selection = Assoc.remove m.d_ptr.m_selection s ∧
        (m.removeStop s).d_ptr.m_current =
          if m.d_ptr.m_current = s then 0 else m.d_ptr.m_current) := by
  by_cases ho : Assoc.contains m.d_ptr.m_stopToPos s = true
  · exact Or.inr ⟨ho, removeStop_heap m s ho, removeStop_stopToPos m s ho,
      removeStop_posToStop m s ho, removeStop_selection m s ho, removeStop_current m s ho⟩
  · exact Or.inl (removeStop_of_not_owned m s (by simpa using ho))

theorem ordered_preserved : Preserved (fun m => Assoc.Ordered m.d_ptr.m_posToStop) where
  addStop := by
    intro m pos c h
    rcases addStop_cases m pos c with h1 | ⟨_, _, hd, _⟩
    · rw [h1]; exact h
    · show Assoc.Ordered (m.addStop pos c).1.d_ptr.m_posToStop
      rw [hd]; exact Assoc.ordered_insertOrdered _ _ _ h
  removeStop := by
    intro m s h
    rcases removeStop_cases m s with h1 | ⟨_, _, _, hp, _, _⟩
    · rw [h1]; exact h
    · show Assoc.Ordered (m.removeStop s).d_ptr.m_posToStop
      rw [hp]; exact Assoc.ordered_remove _ _ h
  moveStop := by
    intro m s p h
    rcases moveStop_cases m s p with h1 | ⟨_, _, h1⟩
    · rw [h1]; exact h
    · rw [h1]; exact Assoc.ordered_insertOrdered _ _ _ (Assoc.ordered_remove _ _ h)
  swapStops := by
    intro m s1 s2 h
    rcases swapStops_cases m s1 s2 with h1 | ⟨_, _, _, h1⟩
    · rw [h1]; exact h
    · rw [h1]
      exact Assoc.ordered_insertOrdered _ _ _ (Assoc.ordered_insertOrdered _ _ _ h)
  changeStop := by
    intro m s c h
    rcases changeStop_cases m s c with h1 | h1
    · rw [h1]; exact h
    · rw [h1]; exact h
  selectStop := by
    intro m s b h
    show Assoc.Ordered (m.selectStop s b).d_ptr.m_posToStop
    rw [selectStop_posToStop]; exact h
  setCurrentStop := by
    intro m s h
    show Assoc.Ordered (m.setCurrentStop s).d_ptr.m_posToStop
    rw [setCurrentStop_posToStop]; exact h

theorem pointersValid_preserved : Preserved Model.PointersValid where
  addStop := fun m pos c h => addStop_pointersValid m pos c h
  removeStop := fun m s h => removeStop_pointersValid m s h
  moveStop := by
    intro m s p h
    rcases moveStop_cases m s p with h1 | ⟨hs, _, h1⟩
    · rw [h1]; exact h
    · rw [h1]
      intro s' hs'
      simp only [Model.Owns, Assoc.contains_set] at hs'
      simp only [contains_heapSetPosition]
      split_ifs at hs' with h2
      · rw [h2]; exact h s hs
      · exact h s' hs'
  swapStops := by
    intro m s1 s2 h
    rcases swapStops_cases m s1 s2 with h1 | ⟨_, hs1, hs2, h1⟩
    · rw [h1]; exact h
    · rw [h1]
      intro s' hs'
      simp only [Model.Owns, Assoc.contains_set] at hs'
      simp only [contains_heapSetPosition]
      split_ifs at hs' with h2 h3
      · rw [h2]; exact h s2 hs2
      · rw [h3]; exact h s1 hs1
      · exact h s' hs'
  changeStop := by
    intro m s c h
    rcases changeStop_cases m s c with h1 | h1
    · rw [h1]; exact h
    · rw [h1]
      intro s' hs'
      simp only [contains_heapSetColor]
      exact h s' hs'
  selectStop := by
    intro m s b h s' hs'
    simp only [Model.Owns, selectStop_stopToPos] at hs'
    rw [selectStop_heap]
    exact h s' hs'
  setCurrentStop := by
    intro m s h s' hs'
    simp only [Model.Owns, setCurrentStop_stopToPos] at hs'
    rw [setCurrentStop_heap]
    exact h s' hs'

theorem inUnitInterval_preserved : Preserved Model.InUnitInterval where
  addStop := by
    intro m pos c h
    rcases addStop_cases m pos c with h1 | ⟨_, hh, hd, _⟩
    · rw [h1]; exact h
    · refine ⟨?_, ?_⟩
      · intro e he
        rw [hd] at he
        rcases Assoc.mem_insertOrdered _ _ _ _ he with h2 | h2
        · rw [h2]; exact clamp01_mem pos
        · exact h.1 e h2
      · intro e he
        rw [hh] at he
        obtain ⟨y, hy, hye⟩ := mem_heapSetColor _ _ _ _ he
        rw [← hye]
        rcases mem_heapSetPosition _ _ _ _ hy with h2 | h2
        · rcases List.mem_append.1 h2 with h3 | h3
          · exact h.2 y h3
          · simp only [List.mem_singleton] at h3
            rw [h3]; exact ⟨le_refl _, zero_le_one⟩
        · rw [h2]; exact clamp01_mem pos
  removeStop := by
    intro m s h
    rcases removeStop_cases m s with h1 | ⟨_, hh, _, hp, _, _⟩
    · rw [h1]; exact h
    · refine ⟨?_, ?_⟩
      · intro e he
        rw [hp] at he
        exact h.1 e ((Assoc.mem_remove _ _ _).1 he).1
      · intro e he
        rw [hh] at he
        exact h.2 e ((Assoc.mem_remove _ _ _).1 he).1
  moveStop := by
    intro m s p h
    rcases moveStop_cases m s p with h1 | ⟨_, _, h1⟩
    · rw [h1]; exact h
    · rw [h1]
      refine ⟨?_, ?_⟩
      · intro e he
        rcases Assoc.mem_insertOrdered _ _ _ _ he with h2 | h2
        · rw [h2]; exact clamp01_mem p
        · exact h.1 e ((Assoc.mem_remove _ _ _).1 h2).1
      · intro e he
        rcases mem_heapSetPosition _ _ _ _ he with h2 | h2
        · exact h.2 e h2
        · rw [h2]; exact clamp01_mem p
  swapStops := by
    intro m s1 s2 h
    rcases swapStops_cases m s1 s2 with h1 | ⟨_, _, _, h1⟩
    · rw [h1]; exact h
    · rw [h1]
      refine ⟨?_, ?_⟩
      · intro e he
        rcases Assoc.mem_insertOrdered _ _ _ _ he with h2 | h2
        · rw [h2]; exact position_mem_of_inUnitInterval m h s2
        · rcases Assoc.mem_insertOrdered _ _ _ _ h2 with h3 | h3
          · rw [h3]; exact position_mem_of_inUnitInterval m h s1
          · exact h.1 e h3
      · intro e he
        rcases mem_heapSetPosition _ _ _ _ he with h2 | h2
        · rcases mem_heapSetPosition _ _ _ _ h2 with h3 | h3
          · exact h.2 e h3
          · rw [h3]; exact position_mem_of_inUnitInterval m h s2
        · rw [h2]; exact position_mem_of_inUnitInterval m h s1
  changeStop := by
    intro m s c h
    rcases changeStop_cases m s c with h1 | h1
    · rw [h1]; exact h
    · rw [h1]
      refine ⟨h.1, ?_⟩
      intro e he
      obtain ⟨y, hy, hye⟩ := mem_heapSetColor _ _ _ _ he
      rw [← hye]; exact h.2 y hy
  selectStop := by
    intro m s b h
    unfold Model.InUnitInterval
    rw [selectStop_posToStop, selectStop_heap]; exact h
  setCurrentStop := by
    intro m s h
    unfold Model.InUnitInterval
    rw [setCurrentStop_posToStop, setCurrentStop_heap]; exact h

theorem wellFormed_preserved : Preserved Model.WellFormed :=
  preserved_and ordered_preserved
    (preserved_and pointersValid_preserved
      (preserved_and selectionOwned_preserved inUnitInterval_preserved))

theorem empty_wellFormed : Model.empty.WellFormed := by
  refine ⟨List.Pairwise.nil, empty_pointersValid, empty_selectionOwned, ?_, ?_⟩
  · intro e he; simp [Model.empty] at he
  · intro e he; simp [Model.empty] at he

/-- Every state reached from the empty model satisfies the representation invariants. -/
theorem run_wellFormed (calls : List Call) : (Model.empty.run calls).WellFormed :=
  preserved_run wellFormed_preserved calls Model.empty empty_wellFormed

/-! ## Colour query outside the interpolation case -/

theorem not_contains_of_keys_ne (l : List (ℚ × StopPtr)) (pos : ℚ) (hnot : ∀ e ∈ l, e.1 ≠ pos) :
    Assoc.contains l pos = false := by
  rw [Assoc.contains_eq_false_iff]
  apply Assoc.find?_eq_none_of_not_mem_keys
  intro hk
  obtain ⟨e, he, hek⟩ := List.mem_map.1 hk
  exact hnot e he hek

theorem color_below (m : Model) (pos lo : ℚ) (sLo : StopPtr) (l2 : List (ℚ × StopPtr))
    (hl : m.stops = (lo, sLo) :: l2) (hnot : ∀ e ∈ m.stops, e.1 ≠ pos) (hlt : pos < lo) :
    m.color pos = m.stopColor sLo := by
  have hne : m.stops.isEmpty = false := by rw [hl]; rfl
  have hins : Assoc.insertOrdered m.stops pos 0 = (pos, 0) :: (lo, sLo) :: l2 := by
    rw [hl]; simp [Assoc.insertOrdered, hlt]
  have hidx : Assoc.constFind (Assoc.insertOrdered m.stops pos 0) pos = 0 := by
    rw [hins]; simp [Assoc.constFind, List.findIdx_cons]
  have hval : (Assoc.insertOrdered m.stops pos 0).getD (0 + 1) (0, 0) = (lo, sLo) := by
    rw [hins]; rfl
  have hcon := not_contains_of_keys_ne m.stops pos hnot
  unfold Model.color
  simp only [hne, hcon, hidx, if_true, Bool.false_eq_true, if_false, Assoc.valueAt, hval]

theorem color_above (m : Model) (pos hi : ℚ) (sHi : StopPtr) (l1 : List (ℚ × StopPtr))
    (hl : m.stops = l1 ++ [(hi, sHi)]) (hl1 : ∀ e ∈ l1, e.1 < hi)
    (hnot : ∀ e ∈ m.stops, e.1 ≠ pos) (hgt : hi < pos) :
    m.color pos = m.stopColor sHi := by
  have hne : m.stops.isEmpty = false := by rw [hl]; cases l1 <;> rfl
  have hall : ∀ e ∈ l1 ++ [(hi, sHi)], e.1 < pos := by
    intro e he
    rcases List.mem_append.1 he with h | h
    · exact lt_trans (hl1 e h) hgt
    · simp at h; rw [h]; exact hgt
  have hins : Assoc.insertOrdered m.stops pos 0 = (l1 ++ [(hi, sHi)]) ++ (pos, 0) :: [] := by
    have h1 : m.stops = (l1 ++ [(hi, sHi)]) ++ [] := by rw [hl]; simp
    rw [h1, Assoc.insertOrdered_append_of_lt _ _ _ _ hall]
    simp [Assoc.insertOrdered]
  have hidx : Assoc.constFind (Assoc.insertOrdered m.stops pos 0) pos = l1.length + 1 := by
    rw [hins, Assoc.constFind_append _ _ _ _ (fun e he => ne_of_lt (hall e he))]
    simp
  have hlen : (Assoc.insertOrdered m.stops pos 0).length = l1.length + 1 + 1 := by
    rw [hins]; simp
  have hprev : (Assoc.insertOrdered m.stops pos 0).getD l1.length (0, 0) = (hi, sHi) := by
    have : Assoc.insertOrdered m.stops pos 0 = l1 ++ (hi, sHi) :: (pos, 0) :: [] := by
      rw [hins]; simp
    rw [this]
    exact getD_append_add l1 ((hi, sHi) :: (pos, 0) :: []) 0 ((0 : ℚ), (0 : StopPtr))
  have h0 : ¬ l1.length + 1 = 0 := by omega
  have hcon := not_contains_of_keys_ne m.stops pos hnot
  unfold Model.color
  simp only [hne, hcon, hidx, hlen, h0, if_true, Bool.false_eq_true, if_false, Assoc.valueAt,
    Nat.add_sub_cancel, hprev]

theorem Assoc.head_of_least (l : List (ℚ × StopPtr)) (lo : ℚ) (sLo : StopPtr)
    (hord : Assoc.Ordered l) (hlo : (lo, sLo) ∈ l) (hleast : ∀ e ∈ l, lo ≤ e.1) :
    ∃ l2, l = (lo, sLo) :: l2 := by
  cases l with
  | nil => simp at hlo
  | cons e t =>
    rcases List.mem_cons.1 hlo with h | h
    · exact ⟨t, by rw [h]⟩
    · have h1 := (List.pairwise_cons.1 hord).1 _ h
      have h2 := hleast e (List.mem_cons_self _ _)
      exact absurd h1 (not_lt.mpr h2)

theorem Assoc.last_of_greatest (l : List (ℚ × StopPtr)) (hi : ℚ) (sHi : StopPtr)
    (hord : Assoc.Ordered l) (hhi : (hi, sHi) ∈ l) (hgreatest : ∀ e ∈ l, e.1 ≤ hi) :
    ∃ l1, l = l1 ++ [(hi, sHi)] ∧ ∀ e ∈ l1, e.1 < hi := by
  rcases List.eq_nil_or_concat l with h | ⟨l1, a, h⟩
  · rw [h] at hhi; simp at hhi
  · rw [List.concat_eq_append] at h
    subst h
    have hp := List.pairwise_append.1 hord
    have ha : a = (hi, sHi) := by
      rcases List.mem_append.1 hhi with h1 | h1
      · have h2 := hp.2.2 _ h1 a (List.mem_singleton_self _)
        have h3 := hgreatest a (by simp)
        exact absurd h2 (not_lt.mpr h3)
      · exact (List.mem_singleton.1 h1).symm
    subst ha
    exact ⟨l1, rfl, fun e he => hp.2.2 e he _ (List.mem_singleton_self _)⟩

theorem run_one_stop :
    Model.empty.run [.addStop (1/2) QColor.black] =
      { heap := [(1, ⟨1/2, QColor.black⟩)]
        d_ptr := { m_posToStop := [(1/2, 1)], m_stopToPos := [(1, 1/2)],
                   m_selection := [], m_current := 0 }
        emitted := [(.stopAdded 1, ⟨[(1, ⟨1/2, QColor.black⟩)],
                      { m_posToStop := [(1/2, 1)], m_stopToPos := [(1, 1/2)],
                        m_selection := [], m_current := 0 }⟩)] } := by
  norm_num [Model.run, Model.call, Model.addStop, Model.empty, Assoc.contains, Assoc.find?,
    Model.newStop, newAddress, Assoc.keys, Model.setPosition, Model.setColor, heapSetPosition,
    heapSetColor, Assoc.insertOrdered, Assoc.set, Model.emit, Model.observe]

/-- C11: in a non-empty model (position index in key order), for a position below the
lowest stop position `color` returns the colour of the lowest stop, and for a position
above the highest stop position it returns the colour of the highest stop; nothing is
extrapolated.  This covers the model with exactly one stop. -/
theorem color_outside_stops (m : Model) (pos : ℚ) (hord : Assoc.Ordered m.stops) :
    (∀ lo sLo, (lo, sLo) ∈ m.stops → (∀ e ∈ m.stops, lo ≤ e.1) → pos < lo →
      m.color pos = m.stopColor sLo) ∧
    (∀ hi sHi, (hi, sHi) ∈ m.stops → (∀ e ∈ m.stops, e.1 ≤ hi) → hi < pos →
      m.color pos = m.stopColor sHi) := by
  constructor
  · intro lo sLo hlo hleast hlt
    obtain ⟨l2, hl⟩ := Assoc.head_of_least m.stops lo sLo hord hlo hleast
    exact color_below m pos lo sLo l2 hl
      (fun e he => ne_of_gt (lt_of_lt_of_le hlt (hleast e he))) hlt
  · intro hi sHi hhi hgreatest hgt
    obtain ⟨l1, hl, hl1⟩ := Assoc.last_of_greatest m.stops hi sHi hord hhi hgreatest
    exact color_above m pos hi sHi l1 hl hl1
      (fun e he => ne_of_lt (lt_of_le_of_lt (hgreatest e he) hgt)) hgt

/-- C11 at a concrete input: the model whose only stop is black at 0.5, queried at 0
and at 1. -/
theorem color_outside_stops_witness :
    Assoc.Ordered (Model.empty.run [.addStop (1/2) QColor.black]).stops ∧
    (Model.empty.run [.addStop (1/2) QColor.black]).stops = [(1/2, 1)] ∧
    (Model.empty.run [.addStop (1/2) QColor.black]).color 0 =
      (Model.empty.run [.addStop (1/2) QColor.black]).stopColor 1 ∧
    (Model.empty.run [.addStop (1/2) QColor.black]).color 1 =
      (Model.empty.run [.addStop (1/2) QColor.black]).stopColor 1 :=
  have hs : (Model.empty.run [.addStop (1/2) QColor.black]).stops = [(1/2, 1)] := by
    rw [run_one_stop]; rfl
  have hord : Assoc.Ordered (Model.empty.run [.addStop (1/2) QColor.black]).stops := by
    rw [hs]; simp [Assoc.Ordered]
  ⟨hord, hs,
    (color_outside_stops (Model.empty.run [.addStop (1/2) QColor.black]) 0 hord).1 (1/2) 1
      (by rw [hs]; simp) (by rw [hs]; simp) (by norm_num),
    (color_outside_stops (Model.empty.run [.addStop (1/2) QColor.black]) 1 hord).2 (1/2) 1
      (by rw [hs]; simp) (by rw [hs]; simp) (by norm_num)⟩

/-- C12: when the position index has a stop `s` at `pos`, `color(pos)` is exactly the
colour of `s`, whatever the other stops are. -/
theorem color_at_stop (m : Model) (pos : ℚ) (s : StopPtr)
    (h : Assoc.find? m.stops pos = some s) : m.color pos = m.stopColor s := by
  have hne : m.stops.isEmpty = false := by
    cases hl : m.stops with
    | nil => rw [hl] at h; simp [Assoc.find?] at h
    | cons e t => rfl
  have hcon : Assoc.contains m.stops pos = true := (Assoc.contains_iff _ _).2 ⟨s, h⟩
  unfold Model.color
  simp only [hne, hcon, if_true, Bool.false_eq_true, if_false, h, Option.getD_some]

/-- C12 at a concrete input: with stops (0, black) and (1, white), the colour at 0 is
black and the colour at 1 is white. -/
theorem color_at_stop_witness :
    Assoc.find? (Model.empty.run [.addStop 0 QColor.black, .addStop 1 QColor.white]).stops 0
      = some 1 ∧
    (Model.empty.run [.addStop 0 QColor.black, .addStop 1 QColor.white]).color 0 = QColor.black ∧
    (Model.empty.run [.addStop 0 QColor.black, .addStop 1 QColor.white]).color 1 = QColor.white :=
  have h0 : Assoc.find? (Model.empty.run [.addStop 0 QColor.black,
      .addStop 1 QColor.white]).stops 0 = some 1 := by
    rw [black_white_facts.1]; simp [Assoc.find?]
  have h1 : Assoc.find? (Model.empty.run [.addStop 0 QColor.black,
      .addStop 1 QColor.white]).stops 1 = some 2 := by
    rw [black_white_facts.1]; simp [Assoc.find?]
  ⟨h0, (color_at_stop _ 0 1 h0).trans black_white_facts.2.1,
    (color_at_stop _ 1 2 h1).trans black_white_facts.2.2⟩

/-- C13: for a model with no stops, `color(pos)` is the grey with R = G = B = `pos` and
alpha 1, for every `pos`. -/
theorem color_no_stops (m : Model) (pos : ℚ) (h : m.stops = []) :
    m.color pos = QColor.fromRgbF pos pos pos 1 := by
  unfold Model.color
  simp [h]

/-- C13 at a concrete input: the empty model queried at 0.3 gives (0.3, 0.3, 0.3, 1). -/
theorem color_no_stops_witness :
    Model.empty.stops = [] ∧
    Model.empty.color (3/10) = QColor.fromRgbF (3/10) (3/10) (3/10) 1 :=
  ⟨rfl, color_no_stops Model.empty (3/10) rfl⟩

/-! ## Consistency under the elementary mutators -/

theorem selectStop_consistent (m : Model) (s : StopPtr) (b : Bool) (hc : m.Consistent) :
    (m.selectStop s b).Consistent := by
  intro s' p
  simp only [Model.position, selectStop_posToStop, selectStop_stopToPos, selectStop_heap]
  exact hc s' p

theorem setCurrentStop_consistent (m : Model) (s : StopPtr) (hc : m.Consistent) :
    (m.setCurrentStop s).Consistent := by
  intro s' p
  simp only [Model.position, setCurrentStop_posToStop, setCurrentStop_stopToPos,
    setCurrentStop_heap]
  exact hc s' p

theorem removeStop_owns (m : Model) (s0 s : StopPtr) (h : (m.removeStop s0).Owns s) :
    m.Owns s ∧ s ≠ s0 := by
  by_cases ho : Assoc.contains m.d_ptr.m_stopToPos s0 = true
  · simp only [Model.Owns, removeStop_stopToPos m s0 ho, Assoc.contains_remove] at h
    split_ifs at h with h1
    exact ⟨h, h1⟩
  · have ho' : Assoc.contains m.d_ptr.m_stopToPos s0 = false := by simpa using ho
    rw [removeStop_of_not_owned m s0 ho'] at h
    refine ⟨h, ?_⟩
    intro h1
    rw [h1] at h
    exact ho h

theorem foldl_removeStop_owns (l : List StopPtr) (m : Model) (s : StopPtr)
    (h : (l.foldl Model.removeStop m).Owns s) : m.Owns s ∧ s ∉ l := by
  induction l generalizing m with
  | nil => exact ⟨h, List.not_mem_nil _⟩
  | cons a t ih =>
    have h1 := ih (m.removeStop a) h
    have h2 := removeStop_owns m a s h1.1
    refine ⟨h2.1, ?_⟩
    intro hmem
    rcases List.mem_cons.1 hmem with h3 | h3
    · exact h2.2 h3
    · exact h1.2 h3

theorem Assoc.eq_nil_of_find?_none {κ β : Type} [DecidableEq κ] (l : List (κ × β))
    (h : ∀ k, Assoc.find? l k = none) : l = [] := by
  cases l with
  | nil => rfl
  | cons e t =>
    have := h e.1
    simp [Assoc.find?] at this

theorem Assoc.mem_values_of_find? {κ β : Type} [DecidableEq κ] (l : List (κ × β)) (k : κ) (v : β)
    (h : Assoc.find? l k = some v) : v ∈ Assoc.values l :=
  List.mem_map.2 ⟨(k, v), Assoc.mem_of_find? l k v h, rfl⟩

/-! ## `clear` -/

/-- C20: for a model with consistent indices, whatever stops are selected or current among
its stops, after `clear()` both indices are empty, no stop is selected and the current
stop is null. -/
theorem clear_removes_everything (m : Model) (hc : m.Consistent) (hs : m.SelectionOwned) :
    m.clear.stops = [] ∧ m.clear.d_ptr.m_stopToPos = [] ∧ m.clear.selectedStops = [] ∧
    m.clear.currentStop = 0 := by
  have hc' : m.clear.Consistent :=
    foldl_preserves Model.Consistent _ (fun m' s h => removeStop_consistent m' s h) _ m hc
  have hs' : m.clear.SelectionOwned :=
    foldl_preserves Model.SelectionOwned _
      (fun m' s h => selectionOwned_preserved.removeStop m' s h) _ m hs
  have hnone : ∀ s, ¬ m.clear.Owns s := by
    intro s h
    have h1 := foldl_removeStop_owns (Assoc.values m.stops) m s h
    obtain ⟨p, hp⟩ := (Assoc.contains_iff _ _).1 h1.1
    exact h1.2 (Assoc.mem_values_of_find? _ p s (((hc s p).1).2 hp))
  have hstp : m.clear.d_ptr.m_stopToPos = [] := by
    apply Assoc.eq_nil_of_find?_none
    intro s
    rw [← Assoc.contains_eq_false_iff]
    have := hnone s
    simpa [Model.Owns] using this
  refine ⟨?_, hstp, ?_, ?_⟩
  · apply Assoc.eq_nil_of_find?_none
    intro p
    cases hf : Assoc.find? m.clear.stops p with
    | none => rfl
    | some s =>
      have := ((hc' s p).1).1 hf
      rw [hstp] at this
      simp [Assoc.find?] at this
  · cases hsel : m.clear.selectedStops with
    | nil => rfl
    | cons s t =>
      exact absurd (hs'.1 s (by rw [hsel]; exact List.mem_cons_self _ _)) (hnone s)
  · rcases hs'.2 with h0 | ho
    · exact h0
    · exact absurd ho (hnone _)

theorem run_select_current_consistent (calls : List AddRemove) (s1 s2 : StopPtr) (b : Bool) :
    (Model.empty.run (calls.map AddRemove.toCall ++ [.selectStop s1 b, .setCurrentStop s2])).Consistent := by
  have h := (run_addRemove_invariant calls Model.empty empty_pointersValid empty_consistent).2
  have : Model.empty.run (calls.map AddRemove.toCall ++ [.selectStop s1 b, .setCurrentStop s2]) =
      ((Model.empty.run (calls.map AddRemove.toCall)).selectStop s1 b).setCurrentStop s2 := by
    simp [Model.run, List.foldl_append, Model.call]
  rw [this]
  exact setCurrentStop_consistent _ _ (selectStop_consistent _ _ _ h)

/-- C20 at a concrete input: the model with stops at 0.5 and 1.0, the first selected and
the second current. -/
theorem clear_removes_everything_witness :
    (Model.empty.run [.addStop (1/2) QColor.black, .addStop 1 QColor.white,
      .selectStop 1 true, .setCurrentStop 2]).Consistent ∧
    (Model.empty.run [.addStop (1/2) QColor.black, .addStop 1 QColor.white,
      .selectStop 1 true, .setCurrentStop 2]).SelectionOwned ∧
    (Model.empty.run [.addStop (1/2) QColor.black, .addStop 1 QColor.white,
      .selectStop 1 true, .setCurrentStop 2]).clear.stops = [] ∧
    (Model.empty.run [.addStop (1/2) QColor.black, .addStop 1 QColor.white,
      .selectStop 1 true, .setCurrentStop 2]).clear.currentStop = 0 :=
  have hc := run_select_current_consistent
    [.addStop (1/2) QColor.black, .addStop 1 QColor.white] 1 2 true
  have hs := (run_wellFormed [.addStop (1/2) QColor.black, .addStop 1 QColor.white,
      .selectStop 1 true, .setCurrentStop 2]).2.2.1
  have h := clear_removes_everything _ hc hs
  ⟨hc, hs, h.1, h.2.2.2⟩

/-! ## Algebra of the container updates -/

theorem heapSetPosition_comm (h : Heap) (a b : StopPtr) (x y : ℚ) (hab : a ≠ b) :
    heapSetPosition (heapSetPosition h a x) b y = heapSetPosition (heapSetPosition h b y) a x := by
  induction h with
  | nil => rfl
  | cons e t ih =>
    by_cases h1 : e.1 = a
    · have h2 : ¬ e.1 = b := fun h => hab (h1.symm.trans h)
      simp [heapSetPosition, h1, h2, hab]
    · by_cases h2 : e.1 = b
      · have h3 : ¬ b = a := fun h => hab h.symm
        simp [heapSetPosition, h1, h2, h3]
      · simp [heapSetPosition, h1, h2, ih]

theorem heapSetPosition_twice (h : Heap) (a : StopPtr) (x y : ℚ) :
    heapSetPosition (heapSetPosition h a x) a y = heapSetPosition h a y := by
  induction h with
  | nil => rfl
  | cons e t ih =>
    by_cases h1 : e.1 = a
    · simp [heapSetPosition, h1]
    · simp [heapSetPosition, h1, ih]

theorem heapSetPosition_self (h : Heap) (a : StopPtr) :
    heapSetPosition h a (deref h a).m_position = h := by
  induction h with
  | nil => rfl
  | cons e t ih =>
    by_cases h1 : e.1 = a
    · obtain ⟨k, o⟩ := e
      simp only at h1
      subst h1
      simp [heapSetPosition, deref, Assoc.find?]
    · have : (deref (e :: t) a).m_position = (deref t a).m_position := by
        simp [deref, Assoc.find?, h1]
      simp only [heapSetPosition, h1, if_false, this, ih]

theorem Assoc.set_comm {κ β : Type} [DecidableEq κ] (l : List (κ × β)) (a b : κ) (x y : β)
    (hab : a ≠ b) (ha : Assoc.contains l a = true) :
    Assoc.set (Assoc.set l a x) b y = Assoc.set (Assoc.set l b y) a x := by
  induction l with
  | nil => simp [Assoc.contains, Assoc.find?] at ha
  | cons e t ih =>
    by_cases h1 : e.1 = a
    · have h2 : ¬ e.1 = b := fun h => hab (h1.symm.trans h)
      simp [Assoc.set, h1, h2, hab]
    · by_cases h2 : e.1 = b
      · have h3 : ¬ b = a := fun h => hab h.symm
        simp [Assoc.set, h1, h2, h3]
      · have ha' : Assoc.contains t a = true := by
          simpa [Assoc.contains, Assoc.find?, h1] using ha
        simp [Assoc.set, h1, h2, ih ha']

theorem Assoc.set_twice {κ β : Type} [DecidableEq κ] (l : List (κ × β)) (a : κ) (x y : β) :
    Assoc.set (Assoc.set l a x) a y = Assoc.set l a y := by
  induction l with
  | nil => simp [Assoc.set]
  | cons e t ih =>
    by_cases h1 : e.1 = a
    · simp [Assoc.set, h1]
    · simp [Assoc.set, h1, ih]

theorem Assoc.set_self {κ β : Type} [DecidableEq κ] (l : List (κ × β)) (a : κ) (x : β)
    (h : Assoc.find? l a = some x) : Assoc.set l a x = l := by
  induction l with
  | nil => simp [Assoc.find?] at h
  | cons e t ih =>
    by_cases h1 : e.1 = a
    · simp only [Assoc.find?, h1, if_true, Option.some.injEq] at h
      simp only [Assoc.set, h1, if_true]
      rw [← h1, ← h]
    · simp only [Assoc.find?, h1, if_false] at h
      simp only [Assoc.set, h1, if_false, ih h]

theorem Assoc.insertOrdered_twice {β : Type} (l : List (ℚ × β)) (k : ℚ) (x y : β) :
    Assoc.insertOrdered (Assoc.insertOrdered l k x) k y = Assoc.insertOrdered l k y := by
  induction l with
  | nil => simp [Assoc.insertOrdered]
  | cons e t ih =>
    by_cases h1 : k < e.1
    · simp [Assoc.insertOrdered, h1]
    · by_cases h2 : k = e.1
      · simp [Assoc.insertOrdered, h1, h2]
      · simp [Assoc.insertOrdered, h1, h2, ih]

theorem Assoc.insertOrdered_self {β : Type} (l : List (ℚ × β)) (k : ℚ) (x : β)
    (hord : Assoc.Ordered l) (h : Assoc.find? l k = some x) : Assoc.insertOrdered l k x = l := by
  induction l with
  | nil => simp [Assoc.find?] at h
  | cons e t ih =>
    have hp := List.pairwise_cons.1 hord
    by_cases h2 : e.1 = k
    · obtain ⟨k', v⟩ := e
      simp only at h2
      subst h2
      simp only [Assoc.find?, if_true, Option.some.injEq] at h
      subst h
      simp [Assoc.insertOrdered]
    · simp only [Assoc.find?, h2, if_false] at h
      have hmem := Assoc.mem_of_find? t k x h
      have h1 : ¬ k < e.1 := not_lt.mpr (le_of_lt (hp.1 _ hmem))
      have h3 : ¬ k = e.1 := fun h' => h2 h'.symm
      simp only [Assoc.insertOrdered, h1, h3, if_false, ih hp.2 h]

theorem Assoc.insertOrdered_comm {β : Type} (l : List (ℚ × β)) (a b : ℚ) (x y : β)
    (hab : a ≠ b) :
    Assoc.insertOrdered (Assoc.insertOrdered l a x) b y =
      Assoc.insertOrdered (Assoc.insertOrdered l b y) a x := by
  induction l with
  | nil =>
    rcases lt_or_gt_of_ne hab with h | h
    · have h1 : ¬ b < a := not_lt.mpr (le_of_lt h)
      have h2 : ¬ b = a := fun h' => hab h'.symm
      simp [Assoc.insertOrdered, h, h1, h2, hab]
    · have h1 : ¬ a < b := not_lt.mpr (le_of_lt h)
      have h2 : ¬ b = a := fun h' => hab h'.symm
      simp [Assoc.insertOrdered, h, h1, h2, hab]
  | cons e t ih =>
    rcases lt_or_gt_of_ne hab with hlt | hlt <;>
    · simp only [Assoc.insertOrdered]
      split_ifs <;> simp only [Assoc.insertOrdered] <;> split_ifs <;>
        first
          | rfl
          | (exfalso; linarith)
          | (exfalso; simp_all; done)
          | simp_all

/-! ## `swapStops` -/

theorem owned_index_entries (m : Model) (hc : m.Consistent) (s : StopPtr) (ho : m.Owns s) :
    Assoc.find? m.d_ptr.m_stopToPos s = some (m.position s) ∧
    Assoc.find? m.d_ptr.m_posToStop (m.position s) = some s := by
  obtain ⟨p, hp⟩ := (Assoc.contains_iff _ _).1 ho
  have h1 := (hc s p).2 hp
  rw [h1]
  exact ⟨hp, ((hc s p).1).2 hp⟩

theorem position_ne_of_ne (m : Model) (hc : m.Consistent) (a b : StopPtr) (ha : m.Owns a)
    (hb : m.Owns b) (hab : a ≠ b) : m.position a ≠ m.position b := by
  intro h
  have h1 := (owned_index_entries m hc a ha).2
  have h2 := (owned_index_entries m hc b hb).2
  rw [h, h2] at h1
  exact hab (Option.some.inj h1).symm

theorem swapStops_position (m : Model) (a b : StopPtr) (hv : m.PointersValid)
    (ha : m.Owns a) (hb : m.Owns b) (hab : a ≠ b) (s : StopPtr) :
    (m.swapStops a b).position s =
      if s = b then m.position a else if s = a then m.position b else m.position s := by
  rw [swapStops_of_swaps m a b hab ha hb]
  obtain ⟨oa, hoa⟩ := (Assoc.contains_iff _ _).1 (hv a ha).2
  obtain ⟨ob, hob⟩ := (Assoc.contains_iff _ _).1 (hv b hb).2
  simp only [Model.position, deref, find?_heapSetPosition]
  by_cases h1 : s = b
  · subst h1
    have : ¬ s = a := fun h => hab h.symm
    simp [this, hob]
  · by_cases h2 : s = a
    · subst h2
      simp [h1, hoa]
    · simp [h1, h2]

theorem swapStops_stopColor (m : Model) (a b s : StopPtr) :
    (m.swapStops a b).stopColor s = m.stopColor s := by
  rcases swapStops_cases m a b with h | ⟨_, _, _, h⟩
  · rw [h]
  · rw [h]
    simp only [Model.stopColor, deref, find?_heapSetPosition]
    split_ifs <;> cases Assoc.find? m.heap s <;> rfl

theorem swapStops_consistent (m : Model) (a b : StopPtr) (hv : m.PointersValid)
    (hc : m.Consistent) : (m.swapStops a b).Consistent := by
  by_cases hsw : a ≠ b ∧ Assoc.contains m.d_ptr.m_stopToPos a = true
      ∧ Assoc.contains m.d_ptr.m_stopToPos b = true
  · obtain ⟨hab, ha, hb⟩ := hsw
    have hpos := swapStops_position m a b hv ha hb hab
    have hea := owned_index_entries m hc a ha
    have heb := owned_index_entries m hc b hb
    have hne := position_ne_of_ne m hc a b ha hb hab
    intro s p
    rw [hpos s]
    rw [swapStops_of_swaps m a b hab ha hb]
    simp only [Assoc.find?_insertOrdered, Assoc.find?_set]
    have hba : ¬ b = a := fun h => hab h.symm
    by_cases hsb : s = b
    · subst hsb
      by_cases hpa : p = m.position a
      · subst hpa
        simp [hne, hba]
      · have h1 : ¬ m.position a = p := fun h => hpa h.symm
        by_cases hpb : p = m.position s
        · subst hpb; simp [hab, h1]
        · have h2 : ¬ Assoc.find? m.d_ptr.m_posToStop p = some s := by
            intro h
            have := ((hc s p).1).1 h
            rw [heb.1] at this
            exact hpb (Option.some.inj this).symm
          simp [hpa, hpb, h1, h2]
    · by_cases hsa : s = a
      · subst hsa
        by_cases hpb : p = m.position b
        · subst hpb; simp [hsb]
        · have h1 : ¬ m.position b = p := fun h => hpb h.symm
          by_cases hpa : p = m.position s
          · subst hpa; simp [hsb, hba, hpb, h1]
          · have h2 : ¬ Assoc.find? m.d_ptr.m_posToStop p = some s := by
              intro h
              have := ((hc s p).1).1 h
              rw [hea.1] at this
              exact hpa (Option.some.inj this).symm
            simp [hsb, hpa, hpb, h1, h2]
      · have hsb' : ¬ b = s := fun h => hsb h.symm
        have hsa' : ¬ a = s := fun h => hsa h.symm
        by_cases hpb : p = m.position b
        · subst hpb
          have h2 : ¬ Assoc.find? m.d_ptr.m_stopToPos s = some (m.position b) := by
            intro h
            have := ((hc s _).1).2 h
            rw [heb.2] at this
            exact hsb (Option.some.inj this).symm
          simp [hsb, hsa, hsa', h2]
        · by_cases hpa : p = m.position a
          · subst hpa
            have h2 : ¬ Assoc.find? m.d_ptr.m_stopToPos s = some (m.position a) := by
              intro h
              have := ((hc s _).1).2 h
              rw [hea.2] at this
              exact hsa (Option.some.inj this).symm
            simp [hsb, hsa, hsb', hpb, h2]
          · simp only [hsb, hsa, hpa, hpb, if_false]
            exact hc s p
  · rw [swapStops_of_not_swaps m a b]
    · exact hc
    · by_cases h1 : a = b
      · exact Or.inl h1
      · by_cases h2 : Assoc.contains m.d_ptr.m_stopToPos a = true
        · right; right
          have : ¬ Assoc.contains m.d_ptr.m_stopToPos b = true := fun h3 => hsw ⟨h1, h2, h3⟩
          simpa using this
        · right; left; simpa using h2

theorem swapStops_twice_observe (m : Model) (a b : StopPtr)
    (hord : Assoc.Ordered m.d_ptr.m_posToStop) (hv : m.PointersValid) (hc : m.Consistent)
    (ha : m.Owns a) (hb : m.Owns b) (hab : a ≠ b) :
    ((m.swapStops a b).swapStops a b).observe = m.observe := by
  have hpos := swapStops_position m a b hv ha hb hab
  have hba : ¬ b = a := fun h => hab h.symm
  have hpa : (m.swapStops a b).position a = m.position b := by rw [hpos]; simp [hab]
  have hpb : (m.swapStops a b).position b = m.position a := by rw [hpos]; simp
  have hea := owned_index_entries m hc a ha
  have heb := owned_index_entries m hc b hb
  have hne := position_ne_of_ne m hc a b ha hb hab
  have ha' : (m.swapStops a b).Owns a := by
    rw [swapStops_of_swaps m a b hab ha hb]
    simp only [Model.Owns, Assoc.contains_set]
    simp [hab, (show Assoc.contains m.d_ptr.m_stopToPos a = true from ha)]
  have hb' : (m.swapStops a b).Owns b := by
    rw [swapStops_of_swaps m a b hab ha hb]
    simp [Model.Owns, Assoc.contains_set]
  rw [swapStops_of_swaps (m.swapStops a b) a b hab ha' hb', hpa, hpb]
  rw [swapStops_of_swaps m a b hab ha hb]
  simp only [Model.observe]
  have hheap : heapSetPosition (heapSetPosition (heapSetPosition (heapSetPosition m.heap a
      (m.position b)) b (m.position a)) a (m.position a)) b (m.position b) = m.heap := by
    rw [heapSetPosition_comm _ b a _ _ hba, heapSetPosition_twice, heapSetPosition_twice]
    show heapSetPosition (heapSetPosition m.heap a (deref m.heap a).m_position) b
      (deref m.heap b).m_position = m.heap
    rw [heapSetPosition_self, heapSetPosition_self]
  have hstp : Assoc.set (Assoc.set (Assoc.set (Assoc.set m.d_ptr.m_stopToPos a (m.position b)) b
      (m.position a)) a (m.position a)) b (m.position b) = m.d_ptr.m_stopToPos := by
    have hcb : Assoc.contains (Assoc.set m.d_ptr.m_stopToPos a (m.position b)) b = true := by
      rw [Assoc.contains_set]
      simp [hba, (show Assoc.contains m.d_ptr.m_stopToPos b = true from hb)]
    rw [Assoc.set_comm _ b a _ _ hba hcb, Assoc.set_twice, Assoc.set_twice,
      Assoc.set_self _ a _ hea.1, Assoc.set_self _ b _ heb.1]
  have hpts : Assoc.insertOrdered (Assoc.insertOrdered (Assoc.insertOrdered (Assoc.insertOrdered
      m.d_ptr.m_posToStop (m.position a) b) (m.position b) a) (m.position b) b) (m.position a) a
      = m.d_ptr.m_posToStop := by
    rw [Assoc.insertOrdered_twice, Assoc.insertOrdered_comm _ _ _ _ _ (Ne.symm hne),
      Assoc.insertOrdered_twice, Assoc.insertOrdered_self _ _ _ hord hea.2,
      Assoc.insertOrdered_self _ _ _ hord heb.2]
  simp only [hheap, hstp, hpts]

/-- C19: in a model with consistent indices, for two distinct owned stops `a`, `b` at
positions `pa`, `pb`: after `swapStops(a, b)`, `a` is at `pb` and `b` at `pa` (in the
stops and in both indices), the occupied positions are the same, every other stop keeps
its position and index entries, all colours, the selection and the current stop are
unchanged, and the indices are consistent again; `swapStops(a, a)` changes nothing; a
second `swapStops(a, b)` restores the stop objects and the data members of the model. -/
theorem swapStops_exchanges_positions (m : Model) (a b : StopPtr)
    (hord : Assoc.Ordered m.d_ptr.m_posToStop) (hv : m.PointersValid) (hc : m.Consistent)
    (ha : m.Owns a) (hb : m.Owns b) (hab : a ≠ b) :
    (m.swapStops a b).position a = m.position b ∧
    (m.swapStops a b).position b = m.position a ∧
    Assoc.find? (m.swapStops a b).d_ptr.m_stopToPos a = some (m.position b) ∧
    Assoc.find? (m.swapStops a b).d_ptr.m_stopToPos b = some (m.position a) ∧
    (m.swapStops a b).at (m.position a) = b ∧
    (m.swapStops a b).at (m.position b) = a ∧
    (∀ p, Assoc.contains (m.swapStops a b).stops p = Assoc.contains m.stops p) ∧
    (∀ s, s ≠ a → s ≠ b →
      (m.swapStops a b).position s = m.position s ∧
      Assoc.find? (m.swapStops a b).d_ptr.m_stopToPos s = Assoc.find? m.d_ptr.m_stopToPos s ∧
      ∀ p, (Assoc.find? (m.swapStops a b).stops p = some s ↔ Assoc.find? m.stops p = some s)) ∧
    (∀ s, (m.swapStops a b).stopColor s = m.stopColor s) ∧
    (m.swapStops a b).d_ptr.m_selection = m.d_ptr.m_selection ∧
    (m.swapStops a b).currentStop = m.currentStop ∧
    (m.swapStops a b).Consistent ∧
    m.swapStops a a = m ∧
    ((m.swapStops a b).swapStops a b).observe = m.observe := by
  have hpos := swapStops_position m a b hv ha hb hab
  have hba : ¬ b = a := fun h => hab h.symm
  have hea := owned_index_entries m hc a ha
  have heb := owned_index_entries m hc b hb
  have hne := position_ne_of_ne m hc a b ha hb hab
  have hd := swapStops_of_swaps m a b hab ha hb
  refine ⟨?_, ?_, ?_, ?_, ?_, ?_, ?_, ?_, swapStops_stopColor m a b, ?_, ?_,
    swapStops_consistent m a b hv hc, swapStops_of_not_swaps m a a (Or.inl rfl),
    swapStops_twice_observe m a b hord hv hc ha hb hab⟩
  · rw [hpos]; simp [hab]
  · rw [hpos]; simp
  · rw [hd]; simp [Assoc.find?_set, hab]
  · rw [hd]; simp [Assoc.find?_set]
  · rw [hd]; simp [Model.at, Assoc.contains_insertOrdered, Assoc.find?_insertOrdered, hne]
  · rw [hd]; simp [Model.at, Assoc.contains_insertOrdered, Assoc.find?_insertOrdered]
  · intro p
    rw [hd]
    simp only [Model.stops, Assoc.contains_insertOrdered]
    split_ifs with h1 h2
    · rw [h1]; exact ((Assoc.contains_iff _ _).2 ⟨b, heb.2⟩).symm
    · rw [h2]; exact ((Assoc.contains_iff _ _).2 ⟨a, hea.2⟩).symm
    · rfl
  · intro s hsa hsb
    refine ⟨?_, ?_, ?_⟩
    · rw [hpos]; simp [hsa, hsb]
    · rw [hd]; simp [Assoc.find?_set, hsa, hsb]
    · intro p
      rw [hd]
      simp only [Model.stops, Assoc.find?_insertOrdered]
      have hsa' : ¬ a = s := fun h => hsa h.symm
      have hsb' : ¬ b = s := fun h => hsb h.symm
      split_ifs with h1 h2
      · rw [h1, heb.2]; simp [hsa', hsb']
      · rw [h2, hea.2]; simp [hsa', hsb']
      · rfl
  · rw [hd]
  · rw [hd]; rfl

/-- C19 at a concrete input: swapping the stops at 0.5 and 1.0. -/
theorem swapStops_exchanges_positions_witness :
    Assoc.Ordered (Model.empty.run [.addStop (1/2) QColor.black,
      .addStop 1 QColor.white]).d_ptr.m_posToStop ∧
    (Model.empty.run [.addStop (1/2) QColor.black, .addStop 1 QColor.white]).Consistent ∧
    (Model.empty.run [.addStop (1/2) QColor.black, .addStop 1 QColor.white]).Owns 1 ∧
    (Model.empty.run [.addStop (1/2) QColor.black, .addStop 1 QColor.white]).Owns 2 ∧
    ((Model.empty.run [.addStop (1/2) QColor.black, .addStop 1 QColor.white]).swapStops 1
      2).position 1 =
      (Model.empty.run [.addStop (1/2) QColor.black, .addStop 1 QColor.white]).position 2 :=
  have hwf := run_wellFormed [.addStop (1/2) QColor.black, .addStop 1 QColor.white]
  have hc := (run_addRemove_invariant [.addStop (1/2) QColor.black, .addStop 1 QColor.white]
      Model.empty empty_pointersValid empty_consistent).2
  have h1 : (Model.empty.run [.addStop (1/2) QColor.black, .addStop 1 QColor.white]).Owns 1 := by
    rw [run_two_stops]; simp [Model.Owns, Assoc.contains, Assoc.find?]
  have h2 : (Model.empty.run [.addStop (1/2) QColor.black, .addStop 1 QColor.white]).Owns 2 := by
    rw [run_two_stops]; simp [Model.Owns, Assoc.contains, Assoc.find?]
  ⟨hwf.1, hc, h1, h2,
    (swapStops_exchanges_positions _ 1 2 hwf.1 hwf.2.1 hc h1 h2 (by decide)).1⟩

/-! ## `moveStop` to a free position inside [0,1] -/

theorem moveStop_free (m : Model) (s : StopPtr) (t : ℚ)
    (ho : m.Owns s) (hfree : Assoc.contains m.d_ptr.m_posToStop t = false)
    (h0 : 0 ≤ t) (h1 : t ≤ 1) :
    m.moveStop s t =
      { heap := heapSetPosition m.heap s t
        d_ptr := { m.d_ptr with
          m_posToStop := Assoc.insertOrdered (Assoc.remove m.d_ptr.m_posToStop (m.position s)) t s
          m_stopToPos := Assoc.set m.d_ptr.m_stopToPos s t }
        emitted := m.emitted ++ [(Signal.stopMoved s t, m.observe)] } := by
  rw [moveStop_of_moves m s t ho hfree, clamp01_of_mem t h0 h1]

theorem moveStop_free_position (m : Model) (s : StopPtr) (t : ℚ) (hv : m.PointersValid)
    (ho : m.Owns s) (hfree : Assoc.contains m.d_ptr.m_posToStop t = false)
    (h0 : 0 ≤ t) (h1 : t ≤ 1) (y : StopPtr) :
    (m.moveStop s t).position y = if y = s then t else m.position y := by
  rw [moveStop_free m s t ho hfree h0 h1]
  obtain ⟨o, hoo⟩ := (Assoc.contains_iff _ _).1 (hv s ho).2
  simp only [Model.position, deref, find?_heapSetPosition]
  by_cases h : y = s
  · subst h; simp [hoo]
  · simp [h]

theorem moveStop_stopColor (m : Model) (s : StopPtr) (t : ℚ) (y : StopPtr) :
    (m.moveStop s t).stopColor y = m.stopColor y := by
  rcases moveStop_cases m s t with h | ⟨_, _, h⟩
  · rw [h]
  · rw [h]
    simp only [Model.stopColor, deref, find?_heapSetPosition]
    split_ifs <;> cases Assoc.find? m.heap y <;> rfl

theorem moveStop_owns (m : Model) (s : StopPtr) (t : ℚ) (y : StopPtr) :
    (m.moveStop s t).Owns y ↔ m.Owns y := by
  rcases moveStop_cases m s t with h | ⟨hs, _, h⟩
  · rw [h]
  · rw [h]
    simp only [Model.Owns, Assoc.contains_set]
    split_ifs with h1
    · rw [h1]; simp [hs]
    · rfl

theorem moveStop_selection (m : Model) (s : StopPtr) (t : ℚ) :
    (m.moveStop s t).d_ptr.m_selection = m.d_ptr.m_selection ∧
    (m.moveStop s t).d_ptr.m_current = m.d_ptr.m_current := by
  rcases moveStop_cases m s t with h | ⟨_, _, h⟩
  · rw [h]; exact ⟨rfl, rfl⟩
  · rw [h]; exact ⟨rfl, rfl⟩

theorem moveStop_free_consistent (m : Model) (s : StopPtr) (t : ℚ) (hv : m.PointersValid)
    (hc : m.Consistent) (ho : m.Owns s)
    (hfree : Assoc.contains m.d_ptr.m_posToStop t = false) (h0 : 0 ≤ t) (h1 : t ≤ 1) :
    (m.moveStop s t).Consistent := by
  have hpos := moveStop_free_position m s t hv ho hfree h0 h1
  have hes := owned_index_entries m hc s ho
  have hnone : Assoc.find? m.d_ptr.m_posToStop t = none := (Assoc.contains_eq_false_iff _ _).1 hfree
  have hne : m.position s ≠ t := by
    intro h; rw [h, hnone] at hes; exact Option.noConfusion hes.2
  intro y p
  rw [hpos y, moveStop_free m s t ho hfree h0 h1]
  simp only [Assoc.find?_insertOrdered, Assoc.find?_remove, Assoc.find?_set]
  by_cases hy : y = s
  · subst hy
    by_cases hp : p = t
    · subst hp; simp
    · have hp' : ¬ t = p := fun h => hp h.symm
      by_cases hp2 : p = m.position y
      · simp [hp, hp', hp2, eq_comm]
      · have h2 : ¬ Assoc.find? m.d_ptr.m_posToStop p = some y := by
          intro h
          have := ((hc y p).1).1 h
          rw [hes.1] at this
          exact hp2 (Option.some.inj this).symm
        simp [hp, hp', hp2, h2]
  · have hy' : ¬ s = y := fun h => hy h.symm
    by_cases hp : p = t
    · subst hp
      have h2 : ¬ Assoc.find? m.d_ptr.m_stopToPos y = some p := by
        intro h
        rw [((hc y p).1).2 h] at hnone
        exact Option.noConfusion hnone
      simp [hy, hy', h2]
    · by_cases hp2 : p = m.position s
      · subst hp2
        have h2 : ¬ Assoc.find? m.d_ptr.m_stopToPos y = some (m.position s) := by
          intro h
          have := ((hc y _).1).2 h
          rw [hes.2] at this
          exact hy (Option.some.inj this).symm
        simp [hy, hp, h2]
      · simp only [hy, hp, hp2, if_false]
        exact hc y p

theorem moveStop_free_index (m : Model) (s : StopPtr) (t : ℚ) (ho : m.Owns s)
    (hfree : Assoc.contains m.d_ptr.m_posToStop t = false) (h0 : 0 ≤ t) (h1 : t ≤ 1)
    (y : StopPtr) :
    Assoc.find? (m.moveStop s t).d_ptr.m_stopToPos y =
      if y = s then some t else Assoc.find? m.d_ptr.m_stopToPos y := by
  rw [moveStop_free m s t ho hfree h0 h1]
  simp only [Assoc.find?_set]

/-! ## `flipAll` -/

theorem swapStops_owns (m : Model) (a b y : StopPtr) :
    (m.swapStops a b).Owns y ↔ m.Owns y := by
  rcases swapStops_cases m a b with h | ⟨_, ha, hb, h⟩
  · rw [h]
  · rw [h]
    simp only [Model.Owns, Assoc.contains_set]
    split_ifs with h1 h2
    · rw [h1]; simp [hb]
    · rw [h2]; simp [ha]
    · rfl

theorem swapStops_selection (m : Model) (a b : StopPtr) :
    (m.swapStops a b).d_ptr.m_selection = m.d_ptr.m_selection ∧
    (m.swapStops a b).d_ptr.m_current = m.d_ptr.m_current := by
  rcases swapStops_cases m a b with h | ⟨_, _, _, h⟩
  · rw [h]; exact ⟨rfl, rfl⟩
  · rw [h]; exact ⟨rfl, rfl⟩

theorem key_unique (m : Model) (hc : m.Consistent) (k1 k2 : ℚ) (s : StopPtr)
    (h1 : Assoc.find? m.stops k1 = some s) (h2 : Assoc.find? m.stops k2 = some s) : k1 = k2 := by
  have e1 := ((hc s k1).1).1 h1
  have e2 := ((hc s k2).1).1 h2
  rw [e1] at e2
  exact Option.some.inj e2

theorem owned_has_key (m : Model) (hc : m.Consistent) (y : StopPtr) (ho : m.Owns y) :
    ∃ k, Assoc.find? m.stops k = some y :=
  ⟨m.position y, (owned_index_entries m hc y ho).2⟩

theorem key_owned (m : Model) (hc : m.Consistent) (k : ℚ) (s : StopPtr)
    (h : Assoc.find? m.stops k = some s) : m.Owns s :=
  (Assoc.contains_iff _ _).2 ⟨k, ((hc s k).1).1 h⟩

theorem flipInv_init (m0 : Model) (hv : m0.PointersValid) (hc : m0.Consistent) :
    FlipInv m0 (fun _ => False) [] (m0, []) where
  cons := hc
  valid := hv
  owns := fun _ => Iff.rfl
  pos_flipped := fun _ _ _ h => absurd h id
  pos_kept := fun k s h _ => (hc s k).2 (((hc s k).1).1 h)
  colour := fun _ => rfl
  sel := rfl
  cur := rfl
  processed := fun e he => absurd he (List.not_mem_nil _)
  swapped_flipped := fun k s _ h => by simp [Assoc.contains, Assoc.find?] at h
  flipped_cases := fun _ _ _ h => absurd h id
  closed := fun _ h _ => h

theorem flipInv_step_skip (m0 : Model) (F : ℚ → Prop) (P : List (ℚ × StopPtr))
    (st : Model × List (StopPtr × Bool)) (inv : FlipInv m0 F P st) (k : ℚ) (s : StopPtr)
    (hks : Assoc.find? m0.stops k = some s) (hsw : Assoc.contains st.2 s = true) :
    FlipInv m0 F (P ++ [(k, s)]) (Model.flipAllStepExact m0.stops st (k, s)) := by
  have hstep : Model.flipAllStepExact m0.stops st (k, s) = st := by simp [Model.flipAllStepExact, hsw]
  rw [hstep]
  exact { inv with
    processed := by
      intro e he
      rcases List.mem_append.1 he with h | h
      · exact inv.processed e h
      · rw [List.mem_singleton.1 h]; exact inv.swapped_flipped k s hks hsw
    flipped_cases := by
      intro k2 y hk2 hF
      rcases inv.flipped_cases k2 y hk2 hF with ⟨e, he, hek⟩ | h
      · exact Or.inl ⟨e, List.mem_append_left _ he, hek⟩
      · exact Or.inr h }

theorem flipInv_step_move (m0 : Model) (hc0 : m0.Consistent)
    (hrange : ∀ k s, Assoc.find? m0.stops k = some s → 0 ≤ k ∧ k ≤ 1)
    (F : ℚ → Prop) (P : List (ℚ × StopPtr))
    (st : Model × List (StopPtr × Bool)) (inv : FlipInv m0 F P st) (k : ℚ) (s : StopPtr)
    (hks : Assoc.find? m0.stops k = some s) (hnew : ∀ e ∈ P, e.1 ≠ k)
    (hsw : Assoc.contains st.2 s = false) (hpart : Assoc.contains m0.stops (1 - k) = false) :
    FlipInv m0 (fun x => F x ∨ x = k) (P ++ [(k, s)]) (Model.flipAllStepExact m0.stops st (k, s)) := by
  have hnF : ¬ F k := by
    intro hF
    rcases inv.flipped_cases k s hks hF with ⟨e, he, hek⟩ | h
    · exact hnew e he hek
    · rw [hsw] at h; exact Bool.noConfusion h
  have hstep : Model.flipAllStepExact m0.stops st (k, s) = (st.1.moveStop s (1 - k), st.2) := by
    simp [Model.flipAllStepExact, hsw, hpart]
  have hos : st.1.Owns s := (inv.owns s).2 (key_owned m0 hc0 k s hks)
  have hr := hrange k s hks
  have h0 : (0 : ℚ) ≤ 1 - k := by linarith
  have h1 : 1 - k ≤ (1 : ℚ) := by linarith
  have hfree : Assoc.contains st.1.d_ptr.m_posToStop (1 - k) = false := by
    by_contra hcon
    have hcon' : Assoc.contains st.1.d_ptr.m_posToStop (1 - k) = true := by simpa using hcon
    obtain ⟨y, hy⟩ := (Assoc.contains_iff _ _).1 hcon'
    have hy2 := ((inv.cons y (1 - k)).1).1 hy
    have hypos := (inv.cons y (1 - k)).2 hy2
    have hyo : m0.Owns y := (inv.owns y).1 ((Assoc.contains_iff _ _).2 ⟨_, hy2⟩)
    obtain ⟨k2, hk2⟩ := owned_has_key m0 hc0 y hyo
    by_cases hF2 : F k2
    · have := inv.pos_flipped k2 y hk2 hF2
      rw [hypos] at this
      have hkk : k2 = k := by linarith
      exact hnF (hkk ▸ hF2)
    · have := inv.pos_kept k2 y hk2 hF2
      rw [hypos] at this
      rw [← this] at hk2
      have : Assoc.contains m0.stops (1 - k) = true := (Assoc.contains_iff _ _).2 ⟨y, hk2⟩
      rw [hpart] at this
      exact Bool.noConfusion this
  have hpos := moveStop_free_position st.1 s (1 - k) inv.valid hos hfree h0 h1
  rw [hstep]
  exact {
    cons := moveStop_free_consistent st.1 s (1 - k) inv.valid inv.cons hos hfree h0 h1
    valid := pointersValid_preserved.moveStop st.1 s (1 - k) inv.valid
    owns := fun y => (moveStop_owns st.1 s (1 - k) y).trans (inv.owns y)
    pos_flipped := by
      intro k2 y hk2 hF
      show (st.1.moveStop s (1 - k)).position y = 1 - k2
      rw [hpos y]
      by_cases hy : y = s
      · subst hy
        rw [key_unique m0 hc0 k2 k y hk2 hks]; simp
      · simp only [hy, if_false]
        rcases hF with hF | hF
        · exact inv.pos_flipped k2 y hk2 hF
        · rw [hF, hks] at hk2
          exact absurd (Option.some.inj hk2).symm hy
    pos_kept := by
      intro k2 y hk2 hF
      show (st.1.moveStop s (1 - k)).position y = k2
      rw [hpos y]
      have hy : ¬ y = s := by
        intro hy
        subst hy
        exact hF (Or.inr (key_unique m0 hc0 k2 k y hk2 hks))
      simp only [hy, if_false]
      exact inv.pos_kept k2 y hk2 (fun h => hF (Or.inl h))
    colour := fun y => (moveStop_stopColor st.1 s (1 - k) y).trans (inv.colour y)
    sel := (moveStop_selection st.1 s (1 - k)).1.trans inv.sel
    cur := (moveStop_selection st.1 s (1 - k)).2.trans inv.cur
    processed := by
      intro e he
      rcases List.mem_append.1 he with h | h
      · exact Or.inl (inv.processed e h)
      · rw [List.mem_singleton.1 h]; exact Or.inr rfl
    swapped_flipped := fun k2 y hk2 h => Or.inl (inv.swapped_flipped k2 y hk2 h)
    flipped_cases := by
      intro k2 y hk2 hF
      rcases hF with hF | hF
      · rcases inv.flipped_cases k2 y hk2 hF with ⟨e, he, hek⟩ | h
        · exact Or.inl ⟨e, List.mem_append_left _ he, hek⟩
        · exact Or.inr h
      · exact Or.inl ⟨(k, s), List.mem_append_right _ (List.mem_singleton_self _), hF.symm⟩
    closed := by
      intro x hF hx
      rcases hF with hF | hF
      · exact Or.inl (inv.closed x hF hx)
      · rw [hF, hpart] at hx; exact Bool.noConfusion hx }

theorem flipInv_step_swap (m0 : Model) (hc0 : m0.Consistent)
    (F : ℚ → Prop) (P : List (ℚ × StopPtr))
    (st : Model × List (StopPtr × Bool)) (inv : FlipInv m0 F P st) (k : ℚ) (s s' : StopPtr)
    (hks : Assoc.find? m0.stops k = some s) (hnew : ∀ e ∈ P, e.1 ≠ k)
    (hsw : Assoc.contains st.2 s = false) (hks' : Assoc.find? m0.stops (1 - k) = some s') :
    FlipInv m0 (fun x => F x ∨ x = k ∨ x = 1 - k) (P ++ [(k, s)])
      (Model.flipAllStepExact m0.stops st (k, s)) := by
  have hnF : ¬ F k := by
    intro hF
    rcases inv.flipped_cases k s hks hF with ⟨e, he, hek⟩ | h
    · exact hnew e he hek
    · rw [hsw] at h; exact Bool.noConfusion h
  have hkk : 1 - (1 - k) = k := sub_sub_cancel 1 k
  have hnF' : ¬ F (1 - k) := by
    intro hF
    have := inv.closed (1 - k) hF (by rw [hkk]; exact (Assoc.contains_iff _ _).2 ⟨s, hks⟩)
    rw [hkk] at this
    exact hnF this
  have hpart : Assoc.contains m0.stops (1 - k) = true := (Assoc.contains_iff _ _).2 ⟨s', hks'⟩
  have hstep : Model.flipAllStepExact m0.stops st (k, s) =
      (st.1.swapStops s s', Assoc.set st.2 s' true) := by
    simp [Model.flipAllStepExact, hsw, hpart, hks']
  have hos : st.1.Owns s := (inv.owns s).2 (key_owned m0 hc0 k s hks)
  have hos' : st.1.Owns s' := (inv.owns s').2 (key_owned m0 hc0 (1 - k) s' hks')
  have hps : st.1.position s = k := inv.pos_kept k s hks hnF
  have hps' : st.1.position s' = 1 - k := inv.pos_kept (1 - k) s' hks' hnF'
  have hpos : ∀ y, (st.1.swapStops s s').position y =
      if y = s' then k else if y = s then 1 - k else st.1.position y := by
    intro y
    by_cases hss : s = s'
    · rw [swapStops_of_not_swaps st.1 s s' (Or.inl hss)]
      have hk2 : k = 1 - k := key_unique m0 hc0 k (1 - k) s hks (hss ▸ hks')
      by_cases hy : y = s'
      · rw [hy, hps']; simp [← hk2]
      · have hy' : ¬ y = s := fun h => hy (h.trans hss)
        simp [hy, hy']
    · rw [swapStops_position st.1 s s' inv.valid hos hos' hss y, hps, hps']
  have hkey : ∀ k2 y, Assoc.find? m0.stops k2 = some y → (y = s ↔ k2 = k) ∧ (y = s' ↔ k2 = 1 - k) := by
    intro k2 y hk2
    refine ⟨⟨fun h => ?_, fun h => ?_⟩, ⟨fun h => ?_, fun h => ?_⟩⟩
    · exact key_unique m0 hc0 k2 k s (h ▸ hk2) hks
    · rw [h, hks] at hk2; exact (Option.some.inj hk2).symm
    · exact key_unique m0 hc0 k2 (1 - k) s' (h ▸ hk2) hks'
    · rw [h, hks'] at hk2; exact (Option.some.inj hk2).symm
  rw [hstep]
  exact {
    cons := swapStops_consistent st.1 s s' inv.valid inv.cons
    valid := pointersValid_preserved.swapStops st.1 s s' inv.valid
    owns := fun y => (swapStops_owns st.1 s s' y).trans (inv.owns y)
    pos_flipped := by
      intro k2 y hk2 hF
      show (st.1.swapStops s s').position y = 1 - k2
      rw [hpos y]
      have hk := hkey k2 y hk2
      by_cases hy' : y = s'
      · simp only [hy', if_true]
        rw [hk.2.1 hy', hkk]
      · by_cases hy : y = s
        · rw [if_neg hy', if_pos hy, hk.1.1 hy]
        · simp only [hy', hy, if_false]
          rcases hF with hF | hF | hF
          · exact inv.pos_flipped k2 y hk2 hF
          · exact absurd (hk.1.2 hF) hy
          · exact absurd (hk.2.2 hF) hy'
    pos_kept := by
      intro k2 y hk2 hF
      show (st.1.swapStops s s').position y = k2
      rw [hpos y]
      have hk := hkey k2 y hk2
      have hy' : ¬ y = s' := fun h => hF (Or.inr (Or.inr (hk.2.1 h)))
      have hy : ¬ y = s := fun h => hF (Or.inr (Or.inl (hk.1.1 h)))
      simp only [hy', hy, if_false]
      exact inv.pos_kept k2 y hk2 (fun h => hF (Or.inl h))
    colour := fun y => (swapStops_stopColor st.1 s s' y).trans (inv.colour y)
    sel := (swapStops_selection st.1 s s').1.trans inv.sel
    cur := (swapStops_selection st.1 s s').2.trans inv.cur
    processed := by
      intro e he
      rcases List.mem_append.1 he with h | h
      · exact Or.inl (inv.processed e h)
      · rw [List.mem_singleton.1 h]; exact Or.inr (Or.inl rfl)
    swapped_flipped := by
      intro k2 y hk2 h
      show F k2 ∨ k2 = k ∨ k2 = 1 - k
      have h' : Assoc.contains (Assoc.set st.2 s' true) y = true := h
      rw [Assoc.contains_set] at h'
      split_ifs at h' with hy
      · exact Or.inr (Or.inr ((hkey k2 y hk2).2.1 hy))
      · exact Or.inl (inv.swapped_flipped k2 y hk2 h')
    flipped_cases := by
      intro k2 y hk2 hF
      show (∃ e ∈ P ++ [(k, s)], e.1 = k2) ∨ Assoc.contains (Assoc.set st.2 s' true) y = true
      rw [Assoc.contains_set]
      rcases hF with hF | hF | hF
      · rcases inv.flipped_cases k2 y hk2 hF with ⟨e, he, hek⟩ | h
        · exact Or.inl ⟨e, List.mem_append_left _ he, hek⟩
        · right; split_ifs
          · rfl
          · exact h
      · exact Or.inl ⟨(k, s), List.mem_append_right _ (List.mem_singleton_self _), hF.symm⟩
      · right
        rw [if_pos ((hkey k2 y hk2).2.2 hF)]
    closed := by
      intro x hF hx
      show F (1 - x) ∨ 1 - x = k ∨ 1 - x = 1 - k
      rcases hF with hF | hF | hF
      · exact Or.inl (inv.closed x hF hx)
      · exact Or.inr (Or.inr (by rw [hF]))
      · exact Or.inr (Or.inl (by rw [hF, hkk])) }

theorem flipInv_step (m0 : Model) (hc0 : m0.Consistent)
    (hrange : ∀ k s, Assoc.find? m0.stops k = some s → 0 ≤ k ∧ k ≤ 1)
    (F : ℚ → Prop) (P : List (ℚ × StopPtr))
    (st : Model × List (StopPtr × Bool)) (inv : FlipInv m0 F P st) (k : ℚ) (s : StopPtr)
    (hks : Assoc.find? m0.stops k = some s) (hnew : ∀ e ∈ P, e.1 ≠ k) :
    ∃ F', FlipInv m0 F' (P ++ [(k, s)]) (Model.flipAllStepExact m0.stops st (k, s)) := by
  by_cases hsw : Assoc.contains st.2 s = true
  · exact ⟨F, flipInv_step_skip m0 F P st inv k s hks hsw⟩
  · have hsw' : Assoc.contains st.2 s = false := by simpa using hsw
    by_cases hpart : Assoc.contains m0.stops (1 - k) = true
    · obtain ⟨s', hs'⟩ := (Assoc.contains_iff _ _).1 hpart
      exact ⟨_, flipInv_step_swap m0 hc0 F P st inv k s s' hks hnew hsw' hs'⟩
    · exact ⟨_, flipInv_step_move m0 hc0 hrange F P st inv k s hks hnew hsw'
        (by simpa using hpart)⟩

theorem flipInv_foldl (m0 : Model) (hc0 : m0.Consistent)
    (hrange : ∀ k s, Assoc.find? m0.stops k = some s → 0 ≤ k ∧ k ≤ 1)
    (Q : List (ℚ × StopPtr)) :
    ∀ (F : ℚ → Prop) (P : List (ℚ × StopPtr)) (st : Model × List (StopPtr × Bool)),
      FlipInv m0 F P st → (∀ e ∈ Q, Assoc.find? m0.stops e.1 = some e.2) →
      (P ++ Q).Pairwise (fun a b => a.1 ≠ b.1) →
      ∃ F', FlipInv m0 F' (P ++ Q) (Q.foldl (Model.flipAllStepExact m0.stops) st) := by
  induction Q with
  | nil =>
    intro F P st inv _ _
    exact ⟨F, by simpa using inv⟩
  | cons e t ih =>
    intro F P st inv hQ hnd
    have hnew : ∀ x ∈ P, x.1 ≠ e.1 := by
      intro x hx
      exact (List.pairwise_append.1 hnd).2.2 x hx e (List.mem_cons_self _ _)
    obtain ⟨F1, inv1⟩ := flipInv_step m0 hc0 hrange F P st inv e.1 e.2
      (hQ e (List.mem_cons_self _ _)) hnew
    have hnd' : ((P ++ [(e.1, e.2)]) ++ t).Pairwise (fun a b => a.1 ≠ b.1) := by
      simpa using hnd
    obtain ⟨F2, inv2⟩ := ih F1 (P ++ [(e.1, e.2)]) _ inv1
      (fun x hx => hQ x (List.mem_cons_of_mem _ hx)) hnd'
    refine ⟨F2, ?_⟩
    have : P ++ e :: t = (P ++ [(e.1, e.2)]) ++ t := by simp
    rw [this]
    exact inv2

theorem Assoc.find?_of_mem_ordered {β : Type} (l : List (ℚ × β)) (k : ℚ) (v : β)
    (hord : Assoc.Ordered l) (h : (k, v) ∈ l) : Assoc.find? l k = some v := by
  induction l with
  | nil => simp at h
  | cons e t ih =>
    have hp := List.pairwise_cons.1 hord
    rcases List.mem_cons.1 h with h1 | h1
    · rw [← h1]; simp [Assoc.find?]
    · have hne : ¬ e.1 = k := ne_of_lt (hp.1 _ h1)
      simp only [Assoc.find?, hne, if_false]
      exact ih hp.2 h1

theorem Assoc.keys_ne_reverse {β : Type} (l : List (ℚ × β)) (hord : Assoc.Ordered l) :
    l.reverse.Pairwise (fun a b => a.1 ≠ b.1) := by
  rw [List.pairwise_reverse]
  exact List.Pairwise.imp (fun h => ne_of_gt h) hord

theorem roundHalfEven_of_lt (x : ℚ) (n : Int) (h1 : (n : ℚ) ≤ x) (h2 : x - n < 1 / 2) :
    roundHalfEven x = n := by
  have hf : Int.floor x = n := Int.floor_eq_iff.2 ⟨h1, by linarith⟩
  unfold roundHalfEven
  rw [hf, if_pos h2]

theorem roundHalfEven_of_gt (x : ℚ) (n : Int) (h1 : 1 / 2 < x - n) (h2 : x < n + 1) :
    roundHalfEven x = n + 1 := by
  have hf : Int.floor x = n := Int.floor_eq_iff.2 ⟨by linarith, h2⟩
  unfold roundHalfEven
  rw [hf, if_neg (not_lt.2 (le_of_lt h1)), if_pos h1]

theorem roundHalfEven_of_tie_odd (x : ℚ) (n : Int) (h1 : x - n = 1 / 2) (hodd : n % 2 = 1) :
    roundHalfEven x = n + 1 := by
  have hf : Int.floor x = n := Int.floor_eq_iff.2 ⟨by linarith, by linarith⟩
  unfold roundHalfEven
  rw [hf, if_neg (by rw [h1]; exact lt_irrefl _), if_neg (by rw [h1]; exact lt_irrefl _),
    if_neg (by omega)]

theorem ulpExponent_eq (x : ℚ) (e : Int) (hpos : 0 < x) (h1 : (2 : ℚ) ^ e ≤ x)
    (h2 : x < (2 : ℚ) ^ (e + 1)) (he : -1022 ≤ e) : ulpExponent x = e - 52 := by
  have hlog : Int.log 2 |x| = e := by
    rw [abs_of_pos hpos]
    apply le_antisymm
    · have := (Int.lt_zpow_iff_log_lt (b := 2) (by norm_num) hpos (x := e + 1)).1
        (by exact_mod_cast h2)
      omega
    · exact (Int.zpow_le_iff_le_log (b := 2) (by norm_num) hpos).1 (by exact_mod_cast h1)
  unfold ulpExponent
  rw [hlog, max_eq_left he]

theorem flipAllStep_eq_exact (stopsMap : List (ℚ × StopPtr))
    (st : Model × List (StopPtr × Bool)) (it : ℚ × StopPtr)
    (h : roundToDouble (1 - it.1) = 1 - it.1) :
    Model.flipAllStep stopsMap st it = Model.flipAllStepExact stopsMap st it := by
  unfold Model.flipAllStep Model.flipAllStepExact doubleSub
  rw [h]

theorem foldl_flipAllStep_eq_exact (stopsMap l : List (ℚ × StopPtr))
    (h : ∀ e ∈ l, roundToDouble (1 - e.1) = 1 - e.1) (st : Model × List (StopPtr × Bool)) :
    l.foldl (Model.flipAllStep stopsMap) st = l.foldl (Model.flipAllStepExact stopsMap) st := by
  induction l generalizing st with
  | nil => rfl
  | cons e t ih =>
    rw [List.foldl_cons, List.foldl_cons,
      flipAllStep_eq_exact stopsMap st e (h e (List.mem_cons_self _ _))]
    exact ih (fun x hx => h x (List.mem_cons_of_mem _ hx)) _

theorem flipAll_inv (m : Model) (hwf : m.WellFormed) (hc : m.Consistent)
    (hexact : ∀ e ∈ m.stops, roundToDouble (1 - e.1) = 1 - e.1) :
    ∃ F st, FlipInv m F m.stops.reverse st ∧ m.flipAll = st.1 := by
  have hfold : m.flipAll = (m.stops.reverse.foldl (Model.flipAllStepExact m.stops) (m, [])).1 := by
    unfold Model.flipAll
    rw [foldl_flipAllStep_eq_exact m.stops m.stops.reverse
      (fun e he => hexact e (List.mem_reverse.1 he))]
  rw [hfold]
  have hrange : ∀ k s, Assoc.find? m.stops k = some s → 0 ≤ k ∧ k ≤ 1 :=
    fun k s h => hwf.2.2.2.1 (k, s) (Assoc.mem_of_find? _ _ _ h)
  obtain ⟨F, inv⟩ := flipInv_foldl m hc hrange m.stops.reverse (fun _ => False) [] (m, [])
    (flipInv_init m hwf.2.1 hc)
    (fun e he => Assoc.find?_of_mem_ordered _ _ _ hwf.1 (List.mem_reverse.1 he))
    (by simpa using Assoc.keys_ne_reverse m.stops hwf.1)
  exact ⟨F, _, by simpa using inv, rfl⟩

/-- When `1.0 - key` is itself a double for every key of the position index (nothing is
rounded in `flipAll`), in a model with consistent indices, after `flipAll()` every owned
stop that was at position `p` is at `1 - p` (in the stop and in both indices), the owned
stops are the same, every stop keeps its colour, the selection and the current stop are
unchanged, and the indices are consistent again. -/
theorem flipAll_exact_mirrors_positions (m : Model) (hwf : m.WellFormed) (hc : m.Consistent)
    (hexact : ∀ e ∈ m.stops, roundToDouble (1 - e.1) = 1 - e.1) :
    (∀ s p, Assoc.find? m.d_ptr.m_stopToPos s = some p →
      m.flipAll.position s = 1 - p ∧
      Assoc.find? m.flipAll.d_ptr.m_stopToPos s = some (1 - p) ∧
      Assoc.find? m.flipAll.stops (1 - p) = some s) ∧
    (∀ s, m.flipAll.Owns s ↔ m.Owns s) ∧
    (∀ s, m.flipAll.stopColor s = m.stopColor s) ∧
    m.flipAll.d_ptr.m_selection = m.d_ptr.m_selection ∧
    m.flipAll.currentStop = m.currentStop ∧
    m.flipAll.Consistent := by
  obtain ⟨F, st, inv, hst⟩ := flipAll_inv m hwf hc hexact
  rw [hst]
  refine ⟨?_, inv.owns, inv.colour, inv.sel, inv.cur, inv.cons⟩
  intro s p hsp
  have hk : Assoc.find? m.stops p = some s := ((hc s p).1).2 hsp
  have hF : F p := inv.processed (p, s) (List.mem_reverse.2 (Assoc.mem_of_find? _ _ _ hk))
  have hpos := inv.pos_flipped p s hk hF
  have ho : st.1.Owns s := (inv.owns s).2 ((Assoc.contains_iff _ _).2 ⟨p, hsp⟩)
  have he := owned_index_entries st.1 inv.cons s ho
  rw [hpos] at he
  exact ⟨hpos, he.1, he.2⟩

theorem run_fifths_index :
    Assoc.find? (Model.empty.run [.addStop (1/5) QColor.black,
      .addStop (4/5) QColor.white]).d_ptr.m_stopToPos 1 = some (1/5) ∧
    Assoc.find? (Model.empty.run [.addStop (1/5) QColor.black,
      .addStop (4/5) QColor.white]).d_ptr.m_stopToPos 2 = some (4/5) := by
  norm_num [Model.run, Model.call, Model.addStop, Model.empty, Assoc.contains, Assoc.find?,
    Model.newStop, newAddress, Assoc.keys, Model.setPosition, Model.setColor, heapSetPosition,
    heapSetColor, Assoc.insertOrdered, Assoc.set, Model.emit, Model.observe]

/-! ## Colour after `flipAll` -/

theorem Assoc.split_at {β : Type} (l : List (ℚ × β)) (x : ℚ) (hord : Assoc.Ordered l)
    (hnot : ∀ e ∈ l, e.1 ≠ x) :
    ∃ l1 l2, l = l1 ++ l2 ∧ (∀ e ∈ l1, e.1 < x) ∧ (∀ e ∈ l2, x < e.1) := by
  induction l with
  | nil => exact ⟨[], [], rfl, by simp, by simp⟩
  | cons e t ih =>
    have hp := List.pairwise_cons.1 hord
    rcases lt_or_gt_of_ne (hnot e (List.mem_cons_self _ _)) with h | h
    · obtain ⟨l1, l2, hl, h1, h2⟩ := ih hp.2 (fun y hy => hnot y (List.mem_cons_of_mem _ hy))
      refine ⟨e :: l1, l2, by rw [hl]; rfl, ?_, h2⟩
      intro y hy
      rcases List.mem_cons.1 hy with h3 | h3
      · rw [h3]; exact h
      · exact h1 y h3
    · refine ⟨[], e :: t, rfl, by simp, ?_⟩
      intro y hy
      rcases List.mem_cons.1 hy with h3 | h3
      · rw [h3]; exact h
      · exact lt_trans h (hp.1 y h3)

theorem color_of_neighbours (m : Model) (pos lo hi : ℚ) (sLo sHi : StopPtr)
    (hord : Assoc.Ordered m.stops) (hnot : ∀ e ∈ m.stops, e.1 ≠ pos)
    (hlo : (lo, sLo) ∈ m.stops) (hhi : (hi, sHi) ∈ m.stops) (hlt : lo < pos) (hgt : pos < hi)
    (hgreatest : ∀ e ∈ m.stops, e.1 < pos → e.1 ≤ lo)
    (hleast : ∀ e ∈ m.stops, pos < e.1 → hi ≤ e.1) :
    m.color pos = QColor.fromRgbF
      (((m.stopColor sHi).redF - (m.stopColor sLo).redF) * ((pos - lo) / (hi - lo))
        + (m.stopColor sLo).redF)
      (((m.stopColor sHi).greenF - (m.stopColor sLo).greenF) * ((pos - lo) / (hi - lo))
        + (m.stopColor sLo).greenF)
      (((m.stopColor sHi).blueF - (m.stopColor sLo).blueF) * ((pos - lo) / (hi - lo))
        + (m.stopColor sLo).blueF)
      (((m.stopColor sHi).alphaF - (m.stopColor sLo).alphaF) * ((pos - lo) / (hi - lo))
        + (m.stopColor sLo).alphaF) := by
  obtain ⟨l1, l2, hl, hl1⟩ :=
    Assoc.adjacent_of_neighbours m.stops pos lo hi sLo sHi hord hnot hlo hhi hlt hgt hgreatest
      hleast
  exact color_between m pos lo hi sLo sHi l1 l2 hl hl1 hnot hlt hgt

theorem color_of_least (m : Model) (pos lo : ℚ) (sLo : StopPtr) (hord : Assoc.Ordered m.stops)
    (hlo : (lo, sLo) ∈ m.stops) (hleast : ∀ e ∈ m.stops, lo ≤ e.1) (hlt : pos < lo) :
    m.color pos = m.stopColor sLo := by
  obtain ⟨l2, hl⟩ := Assoc.head_of_least m.stops lo sLo hord hlo hleast
  exact color_below m pos lo sLo l2 hl
    (fun e he => ne_of_gt (lt_of_lt_of_le hlt (hleast e he))) hlt

theorem color_of_greatest (m : Model) (pos hi : ℚ) (sHi : StopPtr) (hord : Assoc.Ordered m.stops)
    (hhi : (hi, sHi) ∈ m.stops) (hgreatest : ∀ e ∈ m.stops, e.1 ≤ hi) (hgt : hi < pos) :
    m.color pos = m.stopColor sHi := by
  obtain ⟨l1, hl, hl1⟩ := Assoc.last_of_greatest m.stops hi sHi hord hhi hgreatest
  exact color_above m pos hi sHi l1 hl hl1
    (fun e he => ne_of_lt (lt_of_le_of_lt (hgreatest e he) hgt)) hgt

theorem flipAll_ordered (m : Model) (hord : Assoc.Ordered m.stops) :
    Assoc.Ordered m.flipAll.stops :=
  preserved_flipAll ordered_preserved m hord

/-- Without rounding, the entries of the position index after `flipAll` are the mirrored
entries before. -/
theorem flipAll_mem (m : Model) (hwf : m.WellFormed) (hc : m.Consistent)
    (hexact : ∀ e ∈ m.stops, roundToDouble (1 - e.1) = 1 - e.1) (k : ℚ) (s : StopPtr) :
    (k, s) ∈ m.flipAll.stops ↔ (1 - k, s) ∈ m.stops := by
  obtain ⟨F, st, inv, hst⟩ := flipAll_inv m hwf hc hexact
  have hord' := flipAll_ordered m hwf.1
  constructor
  · intro h
    have h1 := Assoc.find?_of_mem_ordered _ _ _ hord' h
    rw [hst] at h1
    have h2 := ((inv.cons s k).1).1 h1
    have ho : m.Owns s := (inv.owns s).1 ((Assoc.contains_iff _ _).2 ⟨k, h2⟩)
    obtain ⟨p, hp⟩ := owned_has_key m hc s ho
    have hF : F p := inv.processed (p, s) (List.mem_reverse.2 (Assoc.mem_of_find? _ _ _ hp))
    have hpos := inv.pos_flipped p s hp hF
    rw [(inv.cons s k).2 h2] at hpos
    have : 1 - k = p := by rw [hpos]; ring
    rw [this]
    exact Assoc.mem_of_find? _ _ _ hp
  · intro h
    have hp := Assoc.find?_of_mem_ordered _ _ _ hwf.1 h
    have hF : F (1 - k) := inv.processed (1 - k, s) (List.mem_reverse.2 h)
    have hpos := inv.pos_flipped (1 - k) s hp hF
    rw [sub_sub_cancel] at hpos
    have ho : st.1.Owns s := (inv.owns s).2 (key_owned m hc _ s hp)
    have he := (owned_index_entries st.1 inv.cons s ho).2
    rw [hpos] at he
    rw [hst]
    exact Assoc.mem_of_find? _ _ _ he

theorem color_of_key (m : Model) (pos : ℚ) (s : StopPtr)
    (h : Assoc.find? m.stops pos = some s) : m.color pos = m.stopColor s := by
  have hne : m.stops.isEmpty = false := by
    cases hl : m.stops with
    | nil => rw [hl] at h; simp [Assoc.find?] at h
    | cons e t => rfl
  have hcon : Assoc.contains m.stops pos = true := (Assoc.contains_iff _ _).2 ⟨s, h⟩
  unfold Model.color
  simp only [hne, hcon, if_true, Bool.false_eq_true, if_false, h, Option.getD_some]

theorem flipAll_color_eq (m : Model) (hwf : m.WellFormed) (hc : m.Consistent)
    (hexact : ∀ e ∈ m.stops, roundToDouble (1 - e.1) = 1 - e.1)
    (hne : m.stops ≠ []) (pos : ℚ) : m.flipAll.color pos = m.color (1 - pos) := by
  have hord : Assoc.Ordered m.stops := hwf.1
  have hord' := flipAll_ordered m hwf.1
  have hmem := flipAll_mem m hwf hc hexact
  have hcol : ∀ s, m.flipAll.stopColor s = m.stopColor s := by
    obtain ⟨F, st, inv, hst⟩ := flipAll_inv m hwf hc hexact
    rw [hst]; exact inv.colour
  have hmem' : ∀ k s, (k, s) ∈ m.stops → (1 - k, s) ∈ m.flipAll.stops := by
    intro k s h
    rw [hmem, sub_sub_cancel]; exact h
  by_cases hkey : Assoc.contains m.stops (1 - pos) = true
  · obtain ⟨s, hs⟩ := (Assoc.contains_iff _ _).1 hkey
    have h1 : (pos, s) ∈ m.flipAll.stops := (hmem pos s).2 (Assoc.mem_of_find? _ _ _ hs)
    rw [color_of_key m (1 - pos) s hs,
      color_of_key m.flipAll pos s (Assoc.find?_of_mem_ordered _ _ _ hord' h1), hcol]
  · have hnot : ∀ e ∈ m.stops, e.1 ≠ 1 - pos := by
      intro e he h
      apply hkey
      exact (Assoc.contains_iff _ _).2
        ⟨e.2, Assoc.find?_of_mem_ordered _ _ _ hord (by rw [← h]; exact he)⟩
    have hnot' : ∀ e ∈ m.flipAll.stops, e.1 ≠ pos := by
      intro e he h
      have := (hmem e.1 e.2).1 he
      exact hnot _ this (by simp [h])
    obtain ⟨l1, l2, hl, h1, h2⟩ := Assoc.split_at m.stops (1 - pos) hord hnot
    rcases List.eq_nil_or_concat l1 with hl1 | ⟨l1', a, hl1⟩
    · subst hl1
      cases l2 with
      | nil => exact absurd hl hne
      | cons b l2' =>
        obtain ⟨kb, sb⟩ := b
        have hlt : 1 - pos < kb := h2 _ (List.mem_cons_self _ _)
        rw [color_below m (1 - pos) kb sb l2' (by simpa using hl) hnot hlt]
        have hp := List.pairwise_cons.1 (by rw [hl] at hord; simpa using hord :
          Assoc.Ordered ((kb, sb) :: l2'))
        rw [color_of_greatest m.flipAll pos (1 - kb) sb hord'
          (hmem' kb sb (by rw [hl]; simp)) ?_ (by linarith), hcol]
        intro e he
        have he' := (hmem e.1 e.2).1 he
        rw [hl] at he'
        simp only [List.nil_append, List.mem_cons] at he'
        rcases he' with h3 | h3
        · have : 1 - e.1 = kb := congrArg Prod.fst h3
          linarith
        · have := hp.1 _ h3
          simp only at this
          linarith
    · rw [List.concat_eq_append] at hl1
      subst hl1
      obtain ⟨ka, sa⟩ := a
      have hgt : ka < 1 - pos := h1 (ka, sa) (by simp)
      have hordl := List.pairwise_append.1 (by rw [hl] at hord; exact hord :
        Assoc.Ordered ((l1' ++ [(ka, sa)]) ++ l2))
      have hordl1 := List.pairwise_append.1 hordl.1
      have hl1lt : ∀ e ∈ l1', e.1 < ka := fun e he =>
        hordl1.2.2 e he (ka, sa) (List.mem_singleton_self _)
      cases l2 with
      | nil =>
        rw [color_above m (1 - pos) ka sa l1' (by simpa using hl) hl1lt hnot hgt]
        rw [color_of_least m.flipAll pos (1 - ka) sa hord'
          (hmem' ka sa (by rw [hl]; simp)) ?_ (by linarith), hcol]
        intro e he
        have he' := (hmem e.1 e.2).1 he
        rw [hl] at he'
        simp only [List.append_nil, List.mem_append, List.mem_singleton] at he'
        rcases he' with h3 | h3
        · have := hl1lt _ h3
          simp only at this
          linarith
        · have : 1 - e.1 = ka := congrArg Prod.fst h3
          linarith
      | cons b l2' =>
        obtain ⟨kb, sb⟩ := b
        have hlt : 1 - pos < kb := h2 _ (List.mem_cons_self _ _)
        have hordl2 := List.pairwise_cons.1 hordl.2.1
        have hl' : m.stops = l1' ++ (ka, sa) :: (kb, sb) :: l2' := by rw [hl]; simp
        rw [color_between m (1 - pos) ka kb sa sb l1' l2' hl' hl1lt hnot hgt hlt]
        rw [color_of_neighbours m.flipAll pos (1 - kb) (1 - ka) sb sa hord' hnot'
          (hmem' kb sb (by rw [hl']; simp)) (hmem' ka sa (by rw [hl']; simp))
          (by linarith) (by linarith) ?_ ?_]
        · rw [hcol, hcol]
          have hd : kb - ka ≠ 0 := by
            have : ka < kb := lt_trans hgt hlt
            exact ne_of_gt (by linarith)
          have hd' : 1 - ka - (1 - kb) ≠ 0 := by
            have : 1 - ka - (1 - kb) = kb - ka := by ring
            rw [this]; exact hd
          simp only [QColor.fromRgbF, QColor.mk.injEq]
          refine ⟨?_, ?_, ?_, ?_⟩ <;> (field_simp; ring)
        · intro e he hlt'
          have he' := (hmem e.1 e.2).1 he
          rw [hl] at he'
          rcases List.mem_append.1 he' with h3 | h3
          · have := h1 _ h3
            simp only at this
            linarith
          · rcases List.mem_cons.1 h3 with h4 | h4
            · have : 1 - e.1 = kb := congrArg Prod.fst h4
              linarith
            · have := hordl2.1 _ h4
              simp only at this
              linarith
        · intro e he hgt'
          have he' := (hmem e.1 e.2).1 he
          rw [hl] at he'
          rcases List.mem_append.1 he' with h3 | h3
          · rcases List.mem_append.1 h3 with h4 | h4
            · have := hl1lt _ h4
              simp only at this
              linarith
            · have : 1 - e.1 = ka := congrArg Prod.fst (List.mem_singleton.1 h4)
              linarith
          · have := h2 _ h3
            simp only at this
            linarith

theorem run_fifths_facts :
    (Model.empty.run [.addStop (1/5) QColor.black, .addStop (4/5) QColor.white]).stops
      = [(1/5, 1), (4/5, 2)] ∧
    (Model.empty.run [.addStop (1/5) QColor.black, .addStop (4/5) QColor.white]).stopColor 1
      = QColor.black ∧
    (Model.empty.run [.addStop (1/5) QColor.black, .addStop (4/5) QColor.white]).stopColor 2
      = QColor.white := by
  norm_num [Model.run, Model.call, Model.addStop, Model.empty, Assoc.contains, Assoc.find?,
    Model.newStop, newAddress, Assoc.keys, Model.setPosition, Model.setColor, heapSetPosition,
    heapSetColor, Assoc.insertOrdered, Assoc.set, Model.emit, Model.observe, Model.stops,
    Model.stopColor, deref]

/-- When `1.0 - key` is itself a double for every key of the position index (nothing is
rounded in `flipAll`), with exact interpolation, in a model with consistent indices and at
least one stop, `color(pos)` evaluated after `flipAll()` equals `color(1 - pos)` evaluated
before it, for every `pos`. -/
theorem flipAll_exact_mirrors_color (m : Model) (hwf : m.WellFormed) (hc : m.Consistent)
    (hexact : ∀ e ∈ m.stops, roundToDouble (1 - e.1) = 1 - e.1)
    (hne : m.stops ≠ []) (pos : ℚ) : m.flipAll.color pos = m.color (1 - pos) :=
  flipAll_color_eq m hwf hc hexact hne pos

/-! ## `moveStops` -/

theorem moveStopsStep_eq (current : StopPtr) (newPos offset : ℚ) (stopList : List (ℚ × StopPtr))
    (m : Model) (it : ℚ × StopPtr) :
    Model.moveStopsStep current newPos offset stopList m it =
      (if m.at (Model.moveStopsTarget current newPos offset m it.2) ≠ 0 ∧
          m.at (Model.moveStopsTarget current newPos offset m it.2) ∉ Assoc.values stopList
        then m.removeStop (m.at (Model.moveStopsTarget current newPos offset m it.2))
        else m).moveStop it.2 (Model.moveStopsTarget current newPos offset m it.2) := rfl

theorem moveStops_eq (m : Model) (newPosition : ℚ) :
    m.moveStops newPosition =
      if m.currentStop = 0 then m
      else if moveStopsNewPos newPosition = m.position m.currentStop then m
      else if m.moveStopsOffset newPosition = 0 then m
      else (if m.moveStopsOffset newPosition > 0 then m.moveStopsList.reverse
          else m.moveStopsList).foldl
        (Model.moveStopsStep m.currentStop (moveStopsNewPos newPosition)
          (m.moveStopsOffset newPosition) m.moveStopsList) m := by
  unfold Model.moveStops
  by_cases h1 : m.currentStop = 0
  · simp only [h1, if_true]
  · simp only [h1, if_false]
    by_cases h2 : moveStopsNewPos newPosition = m.position m.currentStop
    · have h2' := h2
      unfold moveStopsNewPos at h2'
      simp only [h2, h2', if_true]
    · have h2' := h2
      unfold moveStopsNewPos at h2'
      simp only [h2, h2', if_false]
      by_cases h3 : m.moveStopsOffset newPosition = 0
      · have h3' := h3
        unfold Model.moveStopsOffset moveStopsNewPos at h3'
        simp only [h3, h3', if_true]
      · have h3' := h3
        unfold Model.moveStopsOffset moveStopsNewPos at h3'
        simp only [h3, h3', if_false]
        by_cases h4 : m.moveStopsOffset newPosition > 0
        · have h4' := h4
          unfold Model.moveStopsOffset moveStopsNewPos at h4'
          simp only [h4, h4', if_true, Bool.false_eq_true, if_false]
          rfl
        · have h4' := h4
          unfold Model.moveStopsOffset moveStopsNewPos at h4'
          simp only [h4, h4', if_false, if_true]
          rfl

theorem at_ne_zero (m : Model) (t : ℚ) (h : m.at t ≠ 0) :
    Assoc.find? m.d_ptr.m_posToStop t = some (m.at t) := by
  unfold Model.at at h ⊢
  by_cases hcon : Assoc.contains m.d_ptr.m_posToStop t = true
  · obtain ⟨x, hx⟩ := (Assoc.contains_iff _ _).1 hcon
    simp [hcon, hx]
  · simp [hcon] at h

theorem at_eq_of_find? (m : Model) (t : ℚ) (x : StopPtr)
    (h : Assoc.find? m.d_ptr.m_posToStop t = some x) : m.at t = x := by
  have hcon : Assoc.contains m.d_ptr.m_posToStop t = true := (Assoc.contains_iff _ _).2 ⟨x, h⟩
  simp [Model.at, hcon, h]

theorem removeStop_position (m : Model) (x y : StopPtr) (hy : y ≠ x) :
    (m.removeStop x).position y = m.position y := by
  rcases removeStop_cases m x with h | ⟨_, hh, _⟩
  · rw [h]
  · simp [Model.position, deref, hh, Assoc.find?_remove, hy]

theorem removeStop_stopColor (m : Model) (x y : StopPtr) (hy : y ≠ x) :
    (m.removeStop x).stopColor y = m.stopColor y := by
  rcases removeStop_cases m x with h | ⟨_, hh, _⟩
  · rw [h]
  · simp [Model.stopColor, deref, hh, Assoc.find?_remove, hy]

/-- The effect of one iteration of the loop of `moveStops` on a consistent model, for the
group stop `g` and its target `t`. -/
theorem groupStep_effect (μ : Model) (vals : List StopPtr) (g : StopPtr) (t : ℚ)
    (hc : μ.Consistent) (hv : μ.PointersValid) (hg : g ∈ vals) (hgo : μ.Owns g)
    (ht0 : 0 ≤ t) (ht1 : t ≤ 1) (hsel : ∀ s ∈ μ.selectedStops, s ∈ vals)
    (hcur : μ.currentStop = 0 ∨ μ.currentStop ∈ vals) :
    ((if μ.at t ≠ 0 ∧ μ.at t ∉ vals then μ.removeStop (μ.at t) else μ).moveStop g t).Consistent ∧
    ((if μ.at t ≠ 0 ∧ μ.at t ∉ vals then μ.removeStop (μ.at t) else μ).moveStop g t).PointersValid ∧
    (∀ y, ((if μ.at t ≠ 0 ∧ μ.at t ∉ vals then μ.removeStop (μ.at t) else μ).moveStop g t).Owns y ↔
      (μ.Owns y ∧ ¬ (y = μ.at t ∧ μ.at t ∉ vals))) ∧
    (∀ y, y ≠ g →
      ((if μ.at t ≠ 0 ∧ μ.at t ∉ vals then μ.removeStop (μ.at t) else μ).moveStop g t).Owns y →
      ((if μ.at t ≠ 0 ∧ μ.at t ∉ vals then μ.removeStop (μ.at t) else μ).moveStop g t).position y
        = μ.position y) ∧
    ((μ.at t = 0 ∨ μ.at t ∉ vals) →
      ((if μ.at t ≠ 0 ∧ μ.at t ∉ vals then μ.removeStop (μ.at t) else μ).moveStop g t).position g
        = t) ∧
    ((μ.at t ≠ 0 ∧ μ.at t ∈ vals) →
      (if μ.at t ≠ 0 ∧ μ.at t ∉ vals then μ.removeStop (μ.at t) else μ).moveStop g t = μ) ∧
    (∀ y, ((if μ.at t ≠ 0 ∧ μ.at t ∉ vals then μ.removeStop (μ.at t) else μ).moveStop g t).Owns y →
      ((if μ.at t ≠ 0 ∧ μ.at t ∉ vals then μ.removeStop (μ.at t) else μ).moveStop g t).stopColor y
        = μ.stopColor y) ∧
    ((if μ.at t ≠ 0 ∧ μ.at t ∉ vals then μ.removeStop (μ.at t) else μ).moveStop g t).d_ptr.m_selection
      = μ.d_ptr.m_selection ∧
    ((if μ.at t ≠ 0 ∧ μ.at t ∉ vals then μ.removeStop (μ.at t) else μ).moveStop g t).d_ptr.m_current
      = μ.d_ptr.m_current := by
  by_cases hx0 : μ.at t = 0
  · -- the target is free
    have hfree := at_eq_zero_not_contains μ hv hc t hx0
    have hif : (if μ.at t ≠ 0 ∧ μ.at t ∉ vals then μ.removeStop (μ.at t) else μ) = μ := by
      simp [hx0]
    rw [hif]
    refine ⟨moveStop_free_consistent μ g t hv hc hgo hfree ht0 ht1,
      pointersValid_preserved.moveStop μ g t hv, ?_, ?_, ?_, ?_, ?_,
      (moveStop_selection μ g t).1, (moveStop_selection μ g t).2⟩
    · intro y
      rw [moveStop_owns, hx0]
      constructor
      · intro h
        exact ⟨h, fun h2 => (hv y h).1 h2.1⟩
      · exact fun h => h.1
    · intro y hy _
      rw [moveStop_free_position μ g t hv hgo hfree ht0 ht1 y, if_neg hy]
    · intro _
      rw [moveStop_free_position μ g t hv hgo hfree ht0 ht1 g, if_pos rfl]
    · intro h; exact absurd hx0 h.1
    · intro y _; exact moveStop_stopColor μ g t y
  · have hfx := at_ne_zero μ t hx0
    have hxo : μ.Owns (μ.at t) := (Assoc.contains_iff _ _).2 ⟨t, ((hc _ t).1).1 hfx⟩
    have hxt : Assoc.find? μ.d_ptr.m_stopToPos (μ.at t) = some t := ((hc _ t).1).1 hfx
    by_cases hxg : μ.at t ∈ vals
    · -- the target is held by a stop of the group: nothing happens
      have hif : (if μ.at t ≠ 0 ∧ μ.at t ∉ vals then μ.removeStop (μ.at t) else μ) = μ := by
        simp [hxg]
      have hocc : Assoc.contains μ.d_ptr.m_posToStop t = true :=
        (Assoc.contains_iff _ _).2 ⟨_, hfx⟩
      rw [hif, moveStop_of_occupied μ g t hocc]
      refine ⟨hc, hv, ?_, fun _ _ _ => rfl, ?_, fun _ => rfl, fun _ _ => rfl, rfl, rfl⟩
      · intro y
        constructor
        · exact fun h => ⟨h, fun h2 => h2.2 hxg⟩
        · exact fun h => h.1
      · intro h
        rcases h with h | h
        · exact absurd h hx0
        · exact absurd hxg h
    · -- the target is held by a stop outside the group: it is removed, then `g` moves
      have hif : (if μ.at t ≠ 0 ∧ μ.at t ∉ vals then μ.removeStop (μ.at t) else μ)
          = μ.removeStop (μ.at t) := by
        simp [hx0, hxg]
      have hgx : g ≠ μ.at t := fun h => hxg (h ▸ hg)
      have hxo' : Assoc.contains μ.d_ptr.m_stopToPos (μ.at t) = true := hxo
      have hc1 := removeStop_consistent μ (μ.at t) hc
      have hv1 := removeStop_pointersValid μ (μ.at t) hv
      have hown1 : ∀ y, (μ.removeStop (μ.at t)).Owns y ↔ (μ.Owns y ∧ y ≠ μ.at t) := by
        intro y
        simp only [Model.Owns, removeStop_stopToPos μ _ hxo', Assoc.contains_remove]
        split_ifs with h
        · simp [h]
        · simp [h]
      have hgo1 : (μ.removeStop (μ.at t)).Owns g := (hown1 g).2 ⟨hgo, hgx⟩
      have hfree1 : Assoc.contains (μ.removeStop (μ.at t)).d_ptr.m_posToStop t = false := by
        rw [removeStop_posToStop μ _ hxo', hxt, Option.getD_some, Assoc.contains_remove]
        simp
      have hselx : Assoc.contains μ.d_ptr.m_selection (μ.at t) = false := by
        by_contra h
        have h' : Assoc.contains μ.d_ptr.m_selection (μ.at t) = true := by simpa using h
        exact hxg (hsel _ ((Assoc.mem_keys_iff_contains _ _).2 h'))
      have hcurx : μ.d_ptr.m_current ≠ μ.at t := by
        intro h
        rcases hcur with h0 | h1
        · exact hx0 (h ▸ h0)
        · exact hxg (h ▸ h1)
      rw [hif]
      refine ⟨moveStop_free_consistent _ g t hv1 hc1 hgo1 hfree1 ht0 ht1,
        pointersValid_preserved.moveStop _ g t hv1, ?_, ?_, ?_, ?_, ?_, ?_, ?_⟩
      · intro y
        rw [moveStop_owns, hown1]
        constructor
        · exact fun h => ⟨h.1, fun h2 => h.2 h2.1⟩
        · exact fun h => ⟨h.1, fun h2 => h.2 ⟨h2, hxg⟩⟩
      · intro y hy hyo
        rw [moveStop_owns, hown1] at hyo
        rw [moveStop_free_position _ g t hv1 hgo1 hfree1 ht0 ht1 y, if_neg hy,
          removeStop_position μ _ y hyo.2]
      · intro _
        rw [moveStop_free_position _ g t hv1 hgo1 hfree1 ht0 ht1 g, if_pos rfl]
      · intro h; exact absurd h.2 hxg
      · intro y hyo
        rw [moveStop_owns, hown1] at hyo
        rw [moveStop_stopColor, removeStop_stopColor μ _ y hyo.2]
      · rw [(moveStop_selection _ g t).1, removeStop_selection μ _ hxo',
          Assoc.remove_of_not_contains _ _ hselx]
      · rw [(moveStop_selection _ g t).2, removeStop_current μ _ hxo', if_neg hcurx]

/-! ### The local `stopList` of `moveStops` -/

theorem find?_foldl_insertOrdered (pos : StopPtr → ℚ) (L : List StopPtr) :
    ∀ (init : List (ℚ × StopPtr)) (p : ℚ) (g : StopPtr),
      (∀ s ∈ L, ∀ s' ∈ L, pos s = pos s' → s = s') →
      (Assoc.find? (L.foldl (fun sl stop => Assoc.insertOrdered sl (pos stop) stop) init) p = some g ↔
        (g ∈ L ∧ pos g = p) ∨ ((∀ s ∈ L, pos s ≠ p) ∧ Assoc.find? init p = some g)) := by
  induction L with
  | nil =>
    intro init p g _
    simp
  | cons a t ih =>
    intro init p g hinj
    have hinj' : ∀ s ∈ t, ∀ s' ∈ t, pos s = pos s' → s = s' :=
      fun s hs s' hs' h => hinj s (List.mem_cons_of_mem _ hs) s' (List.mem_cons_of_mem _ hs') h
    rw [List.foldl_cons, ih _ p g hinj', Assoc.find?_insertOrdered]
    constructor
    · rintro (⟨h1, h2⟩ | ⟨h1, h2⟩)
      · exact Or.inl ⟨List.mem_cons_of_mem _ h1, h2⟩
      · split_ifs at h2 with h3
        · left
          have : a = g := Option.some.inj h2
          subst this
          exact ⟨List.mem_cons_self _ _, h3.symm⟩
        · right
          refine ⟨?_, h2⟩
          intro s hs
          rcases List.mem_cons.1 hs with h4 | h4
          · rw [h4]; exact fun h5 => h3 h5.symm
          · exact h1 s h4
    · rintro (⟨h1, h2⟩ | ⟨h1, h2⟩)
      · rcases List.mem_cons.1 h1 with h3 | h3
        · by_cases h4 : ∃ s ∈ t, pos s = p
          · obtain ⟨s, hs, hsp⟩ := h4
            left
            have : s = g := hinj s (List.mem_cons_of_mem _ hs) g h1 (hsp.trans h2.symm)
            exact ⟨this ▸ hs, h2⟩
          · right
            refine ⟨fun s hs hsp => h4 ⟨s, hs, hsp⟩, ?_⟩
            rw [if_pos (by rw [← h2, h3]), h3]
        · exact Or.inl ⟨h3, h2⟩
      · right
        refine ⟨fun s hs => h1 s (List.mem_cons_of_mem _ hs), ?_⟩
        have : ¬ p = pos a := fun h => h1 a (List.mem_cons_self _ _) h.symm
        rw [if_neg this]; exact h2

theorem ordered_foldl_insertOrdered (pos : StopPtr → ℚ) (L : List StopPtr) :
    ∀ init : List (ℚ × StopPtr), Assoc.Ordered init →
      Assoc.Ordered (L.foldl (fun sl stop => Assoc.insertOrdered sl (pos stop) stop) init) := by
  induction L with
  | nil => intro init h; exact h
  | cons a t ih =>
    intro init h
    exact ih _ (Assoc.ordered_insertOrdered _ _ _ h)

theorem moveStopsList_ordered (m : Model) : Assoc.Ordered m.moveStopsList :=
  Assoc.ordered_insertOrdered _ _ _ (ordered_foldl_insertOrdered _ _ [] List.Pairwise.nil)

theorem inGroup_owns (m : Model) (hs : m.SelectionOwned) (hcur : m.currentStop ≠ 0) (g : StopPtr)
    (hg : m.InGroup g) : m.Owns g := by
  rcases hg with h | h
  · exact hs.1 g h
  · rcases hs.2 with h0 | ho
    · exact absurd h0 hcur
    · rw [h]; exact ho

theorem moveStopsList_find? (m : Model) (hs : m.SelectionOwned) (hc : m.Consistent)
    (hcur : m.currentStop ≠ 0) (p : ℚ) (g : StopPtr) :
    Assoc.find? m.moveStopsList p = some g ↔ (m.InGroup g ∧ m.position g = p) := by
  have hinj : ∀ s ∈ m.selectedStops, ∀ s' ∈ m.selectedStops,
      m.position s = m.position s' → s = s' := by
    intro s hs1 s' hs2 h
    by_contra hne
    exact position_ne_of_ne m hc s s' (hs.1 s hs1) (hs.1 s' hs2) hne h
  have hco : m.Owns m.currentStop := inGroup_owns m hs hcur _ (Or.inr rfl)
  unfold Model.moveStopsList
  rw [Assoc.find?_insertOrdered]
  by_cases hp : p = m.position m.currentStop
  · rw [if_pos hp]
    constructor
    · intro h
      have : m.currentStop = g := Option.some.inj h
      rw [← this]
      exact ⟨Or.inr rfl, hp.symm⟩
    · rintro ⟨hg, hgp⟩
      have : g = m.currentStop := by
        by_contra hne
        exact position_ne_of_ne m hc g _ (inGroup_owns m hs hcur g hg) hco hne (hgp.trans hp)
      rw [this]
  · rw [if_neg hp, find?_foldl_insertOrdered m.position m.selectedStops [] p g hinj]
    constructor
    · rintro (⟨h1, h2⟩ | ⟨_, h2⟩)
      · exact ⟨Or.inl h1, h2⟩
      · simp [Assoc.find?] at h2
    · rintro ⟨hg, hgp⟩
      rcases hg with h | h
      · exact Or.inl ⟨h, hgp⟩
      · exact absurd (by rw [← hgp, h]) hp

theorem moveStopsList_mem (m : Model) (hs : m.SelectionOwned) (hc : m.Consistent)
    (hcur : m.currentStop ≠ 0) (p : ℚ) (g : StopPtr) :
    (p, g) ∈ m.moveStopsList ↔ (m.InGroup g ∧ m.position g = p) := by
  rw [← moveStopsList_find? m hs hc hcur]
  exact ⟨Assoc.find?_of_mem_ordered _ _ _ (moveStopsList_ordered m), Assoc.mem_of_find? _ _ _⟩

theorem moveStopsList_values (m : Model) (hs : m.SelectionOwned) (hc : m.Consistent)
    (hcur : m.currentStop ≠ 0) (g : StopPtr) :
    g ∈ Assoc.values m.moveStopsList ↔ m.InGroup g := by
  constructor
  · intro h
    obtain ⟨e, he, heg⟩ := List.mem_map.1 h
    have := (moveStopsList_mem m hs hc hcur e.1 e.2).1 he
    rw [← heg]; exact this.1
  · intro h
    exact List.mem_map.2 ⟨(m.position g, g), (moveStopsList_mem m hs hc hcur _ g).2 ⟨h, rfl⟩, rfl⟩

theorem moveStopsTarget_congr (current : StopPtr) (newPos offset : ℚ) (μ m : Model) (g : StopPtr)
    (h : μ.position g = m.position g) :
    Model.moveStopsTarget current newPos offset μ g
      = Model.moveStopsTarget current newPos offset m g := by
  unfold Model.moveStopsTarget
  rw [h]

theorem moveStopsTarget_mem (current : StopPtr) (newPos offset : ℚ) (m : Model) (g : StopPtr)
    (h0 : 0 ≤ newPos) (h1 : newPos ≤ 1) :
    0 ≤ Model.moveStopsTarget current newPos offset m g ∧
      Model.moveStopsTarget current newPos offset m g ≤ 1 := by
  unfold Model.moveStopsTarget
  split_ifs <;> constructor <;> linarith

theorem groupInv_step (m : Model) (stopList : List (ℚ × StopPtr)) (current : StopPtr)
    (newPos offset : ℚ) (h0 : 0 ≤ newPos) (h1 : newPos ≤ 1)
    (hselv : ∀ s ∈ m.selectedStops, s ∈ Assoc.values stopList)
    (hcurv : m.currentStop = 0 ∨ m.currentStop ∈ Assoc.values stopList)
    (μ : Model) (e : ℚ × StopPtr) (Q : List (ℚ × StopPtr))
    (inv : GroupInv m (Assoc.values stopList) (Model.moveStopsTarget current newPos offset m) μ
      (e :: Q))
    (he : e.2 ∈ Assoc.values stopList) (hQ : ∀ e' ∈ Q, e'.2 ∈ Assoc.values stopList)
    (hnd : ∀ e' ∈ Q, e'.2 ≠ e.2) :
    GroupInv m (Assoc.values stopList) (Model.moveStopsTarget current newPos offset m)
      (Model.moveStopsStep current newPos offset stopList μ e) Q ∧
    (∀ y, y ≠ e.2 → (Model.moveStopsStep current newPos offset stopList μ e).Owns y →
      (Model.moveStopsStep current newPos offset stopList μ e).position y = μ.position y) ∧
    ((μ.at (Model.moveStopsTarget current newPos offset m e.2) = 0 ∨
        μ.at (Model.moveStopsTarget current newPos offset m e.2) ∉ Assoc.values stopList) →
      (Model.moveStopsStep current newPos offset stopList μ e).position e.2
        = Model.moveStopsTarget current newPos offset m e.2) := by
  have hpe : μ.position e.2 = m.position e.2 := inv.pending e (List.mem_cons_self _ _)
  have ht := moveStopsTarget_congr current newPos offset μ m e.2 hpe
  have hr := moveStopsTarget_mem current newPos offset m e.2 h0 h1
  have hselμ : ∀ s ∈ μ.selectedStops, s ∈ Assoc.values stopList := by
    intro s hs
    apply hselv
    simpa [Model.selectedStops, inv.sel] using hs
  have hcurμ : μ.currentStop = 0 ∨ μ.currentStop ∈ Assoc.values stopList := by
    simpa [Model.currentStop, inv.cur] using hcurv
  rw [moveStopsStep_eq, ht]
  obtain ⟨k1, k2, k3, k4, k5, _, k7, k8, k9⟩ :=
    groupStep_effect μ (Assoc.values stopList) e.2
      (Model.moveStopsTarget current newPos offset m e.2) inv.cons inv.valid he
      (inv.owns _ he) hr.1 hr.2 hselμ hcurμ
  refine ⟨?_, k4, k5⟩
  exact {
    cons := k1
    valid := k2
    sel := k8.trans inv.sel
    cur := k9.trans inv.cur
    owns := by
      intro g hg
      rw [k3]
      exact ⟨inv.owns g hg, fun h => h.2 (h.1 ▸ hg)⟩
    pending := by
      intro e' he'
      have hne : e'.2 ≠ e.2 := hnd e' he'
      have hv : e'.2 ∈ Assoc.values stopList := hQ e' he'
      have hown := (k3 e'.2).2 ⟨inv.owns _ hv, fun h => h.2 (h.1 ▸ hv)⟩
      rw [k4 e'.2 hne hown]
      exact inv.pending e' (List.mem_cons_of_mem _ he')
    frame := by
      intro y hy hyv
      rcases inv.frame y hy hyv with ⟨ho, hp, hcl⟩ | ⟨hno, hg⟩
      · by_cases hrem : y = μ.at (Model.moveStopsTarget current newPos offset m e.2)
        · right
          refine ⟨fun h => ((k3 y).1 h).2 ⟨hrem, hrem ▸ hyv⟩, e.2, he, ?_⟩
          have hy0 : μ.at (Model.moveStopsTarget current newPos offset m e.2) ≠ 0 :=
            hrem ▸ (inv.valid y ho).1
          have hf := at_ne_zero μ _ hy0
          rw [← hrem] at hf
          rw [← hp]
          exact (inv.cons y _).2 (((inv.cons y _).1).1 hf)
        · left
          have hown := (k3 y).2 ⟨ho, fun h => hrem h.1⟩
          have hne : y ≠ e.2 := fun h => hyv (h ▸ he)
          exact ⟨hown, (k4 y hne hown).trans hp, (k7 y hown).trans hcl⟩
      · right
        exact ⟨fun h => hno ((k3 y).1 h).1, hg⟩ }

theorem groupInv_foldl_targets (m : Model) (stopList : List (ℚ × StopPtr)) (current : StopPtr)
    (newPos offset : ℚ) (h0 : 0 ≤ newPos) (h1 : newPos ≤ 1)
    (hselv : ∀ s ∈ m.selectedStops, s ∈ Assoc.values stopList)
    (hcurv : m.currentStop = 0 ∨ m.currentStop ∈ Assoc.values stopList)
    (hT1 : ∀ x ∈ Assoc.values stopList, ∀ y ∈ Assoc.values stopList, x ≠ y →
      Model.moveStopsTarget current newPos offset m x
        ≠ Model.moveStopsTarget current newPos offset m y) :
    ∀ (Q P : List (ℚ × StopPtr)) (μ : Model),
      GroupInv m (Assoc.values stopList) (Model.moveStopsTarget current newPos offset m) μ Q →
      (∀ e ∈ P ++ Q, e.2 ∈ Assoc.values stopList) →
      (∀ x ∈ Assoc.values stopList, ∃ e ∈ P ++ Q, e.2 = x) →
      (P ++ Q).Pairwise (fun a b => a.2 ≠ b.2 ∧
        m.position b.2 ≠ Model.moveStopsTarget current newPos offset m a.2) →
      (∀ e ∈ P ++ Q, m.position e.2 ≠ Model.moveStopsTarget current newPos offset m e.2) →
      (∀ e ∈ P, μ.position e.2 = Model.moveStopsTarget current newPos offset m e.2) →
      GroupInv m (Assoc.values stopList) (Model.moveStopsTarget current newPos offset m)
        (Q.foldl (Model.moveStopsStep current newPos offset stopList) μ) [] ∧
      ∀ e ∈ P ++ Q, (Q.foldl (Model.moveStopsStep current newPos offset stopList) μ).position e.2
        = Model.moveStopsTarget current newPos offset m e.2 := by
  intro Q
  induction Q with
  | nil =>
    intro P μ inv _ _ _ _ hK
    exact ⟨inv, by simpa using hK⟩
  | cons e Q ih =>
    intro P μ inv hv hall hpw hself hK
    rw [List.foldl_cons]
    have hQv : ∀ e' ∈ Q, e'.2 ∈ Assoc.values stopList :=
      fun e' he' => hv e' (List.mem_append_right _ (List.mem_cons_of_mem _ he'))
    have hev : e.2 ∈ Assoc.values stopList :=
      hv e (List.mem_append_right _ (List.mem_cons_self _ _))
    rw [List.pairwise_append] at hpw
    obtain ⟨hpP, hpQ, hpPQ⟩ := hpw
    rw [List.pairwise_cons] at hpQ
    obtain ⟨s1, s2, s3⟩ := groupInv_step m stopList current newPos offset h0 h1 hselv hcurv μ e Q
      inv hev hQv (fun e' he' => Ne.symm (hpQ.1 e' he').1)
    have hPQ : P ++ e :: Q = (P ++ [e]) ++ Q := by simp
    have hnc : μ.at (Model.moveStopsTarget current newPos offset m e.2) = 0 ∨
        μ.at (Model.moveStopsTarget current newPos offset m e.2) ∉ Assoc.values stopList := by
      by_contra hcon
      push_neg at hcon
      obtain ⟨hx0, hxv⟩ := hcon
      have hf := at_ne_zero μ _ hx0
      have hpx : μ.position (μ.at (Model.moveStopsTarget current newPos offset m e.2))
          = Model.moveStopsTarget current newPos offset m e.2 :=
        (inv.cons _ _).2 (((inv.cons _ _).1).1 hf)
      obtain ⟨ex, hex, hexx⟩ := hall _ hxv
      rw [← hexx] at hpx
      rcases List.mem_append.1 hex with hin | hin
      · have := hK ex hin
        rw [hpx] at this
        by_cases hne : e.2 = ex.2
        · exact (hpPQ ex hin e (List.mem_cons_self _ _)).1 hne.symm
        · exact hT1 e.2 hev ex.2 (hv ex hex) hne this
      · rcases List.mem_cons.1 hin with rfl | hin
        · rw [inv.pending _ (List.mem_cons_self _ _)] at hpx
          exact hself _ hex hpx
        · rw [inv.pending _ (List.mem_cons_of_mem _ hin)] at hpx
          exact (hpQ.1 ex hin).2 hpx
    have hKnew : ∀ e' ∈ P ++ [e], (Model.moveStopsStep current newPos offset stopList μ e).position
        e'.2 = Model.moveStopsTarget current newPos offset m e'.2 := by
      intro e' he'
      rcases List.mem_append.1 he' with hin | hin
      · have hne : e'.2 ≠ e.2 := (hpPQ e' hin e (List.mem_cons_self _ _)).1
        rw [s2 e'.2 hne (s1.owns _ (hv e' (List.mem_append_left _ hin)))]
        exact hK e' hin
      · rw [List.mem_singleton] at hin
        rw [hin]
        exact s3 hnc
    have := ih (P ++ [e]) _ s1 (hPQ ▸ hv) (hPQ ▸ hall)
      (by rw [← hPQ, List.pairwise_append]; exact ⟨hpP, List.pairwise_cons.2 hpQ, hpPQ⟩)
      (hPQ ▸ hself) hKnew
    rw [hPQ]
    exact this

theorem moveStopsNewPos_eq (newPosition : ℚ) : moveStopsNewPos newPosition = clamp01 newPosition := by
  unfold moveStopsNewPos clamp01
  split_ifs with h1 h2
  · rw [min_eq_left (le_of_lt h1), max_eq_right zero_le_one]
  · rw [min_eq_right (by linarith), max_eq_left (le_of_lt h2)]
  · rw [min_eq_right (by linarith), max_eq_right (by linarith)]

theorem Assoc.mem_keys_iff {κ β : Type} [DecidableEq κ] (l : List (κ × β)) (k : κ) :
    k ∈ Assoc.keys l ↔ Assoc.contains l k = true := by
  rw [Assoc.contains_iff]
  induction l with
  | nil => simp [Assoc.keys, Assoc.find?]
  | cons e t ih =>
    simp only [Assoc.keys, List.map_cons, List.mem_cons, Assoc.find?] at ih ⊢
    by_cases h : e.1 = k
    · simp [h]
    · rw [if_neg h, ← ih]
      constructor
      · rintro (h1 | h1)
        · exact absurd h1.symm h
        · exact h1
      · exact Or.inr

theorem isSelected_iff (m : Model) (s : StopPtr) : m.isSelected s = true ↔ s ∈ m.selectedStops := by
  unfold Model.isSelected Model.selectedStops
  rw [Assoc.mem_keys_iff]
  by_cases h : Assoc.contains m.d_ptr.m_selection s = true
  · simp [h]
  · simp [h]

theorem scanSelected_spec (m : Model) (R : ℚ → ℚ → Prop) (l : List (ℚ × StopPtr))
    (hp : l.Pairwise (fun a b => R a.1 b.1)) (hex : ∃ e ∈ l, m.isSelected e.2 = true) :
    ∃ e ∈ l, e.2 = m.scanSelected l ∧ m.isSelected e.2 = true ∧
      ∀ e' ∈ l, m.isSelected e'.2 = true → e' = e ∨ R e.1 e'.1 := by
  induction l with
  | nil => simp at hex
  | cons a t ih =>
    rw [List.pairwise_cons] at hp
    by_cases ha : m.isSelected a.2 = true
    · refine ⟨a, List.mem_cons_self _ _, by simp [Model.scanSelected, ha], ha, ?_⟩
      intro e' he' _
      rcases List.mem_cons.1 he' with h | h
      · exact Or.inl h
      · exact Or.inr (hp.1 e' h)
    · obtain ⟨e0, he0, hs0⟩ := hex
      have he0t : e0 ∈ t := by
        rcases List.mem_cons.1 he0 with h | h
        · rw [h] at hs0; exact absurd hs0 ha
        · exact h
      obtain ⟨e, he, h1, h2, h3⟩ := ih hp.2 ⟨e0, he0t, hs0⟩
      refine ⟨e, List.mem_cons_of_mem _ he, by simp [Model.scanSelected, ha, h1], h2, ?_⟩
      intro e' he' hs'
      rcases List.mem_cons.1 he' with h | h
      · rw [h] at hs'; exact absurd hs' ha
      · exact h3 e' h hs'

theorem scanSelected_none (m : Model) (l : List (ℚ × StopPtr))
    (h : ∀ e ∈ l, m.isSelected e.2 ≠ true) : m.scanSelected l = 0 := by
  induction l with
  | nil => rfl
  | cons a t ih =>
    simp only [Model.scanSelected]
    rw [if_neg (h a (List.mem_cons_self _ _))]
    exact ih (fun e he => h e (List.mem_cons_of_mem _ he))

theorem position_mem (m : Model) (hwf : m.WellFormed) (hc : m.Consistent) (s : StopPtr)
    (ho : m.Owns s) : 0 ≤ m.position s ∧ m.position s ≤ 1 :=
  hwf.2.2.2.1 _ (Assoc.mem_of_find? _ _ _ (owned_index_entries m hc s ho).2)

theorem selected_bounds (m : Model) (hwf : m.WellFormed) (hc : m.Consistent) (s : StopPtr)
    (hsel : s ∈ m.selectedStops) :
    m.firstSelected ≠ 0 ∧ m.lastSelected ≠ 0 ∧
    m.position m.firstSelected ≤ m.position s ∧ m.position s ≤ m.position m.lastSelected ∧
    m.firstSelected ∈ m.selectedStops ∧ m.lastSelected ∈ m.selectedStops := by
  have hord : Assoc.Ordered m.stops := hwf.1
  have hmem : (m.position s, s) ∈ m.stops :=
    Assoc.mem_of_find? _ _ _ (owned_index_entries m hc s (hwf.2.2.1.1 s hsel)).2
  have hkey : ∀ e ∈ m.stops, e.2 ≠ 0 ∧ m.position e.2 = e.1 := by
    intro e he
    have hf : Assoc.find? m.stops e.1 = some e.2 := Assoc.find?_of_mem_ordered _ _ _ hord he
    exact ⟨(hwf.2.1 _ (key_owned m hc _ _ hf)).1, (hc _ _).2 (((hc _ _).1).1 hf)⟩
  obtain ⟨f, hf, hf1, hf2, hf3⟩ := scanSelected_spec m (fun a b => a < b) m.stops hord
    ⟨_, hmem, (isSelected_iff m s).2 hsel⟩
  have hrev : m.stops.reverse.Pairwise (fun a b => a.1 > b.1) := by
    rw [List.pairwise_reverse]
    exact hord
  obtain ⟨g, hg, hg1, hg2, hg3⟩ := scanSelected_spec m (fun a b => a > b) m.stops.reverse hrev
    ⟨_, List.mem_reverse.2 hmem, (isSelected_iff m s).2 hsel⟩
  have hg' := List.mem_reverse.1 hg
  refine ⟨?_, ?_, ?_, ?_, ?_, ?_⟩
  rotate_right 2
  · unfold Model.firstSelected; rw [← hf1]; exact (isSelected_iff m _).1 hf2
  · unfold Model.lastSelected; rw [← hg1]; exact (isSelected_iff m _).1 hg2
  · unfold Model.firstSelected; rw [← hf1]; exact (hkey f hf).1
  · unfold Model.lastSelected; rw [← hg1]; exact (hkey g hg').1
  · unfold Model.firstSelected
    rw [← hf1, (hkey f hf).2]
    rcases hf3 _ hmem ((isSelected_iff m s).2 hsel) with h | h
    · rw [← h]
    · exact le_of_lt h
  · unfold Model.lastSelected
    rw [← hg1, (hkey g hg').2]
    rcases hg3 _ (List.mem_reverse.2 hmem) ((isSelected_iff m s).2 hsel) with h | h
    · rw [← h]
    · exact le_of_lt h

theorem firstSelected_of_empty (m : Model) (h : m.selectedStops = []) :
    m.firstSelected = 0 ∧ m.lastSelected = 0 := by
  have hn : ∀ e : ℚ × StopPtr, m.isSelected e.2 ≠ true := by
    intro e he
    have := (isSelected_iff m e.2).1 he
    rw [h] at this
    simp at this
  exact ⟨scanSelected_none m _ (fun e _ => hn e), scanSelected_none m _ (fun e _ => hn e)⟩

theorem selected_range (m : Model) (hwf : m.WellFormed) (hc : m.Consistent) (s : StopPtr)
    (hsel : s ∈ m.selectedStops) :
    0 ≤ m.position m.firstSelected ∧ m.position m.lastSelected ≤ 1 := by
  obtain ⟨_, _, _, _, h5, h6⟩ := selected_bounds m hwf hc s hsel
  exact ⟨(position_mem m hwf hc _ (hwf.2.2.1.1 _ h5)).1, (position_mem m hwf hc _ (hwf.2.2.1.1 _ h6)).2⟩

theorem moveStopsOffset_eq (m : Model) (hwf : m.WellFormed) (hc : m.Consistent) (newPosition : ℚ) :
    m.moveStopsOffset newPosition = m.groupOffset newPosition := by
  unfold Model.moveStopsOffset Model.groupOffset
  rw [moveStopsNewPos_eq]
  by_cases hsel : m.selectedStops = []
  · have h := firstSelected_of_empty m hsel
    rw [if_pos hsel, if_neg (fun hh => hh.1 h.1)]
  · obtain ⟨s, hs⟩ := List.exists_mem_of_ne_nil _ hsel
    obtain ⟨h1, h2, _, _, _, _⟩ := selected_bounds m hwf hc s hs
    obtain ⟨r1, r2⟩ := selected_range m hwf hc s hs
    rw [if_neg hsel, if_pos ⟨h1, h2⟩]
    split_ifs with c1 c2
    · rw [min_eq_left (le_of_lt c1), max_eq_right (by linarith)]
    · rw [min_eq_right (by linarith), max_eq_left (le_of_lt c2)]
    · rw [min_eq_right (by linarith), max_eq_right (by linarith)]

theorem moveStopsOffset_bounds (m : Model) (hwf : m.WellFormed) (hc : m.Consistent)
    (newPosition : ℚ) (s : StopPtr) (hsel : s ∈ m.selectedStops) :
    - m.position m.firstSelected ≤ m.moveStopsOffset newPosition ∧
      m.moveStopsOffset newPosition ≤ 1 - m.position m.lastSelected := by
  obtain ⟨h1, h2, _, _, _, _⟩ := selected_bounds m hwf hc s hsel
  obtain ⟨r1, r2⟩ := selected_range m hwf hc s hsel
  unfold Model.moveStopsOffset
  rw [if_pos ⟨h1, h2⟩]
  split_ifs with c1 c2 <;> constructor <;> linarith

theorem moveStopsOffset_sign (m : Model) (hwf : m.WellFormed) (hc : m.Consistent)
    (newPosition : ℚ) :
    (m.moveStopsOffset newPosition < 0 →
      moveStopsNewPos newPosition - m.position m.currentStop ≤ m.moveStopsOffset newPosition) ∧
    (0 < m.moveStopsOffset newPosition →
      m.moveStopsOffset newPosition ≤ moveStopsNewPos newPosition - m.position m.currentStop) := by
  by_cases hsel : m.selectedStops = []
  · have h := firstSelected_of_empty m hsel
    unfold Model.moveStopsOffset
    rw [if_neg (fun hh => hh.1 h.1)]
    exact ⟨fun _ => le_refl _, fun _ => le_refl _⟩
  · obtain ⟨s, hs⟩ := List.exists_mem_of_ne_nil _ hsel
    obtain ⟨h1, h2, _, _, _, _⟩ := selected_bounds m hwf hc s hs
    obtain ⟨r1, r2⟩ := selected_range m hwf hc s hs
    unfold Model.moveStopsOffset
    rw [if_pos ⟨h1, h2⟩]
    split_ifs with c1 c2 <;> constructor <;> intro h <;> linarith

theorem moveStopsTarget_selected (m : Model) (hwf : m.WellFormed) (hc : m.Consistent)
    (newPosition : ℚ) (s : StopPtr) (hsel : s ∈ m.selectedStops) (hne : s ≠ m.currentStop) :
    Model.moveStopsTarget m.currentStop (moveStopsNewPos newPosition)
      (m.moveStopsOffset newPosition) m s = m.position s + m.moveStopsOffset newPosition := by
  obtain ⟨_, _, b1, b2, _, _⟩ := selected_bounds m hwf hc s hsel
  obtain ⟨o1, o2⟩ := moveStopsOffset_bounds m hwf hc newPosition s hsel
  unfold Model.moveStopsTarget
  rw [if_neg (Ne.symm hne)]
  split_ifs <;> linarith

theorem moveStopsTarget_current (m : Model) (newPos offset : ℚ) :
    Model.moveStopsTarget m.currentStop newPos offset m m.currentStop = newPos := by
  unfold Model.moveStopsTarget
  rw [if_pos rfl]

theorem moveStopsTarget_lt (m : Model) (hwf : m.WellFormed) (hc : m.Consistent)
    (newPosition : ℚ) (g : StopPtr) (hg : m.InGroup g) (hoff : m.moveStopsOffset newPosition < 0) :
    Model.moveStopsTarget m.currentStop (moveStopsNewPos newPosition)
      (m.moveStopsOffset newPosition) m g < m.position g := by
  by_cases hgc : g = m.currentStop
  · rw [hgc, moveStopsTarget_current]
    have := (moveStopsOffset_sign m hwf hc newPosition).1 hoff
    linarith
  · rcases hg with hg | hg
    · rw [moveStopsTarget_selected m hwf hc newPosition g hg hgc]
      linarith
    · exact absurd hg hgc

theorem moveStopsTarget_gt (m : Model) (hwf : m.WellFormed) (hc : m.Consistent)
    (newPosition : ℚ) (g : StopPtr) (hg : m.InGroup g) (hoff : 0 < m.moveStopsOffset newPosition) :
    m.position g < Model.moveStopsTarget m.currentStop (moveStopsNewPos newPosition)
      (m.moveStopsOffset newPosition) m g := by
  by_cases hgc : g = m.currentStop
  · rw [hgc, moveStopsTarget_current]
    have := (moveStopsOffset_sign m hwf hc newPosition).2 hoff
    linarith
  · rcases hg with hg | hg
    · rw [moveStopsTarget_selected m hwf hc newPosition g hg hgc]
      linarith
    · exact absurd hg hgc

theorem groupInv_init (m : Model) (hwf : m.WellFormed) (hc : m.Consistent)
    (hcur : m.currentStop ≠ 0) (T : StopPtr → ℚ) (Q : List (ℚ × StopPtr)) :
    GroupInv m (Assoc.values m.moveStopsList) T m Q where
  cons := hc
  valid := hwf.2.1
  sel := rfl
  cur := rfl
  owns := fun g hg =>
    inGroup_owns m hwf.2.2.1 hcur g ((moveStopsList_values m hwf.2.2.1 hc hcur g).1 hg)
  pending := fun _ _ => rfl
  frame := fun _ hy _ => Or.inl ⟨hy, rfl, rfl⟩

theorem moveStopsList_entries (m : Model) (hs : m.SelectionOwned) (hc : m.Consistent)
    (hcur : m.currentStop ≠ 0) (e : ℚ × StopPtr) (he : e ∈ m.moveStopsList) :
    m.InGroup e.2 ∧ m.position e.2 = e.1 :=
  (moveStopsList_mem m hs hc hcur e.1 e.2).1 he

theorem moveStopsList_pairwise (m : Model) (hs : m.SelectionOwned) (hc : m.Consistent)
    (hcur : m.currentStop ≠ 0) :
    m.moveStopsList.Pairwise (fun a b => m.position a.2 < m.position b.2) := by
  refine List.Pairwise.imp_of_mem ?_ (moveStopsList_ordered m)
  intro a b ha hb hab
  rw [(moveStopsList_entries m hs hc hcur a ha).2, (moveStopsList_entries m hs hc hcur b hb).2]
  exact hab

theorem moveStops_positions (m : Model) (hwf : m.WellFormed) (hc : m.Consistent)
    (hcur : m.currentStop ≠ 0) (newPosition : ℚ) (hoff : m.moveStopsOffset newPosition ≠ 0)
    (hfree : ∀ s ∈ m.selectedStops, s ≠ m.currentStop →
      m.position s + m.moveStopsOffset newPosition ≠ moveStopsNewPos newPosition)
    (g : StopPtr) (hg : m.InGroup g) :
    (m.moveStops newPosition).position g =
      Model.moveStopsTarget m.currentStop (moveStopsNewPos newPosition)
        (m.moveStopsOffset newPosition) m g := by
  have hnp := clamp01_mem newPosition
  rw [← moveStopsNewPos_eq] at hnp
  have hpw := moveStopsList_pairwise m hwf.2.2.1 hc hcur
  have hent := moveStopsList_entries m hwf.2.2.1 hc hcur
  have hval := moveStopsList_values m hwf.2.2.1 hc hcur
  have hsign := moveStopsOffset_sign m hwf hc newPosition
  have h1 : moveStopsNewPos newPosition ≠ m.position m.currentStop := by
    intro h
    rcases lt_or_gt_of_ne hoff with h' | h'
    · have := hsign.1 h'; linarith
    · have := hsign.2 h'; linarith
  rw [moveStops_eq, if_neg hcur, if_neg h1, if_neg hoff]
  have hT1 : ∀ x ∈ Assoc.values m.moveStopsList, ∀ y ∈ Assoc.values m.moveStopsList, x ≠ y →
      Model.moveStopsTarget m.currentStop (moveStopsNewPos newPosition)
        (m.moveStopsOffset newPosition) m x
      ≠ Model.moveStopsTarget m.currentStop (moveStopsNewPos newPosition)
        (m.moveStopsOffset newPosition) m y := by
    intro x hx y hy hxy
    have hxg := (hval x).1 hx
    have hyg := (hval y).1 hy
    have hpos := position_ne_of_ne m hc x y (inGroup_owns m hwf.2.2.1 hcur x hxg)
      (inGroup_owns m hwf.2.2.1 hcur y hyg) hxy
    by_cases hxc : x = m.currentStop
    · have hyc : y ≠ m.currentStop := fun h => hxy (hxc.trans h.symm)
      have hys : y ∈ m.selectedStops := hyg.resolve_right hyc
      rw [hxc, moveStopsTarget_current, moveStopsTarget_selected m hwf hc newPosition y hys hyc]
      exact Ne.symm (hfree y hys hyc)
    · have hxs : x ∈ m.selectedStops := hxg.resolve_right hxc
      rw [moveStopsTarget_selected m hwf hc newPosition x hxs hxc]
      by_cases hyc : y = m.currentStop
      · rw [hyc, moveStopsTarget_current]
        exact hfree x hxs hxc
      · have hys : y ∈ m.selectedStops := hyg.resolve_right hyc
        rw [moveStopsTarget_selected m hwf hc newPosition y hys hyc]
        intro h
        exact hpos (by linarith)
  have hmemord : ∀ e, e ∈ (if m.moveStopsOffset newPosition > 0 then m.moveStopsList.reverse
      else m.moveStopsList) ↔ e ∈ m.moveStopsList := by
    intro e
    split_ifs
    · exact List.mem_reverse
    · exact Iff.rfl
  have key := groupInv_foldl_targets m m.moveStopsList m.currentStop _ _ hnp.1 hnp.2
    (fun s hs => (hval s).2 (Or.inl hs)) (Or.inr ((hval _).2 (Or.inr rfl))) hT1
    (if m.moveStopsOffset newPosition > 0 then m.moveStopsList.reverse else m.moveStopsList) [] m
    (groupInv_init m hwf hc hcur _ _)
    (by
      intro e he
      rw [List.nil_append, hmemord] at he
      exact List.mem_map.2 ⟨e, he, rfl⟩)
    (by
      intro x hx
      obtain ⟨e, he, hex⟩ := List.mem_map.1 hx
      exact ⟨e, by rw [List.nil_append, hmemord]; exact he, hex⟩)
    (by
      rw [List.nil_append]
      by_cases hpos : m.moveStopsOffset newPosition > 0
      · rw [if_pos hpos, List.pairwise_reverse]
        refine List.Pairwise.imp_of_mem ?_ hpw
        intro a b ha hb hab
        have := moveStopsTarget_gt m hwf hc newPosition b.2 (hent b hb).1 hpos
        exact ⟨fun h => absurd hab (by rw [h]; exact lt_irrefl _), by linarith⟩
      · rw [if_neg hpos]
        have hneg : m.moveStopsOffset newPosition < 0 :=
          lt_of_le_of_ne (not_lt.1 hpos) hoff
        refine List.Pairwise.imp_of_mem ?_ hpw
        intro a b ha hb hab
        have := moveStopsTarget_lt m hwf hc newPosition a.2 (hent a ha).1 hneg
        exact ⟨fun h => absurd hab (by rw [h]; exact lt_irrefl _), by linarith⟩)
    (by
      intro e he
      rw [List.nil_append, hmemord] at he
      rcases lt_or_gt_of_ne hoff with h' | h'
      · exact ne_of_gt (moveStopsTarget_lt m hwf hc newPosition e.2 (hent e he).1 h')
      · exact ne_of_lt (moveStopsTarget_gt m hwf hc newPosition e.2 (hent e he).1 h'))
    (by intro e he; simp at he)
  obtain ⟨e, he, heg⟩ := List.mem_map.1 ((hval g).2 hg)
  have := key.2 e (by rw [List.nil_append, hmemord]; exact he)
  rw [heg] at this
  exact this

theorem run_selects_consistent (sel : List StopPtr) (m : Model) (hc : m.Consistent) :
    (m.run (sel.map (fun s => Call.selectStop s true))).Consistent := by
  induction sel generalizing m with
  | nil => exact hc
  | cons s t ih => exact ih _ (selectStop_consistent m s true hc)

theorem dragModel_wellFormed (a b : ℚ) (sel : List StopPtr) (cur : StopPtr) :
    (dragModel a b sel cur).WellFormed := run_wellFormed _

theorem dragModel_consistent (a b : ℚ) (sel : List StopPtr) (cur : StopPtr) :
    (dragModel a b sel cur).Consistent := by
  have h0 := (run_addRemove_invariant [.addStop a QColor.black, .addStop b QColor.white]
      Model.empty empty_pointersValid empty_consistent).2
  have : dragModel a b sel cur =
      ((Model.empty.run [.addStop a QColor.black, .addStop b QColor.white]).run
        (sel.map (fun s => Call.selectStop s true))).setCurrentStop cur := by
    simp [dragModel, Model.run, List.foldl_append, Model.call]
  rw [this]
  exact setCurrentStop_consistent _ _ (run_selects_consistent sel _ h0)

theorem dragModel_clamped :
    dragModel (1/10) (1/2) [1, 2] 2 =
      { heap := [(1, ⟨1/10, QColor.black⟩), (2, ⟨1/2, QColor.white⟩)]
        d_ptr := { m_posToStop := [(1/10, 1), (1/2, 2)], m_stopToPos := [(1, 1/10), (2, 1/2)],
                   m_selection := [(1, true), (2, true)], m_current := 2 }
        emitted := (dragModel (1/10) (1/2) [1, 2] 2).emitted } := by
  norm_num [dragModel, Model.run, Model.call, Model.addStop, Model.empty, Assoc.contains,
    Assoc.find?, Model.newStop, newAddress, Assoc.keys, Model.setPosition, Model.setColor,
    heapSetPosition, heapSetColor, Assoc.insertOrdered, Assoc.set, Model.emit, Model.observe,
    Model.selectStop, Model.setCurrentStop, Model.currentStop]

theorem dragModel_clamped_facts :
    (dragModel (1/10) (1/2) [1, 2] 2).currentStop = 2 ∧
    (dragModel (1/10) (1/2) [1, 2] 2).selectedStops = [1, 2] ∧
    (dragModel (1/10) (1/2) [1, 2] 2).position 1 = 1/10 ∧
    (dragModel (1/10) (1/2) [1, 2] 2).position 2 = 1/2 ∧
    (dragModel (1/10) (1/2) [1, 2] 2).groupOffset (1/10) = -1/10 := by
  rw [dragModel_clamped]
  norm_num [Model.currentStop, Model.selectedStops, Assoc.keys, Model.position, deref,
    Assoc.find?, Model.groupOffset, clamp01, Model.firstSelected, Model.lastSelected,
    Model.scanSelected, Model.stops, Model.isSelected, Assoc.contains, List.cons_ne_nil]

theorem dragModel_clamped_moved :
    ((dragModel (1/10) (1/2) [1, 2] 2).moveStops (1/10)).position 1 = 0 ∧
    ((dragModel (1/10) (1/2) [1, 2] 2).moveStops (1/10)).position 2 = 1/10 := by
  rw [dragModel_clamped]
  norm_num [Model.moveStops, Model.moveStopsStep, Model.currentStop, Model.position, deref,
    Assoc.find?, Model.firstSelected, Model.lastSelected, Model.scanSelected, Model.stops,
    Model.isSelected, Assoc.contains, Model.selectedStops, Assoc.keys, Assoc.insertOrdered,
    Model.at, Assoc.values, Model.removeStop, Model.moveStop, Model.emit, Model.setPosition,
    heapSetPosition, Assoc.set, Assoc.remove, Model.observe]

/-- C16: the code does not meet the claim when the selection bounds clamp the offset.
With stop 1 at 0.1 and stop 2 at 0.5, both selected, stop 2 current, `moveStops(0.1)` has
offset -0.1 (the difference -0.4 clamped by the lowest selected stop); stop 1 moves to 0.0,
but the line `if (current == stop) pos = newPos;` puts the current stop at 0.1, the
clamped target, not at clamp(0.5 - 0.1, 0, 1) = 0.4: the group is not shifted by one
offset. -/
theorem moveStops_current_not_shifted :
    (dragModel (1/10) (1/2) [1, 2] 2).Consistent ∧
    (dragModel (1/10) (1/2) [1, 2] 2).currentStop = 2 ∧
    (dragModel (1/10) (1/2) [1, 2] 2).selectedStops = [1, 2] ∧
    (dragModel (1/10) (1/2) [1, 2] 2).groupOffset (1/10) = -1/10 ∧
    ((dragModel (1/10) (1/2) [1, 2] 2).moveStops (1/10)).position 1 = 0 ∧
    ((dragModel (1/10) (1/2) [1, 2] 2).moveStops (1/10)).position 2 = 1/10 ∧
    clamp01 ((dragModel (1/10) (1/2) [1, 2] 2).position 2
      + (dragModel (1/10) (1/2) [1, 2] 2).groupOffset (1/10)) = 2/5 := by
  refine ⟨dragModel_consistent _ _ _ _, dragModel_clamped_facts.1, dragModel_clamped_facts.2.1,
    dragModel_clamped_facts.2.2.2.2, dragModel_clamped_moved.1, dragModel_clamped_moved.2, ?_⟩
  rw [dragModel_clamped_facts.2.2.2.1, dragModel_clamped_facts.2.2.2.2]
  norm_num [clamp01]

/-- What the loop of `moveStops` does as written, the override of the current stop's
target included: in a model with consistent indices that has a current stop, let offset
be clamp(newPosition, 0, 1) minus the position of the current stop, clamped into
[-firstSelected.position, 1 - lastSelected.position] when at least one stop is selected.
If offset is not 0 and no selected stop other than the current one has
oldPosition + offset = clamp(newPosition, 0, 1), then after `moveStops(newPosition)` the
current stop is at clamp(newPosition, 0, 1) and every selected stop other than the current
one is at clamp(oldPosition + offset, 0, 1). -/
theorem moveStops_group_positions (m : Model) (hwf : m.WellFormed) (hc : m.Consistent)
    (hcur : m.currentStop ≠ 0) (newPosition : ℚ) (hoff : m.groupOffset newPosition ≠ 0)
    (hfree : ∀ s ∈ m.selectedStops, s ≠ m.currentStop →
      m.position s + m.groupOffset newPosition ≠ clamp01 newPosition) :
    (m.moveStops newPosition).position m.currentStop = clamp01 newPosition ∧
    ∀ s ∈ m.selectedStops, s ≠ m.currentStop →
      (m.moveStops newPosition).position s = clamp01 (m.position s + m.groupOffset newPosition) := by
  have he := moveStopsOffset_eq m hwf hc newPosition
  have hn := moveStopsNewPos_eq newPosition
  have key := moveStops_positions m hwf hc hcur newPosition (by rw [he]; exact hoff)
    (by rw [he, hn]; exact hfree)
  constructor
  · rw [key _ (Or.inr rfl), moveStopsTarget_current, hn]
  · intro s hs hne
    rw [key s (Or.inl hs), moveStopsTarget_selected m hwf hc newPosition s hs hne, he]
    obtain ⟨_, _, b1, b2, _, _⟩ := selected_bounds m hwf hc s hs
    obtain ⟨o1, o2⟩ := moveStopsOffset_bounds m hwf hc newPosition s hs
    rw [he] at o1 o2
    exact (clamp01_of_mem _ (by linarith) (by linarith)).symm

/-- The loop of `moveStops` at a concrete input: with stop 1 at 0.1 and stop 2 at 0.5, both
selected, stop 2 current, after `moveStops(0.1)` the current stop is at 0.1 and stop 1 is
at 0.0. -/
theorem moveStops_group_positions_witness :
    (dragModel (1/10) (1/2) [1, 2] 2).WellFormed ∧
    (dragModel (1/10) (1/2) [1, 2] 2).Consistent ∧
    (dragModel (1/10) (1/2) [1, 2] 2).currentStop ≠ 0 ∧
    (dragModel (1/10) (1/2) [1, 2] 2).groupOffset (1/10) ≠ 0 ∧
    ((dragModel (1/10) (1/2) [1, 2] 2).moveStops (1/10)).position 2 = 1/10 ∧
    ((dragModel (1/10) (1/2) [1, 2] 2).moveStops (1/10)).position 1 = 0 :=
  have hwf := dragModel_wellFormed (1/10) (1/2) [1, 2] 2
  have hc := dragModel_consistent (1/10) (1/2) [1, 2] 2
  have hcur : (dragModel (1/10) (1/2) [1, 2] 2).currentStop ≠ 0 := by
    rw [dragModel_clamped_facts.1]; decide
  have hoff : (dragModel (1/10) (1/2) [1, 2] 2).groupOffset (1/10) ≠ 0 := by
    rw [dragModel_clamped_facts.2.2.2.2]; norm_num
  have hfree : ∀ s ∈ (dragModel (1/10) (1/2) [1, 2] 2).selectedStops,
      s ≠ (dragModel (1/10) (1/2) [1, 2] 2).currentStop →
      (dragModel (1/10) (1/2) [1, 2] 2).position s
        + (dragModel (1/10) (1/2) [1, 2] 2).groupOffset (1/10) ≠ clamp01 (1/10) := by
    rw [dragModel_clamped_facts.1, dragModel_clamped_facts.2.1, dragModel_clamped_facts.2.2.2.2]
    intro s hs hne
    simp only [List.mem_cons, List.mem_singleton, List.not_mem_nil, or_false] at hs
    rcases hs with h | h
    · rw [h, dragModel_clamped_facts.2.2.1]; norm_num [clamp01]
    · exact absurd h hne
  have h := moveStops_group_positions _ hwf hc hcur (1/10) hoff hfree
  ⟨hwf, hc, hcur, hoff,
    by
      have h1 := h.1
      rw [dragModel_clamped_facts.1] at h1
      rw [h1]; norm_num [clamp01],
    by
      have h2 := h.2 1 (by rw [dragModel_clamped_facts.2.1]; simp)
        (by rw [dragModel_clamped_facts.1]; decide)
      rw [h2, dragModel_clamped_facts.2.2.1, dragModel_clamped_facts.2.2.2.2]
      norm_num [clamp01]⟩

theorem dragModel_ends :
    dragModel (1/10) (9/10) [1, 2] 1 =
      { heap := [(1, ⟨1/10, QColor.black⟩), (2, ⟨9/10, QColor.white⟩)]
        d_ptr := { m_posToStop := [(1/10, 1), (9/10, 2)], m_stopToPos := [(1, 1/10), (2, 9/10)],
                   m_selection := [(1, true), (2, true)], m_current := 1 }
        emitted := (dragModel (1/10) (9/10) [1, 2] 1).emitted } := by
  norm_num [dragModel, Model.run, Model.call, Model.addStop, Model.empty, Assoc.contains,
    Assoc.find?, Model.newStop, newAddress, Assoc.keys, Model.setPosition, Model.setColor,
    heapSetPosition, heapSetColor, Assoc.insertOrdered, Assoc.set, Model.emit, Model.observe,
    Model.selectStop, Model.setCurrentStop, Model.currentStop]

theorem dragModel_ends_facts :
    (dragModel (1/10) (9/10) [1, 2] 1).currentStop = 1 ∧
    (dragModel (1/10) (9/10) [1, 2] 1).selectedStops = [1, 2] ∧
    (dragModel (1/10) (9/10) [1, 2] 1).position 1 = 1/10 ∧
    (dragModel (1/10) (9/10) [1, 2] 1).position 2 = 9/10 ∧
    (dragModel (1/10) (9/10) [1, 2] 1).firstSelected = 1 ∧
    (dragModel (1/10) (9/10) [1, 2] 1).lastSelected = 2 := by
  rw [dragModel_ends]
  norm_num [Model.currentStop, Model.selectedStops, Assoc.keys, Model.position, deref,
    Assoc.find?, Model.firstSelected, Model.lastSelected, Model.scanSelected, Model.stops,
    Model.isSelected, Assoc.contains]

/-- C17: with rational positions, in a model with consistent indices and a current stop,
if offset = clamp(newPosition, 0, 1) - current.position is not 0 and, when the selection
is non-empty, -firstSelected.position ≤ offset ≤ 1 - lastSelected.position, then after
`moveStops(newPosition)` every selected stop and the current stop is at exactly its old
position plus offset. -/
theorem moveStops_exact_shift (m : Model) (hwf : m.WellFormed) (hc : m.Consistent)
    (hcur : m.currentStop ≠ 0) (newPosition : ℚ)
    (hoff : clamp01 newPosition - m.position m.currentStop ≠ 0)
    (hb : m.selectedStops ≠ [] →
      - m.position m.firstSelected ≤ clamp01 newPosition - m.position m.currentStop ∧
      clamp01 newPosition - m.position m.currentStop ≤ 1 - m.position m.lastSelected)
    (g : StopPtr) (hg : m.InGroup g) :
    (m.moveStops newPosition).position g
      = m.position g + (clamp01 newPosition - m.position m.currentStop) := by
  have hn := moveStopsNewPos_eq newPosition
  have he : m.moveStopsOffset newPosition = clamp01 newPosition - m.position m.currentStop := by
    rw [moveStopsOffset_eq m hwf hc]
    unfold Model.groupOffset
    by_cases hsel : m.selectedStops = []
    · rw [if_pos hsel]
    · rw [if_neg hsel, min_eq_right (hb hsel).2, max_eq_right (hb hsel).1]
  have hco : m.Owns m.currentStop := inGroup_owns m hwf.2.2.1 hcur _ (Or.inr rfl)
  have key := moveStops_positions m hwf hc hcur newPosition (by rw [he]; exact hoff)
    (by
      intro s hs hne
      rw [he, hn]
      have := position_ne_of_ne m hc s _ (hwf.2.2.1.1 s hs) hco hne
      intro h
      exact this (by linarith)) g hg
  rw [key]
  by_cases hgc : g = m.currentStop
  · rw [hgc, moveStopsTarget_current, hn]; ring
  · rw [moveStopsTarget_selected m hwf hc newPosition g (hg.resolve_right hgc) hgc, he]

/-- C17 at the inputs named in the claim: stops at 0.1 (current) and 0.9, both selected;
with target 0.05 they end at 0.05 and 0.85, with target -1.0 they end at 0.0 and 0.8. -/
theorem moveStops_exact_shift_witness :
    (dragModel (1/10) (9/10) [1, 2] 1).WellFormed ∧
    (dragModel (1/10) (9/10) [1, 2] 1).Consistent ∧
    (dragModel (1/10) (9/10) [1, 2] 1).currentStop ≠ 0 ∧
    ((dragModel (1/10) (9/10) [1, 2] 1).moveStops (1/20)).position 1 = 1/20 ∧
    ((dragModel (1/10) (9/10) [1, 2] 1).moveStops (1/20)).position 2 = 17/20 ∧
    ((dragModel (1/10) (9/10) [1, 2] 1).moveStops (-1)).position 1 = 0 ∧
    ((dragModel (1/10) (9/10) [1, 2] 1).moveStops (-1)).position 2 = 4/5 :=
  have hwf := dragModel_wellFormed (1/10) (9/10) [1, 2] 1
  have hc := dragModel_consistent (1/10) (9/10) [1, 2] 1
  have hcur : (dragModel (1/10) (9/10) [1, 2] 1).currentStop ≠ 0 := by
    rw [dragModel_ends_facts.1]; decide
  have g1 : (dragModel (1/10) (9/10) [1, 2] 1).InGroup 1 := Or.inr dragModel_ends_facts.1.symm
  have g2 : (dragModel (1/10) (9/10) [1, 2] 1).InGroup 2 :=
    Or.inl (by rw [dragModel_ends_facts.2.1]; simp)
  have hoffA : clamp01 (1/20) - (dragModel (1/10) (9/10) [1, 2] 1).position
      (dragModel (1/10) (9/10) [1, 2] 1).currentStop ≠ 0 := by
    rw [dragModel_ends_facts.1, dragModel_ends_facts.2.2.1]; norm_num [clamp01]
  have hbA : (dragModel (1/10) (9/10) [1, 2] 1).selectedStops ≠ [] →
      - (dragModel (1/10) (9/10) [1, 2] 1).position (dragModel (1/10) (9/10) [1, 2] 1).firstSelected
        ≤ clamp01 (1/20) - (dragModel (1/10) (9/10) [1, 2] 1).position
          (dragModel (1/10) (9/10) [1, 2] 1).currentStop ∧
      clamp01 (1/20) - (dragModel (1/10) (9/10) [1, 2] 1).position
          (dragModel (1/10) (9/10) [1, 2] 1).currentStop
        ≤ 1 - (dragModel (1/10) (9/10) [1, 2] 1).position
          (dragModel (1/10) (9/10) [1, 2] 1).lastSelected := by
    intro _
    rw [dragModel_ends_facts.1, dragModel_ends_facts.2.2.2.2.1, dragModel_ends_facts.2.2.2.2.2,
      dragModel_ends_facts.2.2.1, dragModel_ends_facts.2.2.2.1]
    norm_num [clamp01]
  have hoffB : clamp01 (-1) - (dragModel (1/10) (9/10) [1, 2] 1).position
      (dragModel (1/10) (9/10) [1, 2] 1).currentStop ≠ 0 := by
    rw [dragModel_ends_facts.1, dragModel_ends_facts.2.2.1]; norm_num [clamp01]
  have hbB : (dragModel (1/10) (9/10) [1, 2] 1).selectedStops ≠ [] →
      - (dragModel (1/10) (9/10) [1, 2] 1).position (dragModel (1/10) (9/10) [1, 2] 1).firstSelected
        ≤ clamp01 (-1) - (dragModel (1/10) (9/10) [1, 2] 1).position
          (dragModel (1/10) (9/10) [1, 2] 1).currentStop ∧
      clamp01 (-1) - (dragModel (1/10) (9/10) [1, 2] 1).position
          (dragModel (1/10) (9/10) [1, 2] 1).currentStop
        ≤ 1 - (dragModel (1/10) (9/10) [1, 2] 1).position
          (dragModel (1/10) (9/10) [1, 2] 1).lastSelected := by
    intro _
    rw [dragModel_ends_facts.1, dragModel_ends_facts.2.2.2.2.1, dragModel_ends_facts.2.2.2.2.2,
      dragModel_ends_facts.2.2.1, dragModel_ends_facts.2.2.2.1]
    norm_num [clamp01]
  ⟨hwf, hc, hcur,
    (moveStops_exact_shift _ hwf hc hcur (1/20) hoffA hbA 1 g1).trans
      (by rw [dragModel_ends_facts.1, dragModel_ends_facts.2.2.1]; norm_num [clamp01]),
    (moveStops_exact_shift _ hwf hc hcur (1/20) hoffA hbA 2 g2).trans
      (by rw [dragModel_ends_facts.1, dragModel_ends_facts.2.2.1, dragModel_ends_facts.2.2.2.1]
          norm_num [clamp01]),
    (moveStops_exact_shift _ hwf hc hcur (-1) hoffB hbB 1 g1).trans
      (by rw [dragModel_ends_facts.1, dragModel_ends_facts.2.2.1]; norm_num [clamp01]),
    (moveStops_exact_shift _ hwf hc hcur (-1) hoffB hbB 2 g2).trans
      (by rw [dragModel_ends_facts.1, dragModel_ends_facts.2.2.1, dragModel_ends_facts.2.2.2.1]
          norm_num [clamp01])⟩

theorem dragModel_displacing :
    dragModel (1/10) (1/2) [] 2 =
      { heap := [(1, ⟨1/10, QColor.black⟩), (2, ⟨1/2, QColor.white⟩)]
        d_ptr := { m_posToStop := [(1/10, 1), (1/2, 2)], m_stopToPos := [(1, 1/10), (2, 1/2)],
                   m_selection := [], m_current := 2 }
        emitted := (dragModel (1/10) (1/2) [] 2).emitted } := by
  norm_num [dragModel, Model.run, Model.call, Model.addStop, Model.empty, Assoc.contains,
    Assoc.find?, Model.newStop, newAddress, Assoc.keys, Model.setPosition, Model.setColor,
    heapSetPosition, heapSetColor, Assoc.insertOrdered, Assoc.set, Model.emit, Model.observe,
    Model.selectStop, Model.setCurrentStop, Model.currentStop]

theorem dragModel_displacing_facts :
    (dragModel (1/10) (1/2) [] 2).currentStop = 2 ∧
    (dragModel (1/10) (1/2) [] 2).selectedStops = [] ∧
    (dragModel (1/10) (1/2) [] 2).Owns 1 ∧
    (dragModel (1/10) (1/2) [] 2).Owns 2 ∧
    (dragModel (1/10) (1/2) [] 2).position 1 = 1/10 := by
  rw [dragModel_displacing]
  norm_num [Model.currentStop, Model.selectedStops, Assoc.keys, Model.position, deref,
    Assoc.find?, Model.Owns, Assoc.contains]

/-- For position arguments that are numbers (a NaN argument is the subject of
`addStop_nan_outside_unit_interval`): in every state reached from the empty model by any
finite sequence of calls of the public mutators, with arbitrary rational position
arguments, every key of the position index lies in [0,1] and so does the position stored
in every owned stop. -/
theorem reachable_positions_in_unit_interval (calls : List Call) :
    (∀ e ∈ (Model.empty.run calls).stops, 0 ≤ e.1 ∧ e.1 ≤ 1) ∧
    (∀ s, (Model.empty.run calls).Owns s →
      0 ≤ (Model.empty.run calls).position s ∧ (Model.empty.run calls).position s ≤ 1) :=
  ⟨(run_wellFormed calls).2.2.2.1,
    fun s _ => position_mem_of_inUnitInterval _ (run_wellFormed calls).2.2.2 s⟩

/-! ## `QProgressDialog::setValue` -/

theorem myprogress_pos (progress minimum : Int) :
    1 ≤ QProgressDialog.myprogress progress minimum := le_max_right _ _

theorem estimate_isSome (elapsed progress minimum maximum : Int) (h : 0 < elapsed) :
    (QProgressDialog.estimate elapsed progress minimum maximum).isSome = true := by
  have h1 : elapsed ≠ 0 := ne_of_gt h
  have h2 : QProgressDialog.myprogress progress minimum ≠ 0 :=
    ne_of_gt (lt_of_lt_of_le zero_lt_one (myprogress_pos progress minimum))
  unfold QProgressDialog.estimate machineDiv
  simp only [h1, h2, if_false]
  split_ifs <;> rfl

/-- C27: in `QProgressDialog::setValue`, when the time-estimate branch is executed
(`elapsed < showTime` and `elapsed > minWaitTime`), for all values of `progress`,
`minimum()` and `maximum()` the nanosecond count of `elapsed` is strictly positive and
`myprogress` is at least 1, so both divisions have a non-zero divisor: the estimate and
`need_show` are computed. -/
theorem estimate_never_divides_by_zero (showTime elapsed progress minimum maximum : Int)
    (hshow : elapsed < msToNs showTime) (hwait : elapsed > msToNs minWaitTime) :
    0 < elapsed ∧ 1 ≤ QProgressDialog.myprogress progress minimum ∧
    (∃ est, QProgressDialog.estimate elapsed progress minimum maximum = some est ∧
      QProgressDialog.need_show showTime elapsed progress minimum maximum
        = some (decide (est ≥ msToNs showTime))) := by
  have hpos : 0 < elapsed := by
    have : (0 : Int) ≤ msToNs minWaitTime := by norm_num [msToNs, minWaitTime]
    omega
  refine ⟨hpos, myprogress_pos progress minimum, ?_⟩
  obtain ⟨est, hest⟩ := Option.isSome_iff_exists.1
    (estimate_isSome elapsed progress minimum maximum hpos)
  refine ⟨est, hest, ?_⟩
  unfold QProgressDialog.need_show
  rw [if_neg (not_le.2 hshow), if_pos hwait, hest]

/-- C27 at a concrete input: 100 ms after the start, with `progress` 5 in the range 0..100
and the default show time, the estimate is 1.9 s and the dialog is not shown yet. -/
theorem estimate_never_divides_by_zero_witness :
    (100000000 : Int) < msToNs defaultShowTime ∧ (100000000 : Int) > msToNs minWaitTime ∧
    QProgressDialog.estimate 100000000 5 0 100 = some 1900000000 ∧
    QProgressDialog.need_show defaultShowTime 100000000 5 0 100 = some false := by
  have h1 : (100000000 : Int) < msToNs defaultShowTime := by decide
  have h2 : (100000000 : Int) > msToNs minWaitTime := by decide
  have hest : QProgressDialog.estimate 100000000 5 0 100 = some 1900000000 := by decide
  obtain ⟨_, _, est, he, hn⟩ := estimate_never_divides_by_zero defaultShowTime 100000000 5 0 100 h1 h2
  refine ⟨h1, h2, hest, ?_⟩
  rw [hn]
  rw [hest] at he
  rw [← Option.some.inj he]
  decide

/-! ## `firstSelected` and `lastSelected` -/

theorem scanSelected_eq_zero_iff (m : Model) (l : List (ℚ × StopPtr)) (hnz : ∀ e ∈ l, e.2 ≠ 0) :
    m.scanSelected l = 0 ↔ ∀ e ∈ l, m.isSelected e.2 = false := by
  constructor
  · intro h e he
    by_contra hsel
    have hsel' : m.isSelected e.2 = true := by simpa using hsel
    obtain ⟨f, hf, hf1, _, _⟩ := scanSelected_spec m (fun _ _ => True) l
      (List.pairwise_of_forall (fun _ _ => trivial)) ⟨e, he, hsel'⟩
    exact hnz f hf (hf1.trans h)
  · intro h
    exact scanSelected_none m l (fun e he => by rw [h e he]; exact Bool.false_ne_true)

theorem index_entry_facts (m : Model) (hord : Assoc.Ordered m.stops) (hv : m.PointersValid)
    (hc : m.Consistent) (e : ℚ × StopPtr) (he : e ∈ m.stops) :
    e.2 ≠ 0 ∧ m.position e.2 = e.1 := by
  have hf : Assoc.find? m.stops e.1 = some e.2 := Assoc.find?_of_mem_ordered _ _ _ hord he
  exact ⟨(hv _ (key_owned m hc _ _ hf)).1, (hc _ _).2 (((hc _ _).1).1 hf)⟩

/-- C23: in a model with consistent indices (position index in key order, its stops
non-null), `firstSelected()` is null exactly when no stop of the position index is selected,
and so is `lastSelected()`; otherwise both are selected stops of the index, every selected
stop of the index has its position between theirs, so `firstSelected()` has the smallest
and `lastSelected()` the largest position among them, and the two positions are equal
exactly when one stop of the index is selected. -/
theorem firstSelected_lastSelected_extremes (m : Model) (hord : Assoc.Ordered m.stops)
    (hv : m.PointersValid) (hc : m.Consistent) :
    (m.firstSelected = 0 ↔ ∀ e ∈ m.stops, m.isSelected e.2 = false) ∧
    (m.lastSelected = 0 ↔ ∀ e ∈ m.stops, m.isSelected e.2 = false) ∧
    ((∃ e ∈ m.stops, m.isSelected e.2 = true) →
      (m.position m.firstSelected, m.firstSelected) ∈ m.stops ∧
      m.isSelected m.firstSelected = true ∧
      (m.position m.lastSelected, m.lastSelected) ∈ m.stops ∧
      m.isSelected m.lastSelected = true ∧
      (∀ e ∈ m.stops, m.isSelected e.2 = true →
        m.position m.firstSelected ≤ m.position e.2 ∧
        m.position e.2 ≤ m.position m.lastSelected) ∧
      m.position m.firstSelected ≤ m.position m.lastSelected ∧
      (m.position m.firstSelected = m.position m.lastSelected ↔
        ∀ e ∈ m.stops, m.isSelected e.2 = true → e.2 = m.firstSelected)) := by
  have hkey := index_entry_facts m hord hv hc
  refine ⟨?_, ?_, ?_⟩
  · exact scanSelected_eq_zero_iff m m.stops (fun e he => (hkey e he).1)
  · unfold Model.lastSelected
    rw [scanSelected_eq_zero_iff m m.stops.reverse
      (fun e he => (hkey e (List.mem_reverse.1 he)).1)]
    simp only [List.mem_reverse]
  · rintro ⟨e0, he0, hs0⟩
    obtain ⟨f, hf, hf1, hf2, hf3⟩ := scanSelected_spec m (fun a b => a < b) m.stops hord
      ⟨e0, he0, hs0⟩
    have hrev : m.stops.reverse.Pairwise (fun a b => a.1 > b.1) := by
      rw [List.pairwise_reverse]
      exact hord
    obtain ⟨g, hg, hg1, hg2, hg3⟩ := scanSelected_spec m (fun a b => a > b) m.stops.reverse hrev
      ⟨e0, List.mem_reverse.2 he0, hs0⟩
    have hg' := List.mem_reverse.1 hg
    have hF : m.firstSelected = f.2 := hf1.symm
    have hL : m.lastSelected = g.2 := hg1.symm
    have hpf : m.position f.2 = f.1 := (hkey f hf).2
    have hpg : m.position g.2 = g.1 := (hkey g hg').2
    have hbounds : ∀ e ∈ m.stops, m.isSelected e.2 = true →
        m.position f.2 ≤ m.position e.2 ∧ m.position e.2 ≤ m.position g.2 := by
      intro e he hse
      rw [hpf, hpg, (hkey e he).2]
      constructor
      · rcases hf3 e he hse with h | h
        · rw [h]
        · exact le_of_lt h
      · rcases hg3 e (List.mem_reverse.2 he) hse with h | h
        · rw [h]
        · exact le_of_lt h
    rw [hF, hL]
    refine ⟨?_, hf2, ?_, hg2, hbounds, (hbounds f hf hf2).2, ?_⟩
    · rw [hpf]; exact hf
    · rw [hpg]; exact hg'
    · constructor
      · intro heq e he hse
        have hb := hbounds e he hse
        have hpe : m.position e.2 = m.position f.2 := le_antisymm (by rw [heq]; exact hb.2) hb.1
        have h1 := Assoc.find?_of_mem_ordered _ _ _ hord he
        have h2 := Assoc.find?_of_mem_ordered _ _ _ hord hf
        rw [← (hkey e he).2, hpe, hpf, h2] at h1
        exact (Option.some.inj h1).symm
      · intro hall
        rw [hall g hg' hg2]

/-- C23 at a concrete input: with stops 1 at 0.1 and 2 at 0.9 both selected,
`firstSelected()` is stop 1, `lastSelected()` is stop 2, and 0.1 ≤ 0.9. -/
theorem firstSelected_lastSelected_extremes_witness :
    Assoc.Ordered (dragModel (1/10) (9/10) [1, 2] 1).stops ∧
    (dragModel (1/10) (9/10) [1, 2] 1).PointersValid ∧
    (dragModel (1/10) (9/10) [1, 2] 1).Consistent ∧
    (dragModel (1/10) (9/10) [1, 2] 1).firstSelected = 1 ∧
    (dragModel (1/10) (9/10) [1, 2] 1).lastSelected = 2 ∧
    (dragModel (1/10) (9/10) [1, 2] 1).position (dragModel (1/10) (9/10) [1, 2] 1).firstSelected
      ≤ (dragModel (1/10) (9/10) [1, 2] 1).position
          (dragModel (1/10) (9/10) [1, 2] 1).lastSelected :=
  have hwf := dragModel_wellFormed (1/10) (9/10) [1, 2] 1
  have hc := dragModel_consistent (1/10) (9/10) [1, 2] 1
  have hex : ∃ e ∈ (dragModel (1/10) (9/10) [1, 2] 1).stops,
      (dragModel (1/10) (9/10) [1, 2] 1).isSelected e.2 = true := by
    refine ⟨(1/10, 1), ?_, ?_⟩
    · rw [dragModel_ends]; simp [Model.stops]
    · rw [isSelected_iff, dragModel_ends_facts.2.1]; simp
  ⟨hwf.1, hwf.2.1, hc, dragModel_ends_facts.2.2.2.2.1, dragModel_ends_facts.2.2.2.2.2,
    ((firstSelected_lastSelected_extremes _ hwf.1 hwf.2.1 hc).2.2 hex).2.2.2.2.2.1⟩

/-! ## Range of the interpolated colour -/

theorem interp_bounds (p n c : ℚ) (h0 : 0 ≤ c) (h1 : c ≤ 1) :
    min p n ≤ (n - p) * c + p ∧ (n - p) * c + p ≤ max p n := by
  rcases le_total p n with h | h
  · rw [min_eq_left h, max_eq_right h]
    constructor <;> nlinarith
  · rw [min_eq_right h, max_eq_left h]
    constructor <;> nlinarith

theorem coef_mem (pos lo hi : ℚ) (hlt : lo < pos) (hgt : pos < hi) :
    0 ≤ (pos - lo) / (hi - lo) ∧ (pos - lo) / (hi - lo) ≤ 1 := by
  have h1 : 0 < hi - lo := by linarith
  constructor
  · exact div_nonneg (by linarith) (le_of_lt h1)
  · rw [div_le_one h1]; linarith

theorem ordered_append_facts {β : Type} (l1 l2 : List (ℚ × β)) (lo hi : ℚ) (a b : β)
    (hord : Assoc.Ordered (l1 ++ (lo, a) :: (hi, b) :: l2)) :
    (∀ e ∈ l1, e.1 < lo) ∧ lo < hi ∧ (∀ e ∈ l2, hi < e.1) := by
  unfold Assoc.Ordered at hord
  rw [List.pairwise_append] at hord
  obtain ⟨_, h2, h3⟩ := hord
  rw [List.pairwise_cons] at h2
  obtain ⟨h4, h5⟩ := h2
  rw [List.pairwise_cons] at h5
  exact ⟨fun e he => h3 e he _ (List.mem_cons_self _ _), h4 _ (List.mem_cons_self _ _), h5.1⟩

theorem color_between_adjacent (m : Model) (hord : Assoc.Ordered m.stops) (pos lo hi : ℚ)
    (sLo sHi : StopPtr) (l1 l2 : List (ℚ × StopPtr))
    (hl : m.stops = l1 ++ (lo, sLo) :: (hi, sHi) :: l2) (hlt : lo < pos) (hgt : pos < hi)
    (ch : Channel) :
    (m.color pos).channel ch =
      ((m.stopColor sHi).channel ch - (m.stopColor sLo).channel ch) * ((pos - lo) / (hi - lo))
        + (m.stopColor sLo).channel ch := by
  have hf := ordered_append_facts l1 l2 lo hi sLo sHi (hl ▸ hord)
  have hnot : ∀ e ∈ m.stops, e.1 ≠ pos := by
    intro e he
    rw [hl] at he
    rcases List.mem_append.1 he with h | h
    · exact ne_of_lt (lt_trans (hf.1 e h) hlt)
    · rcases List.mem_cons.1 h with h | h
      · rw [h]; exact ne_of_lt hlt
      · rcases List.mem_cons.1 h with h | h
        · rw [h]; exact ne_of_gt hgt
        · exact ne_of_gt (lt_trans hgt (hf.2.2 e h))
  rw [color_between m pos lo hi sLo sHi l1 l2 hl hf.1 hnot hlt hgt]
  cases ch <;> rfl

theorem color_cases (m : Model) (hord : Assoc.Ordered m.stops) (hne : m.stops ≠ []) (pos : ℚ) :
    (∃ e ∈ m.stops, m.color pos = m.stopColor e.2) ∨
    (∃ lo hi sLo sHi l1 l2, m.stops = l1 ++ (lo, sLo) :: (hi, sHi) :: l2 ∧ lo < pos ∧ pos < hi) := by
  by_cases hkey : Assoc.contains m.stops pos = true
  · obtain ⟨s, hs⟩ := (Assoc.contains_iff _ _).1 hkey
    exact Or.inl ⟨(pos, s), Assoc.mem_of_find? _ _ _ hs, color_of_key m pos s hs⟩
  · have hnone : Assoc.find? m.stops pos = none :=
      (Assoc.contains_eq_false_iff _ _).1 (by simpa using hkey)
    have hnot : ∀ e ∈ m.stops, e.1 ≠ pos := by
      intro e he h
      have := Assoc.find?_of_mem_ordered m.stops e.1 e.2 hord he
      rw [h, hnone] at this
      exact Option.noConfusion this
    obtain ⟨l1, l2, hl, h1, h2⟩ := Assoc.split_at m.stops pos hord hnot
    rcases List.eq_nil_or_concat l1 with hl1 | ⟨l1', a, hl1⟩
    · subst hl1
      cases l2 with
      | nil => exact absurd hl hne
      | cons b l2' =>
        left
        refine ⟨b, by rw [hl]; simp, ?_⟩
        exact color_below m pos b.1 b.2 l2' (by rw [hl]; rfl) hnot (h2 b (List.mem_cons_self _ _))
    · rw [List.concat_eq_append] at hl1
      subst hl1
      cases l2 with
      | nil =>
        left
        refine ⟨a, by rw [hl]; simp, ?_⟩
        have hord' : Assoc.Ordered (l1' ++ [a]) := by
          have := hord
          rw [hl, List.append_nil] at this
          exact this
        unfold Assoc.Ordered at hord'
        rw [List.pairwise_append] at hord'
        exact color_above m pos a.1 a.2 l1' (by rw [hl]; simp)
          (fun e he => hord'.2.2 e he a (List.mem_singleton_self _)) hnot
          (h1 a (by simp))
      | cons b l2' =>
        right
        exact ⟨a.1, b.1, a.2, b.2, l1', l2', by rw [hl]; simp, h1 a (by simp),
          h2 b (List.mem_cons_self _ _)⟩

/-- C26: with rational positions and channels, in a non-empty model (position index in
key order), for every `pos` each channel of `color(pos)` lies between the values of that
channel at two stops of the model, hence between its minimum and its maximum over the
stops; for `pos` strictly between two adjacent stops it lies between the two neighbours'
values; and if the channel is in [0,1] at every stop, it is in [0,1] in `color(pos)`. -/
theorem color_channel_in_range (m : Model) (hord : Assoc.Ordered m.stops) (hne : m.stops ≠ [])
    (pos : ℚ) (ch : Channel) :
    (∃ e1 ∈ m.stops, ∃ e2 ∈ m.stops,
      (m.stopColor e1.2).channel ch ≤ (m.color pos).channel ch ∧
      (m.color pos).channel ch ≤ (m.stopColor e2.2).channel ch) ∧
    (∀ lo hi sLo sHi l1 l2, m.stops = l1 ++ (lo, sLo) :: (hi, sHi) :: l2 → lo < pos → pos < hi →
      min ((m.stopColor sLo).channel ch) ((m.stopColor sHi).channel ch) ≤ (m.color pos).channel ch ∧
      (m.color pos).channel ch ≤ max ((m.stopColor sLo).channel ch) ((m.stopColor sHi).channel ch)) ∧
    ((∀ e ∈ m.stops, 0 ≤ (m.stopColor e.2).channel ch ∧ (m.stopColor e.2).channel ch ≤ 1) →
      0 ≤ (m.color pos).channel ch ∧ (m.color pos).channel ch ≤ 1) := by
  have hadj : ∀ lo hi sLo sHi l1 l2, m.stops = l1 ++ (lo, sLo) :: (hi, sHi) :: l2 → lo < pos →
      pos < hi →
      min ((m.stopColor sLo).channel ch) ((m.stopColor sHi).channel ch) ≤ (m.color pos).channel ch ∧
      (m.color pos).channel ch ≤
        max ((m.stopColor sLo).channel ch) ((m.stopColor sHi).channel ch) := by
    intro lo hi sLo sHi l1 l2 hl hlt hgt
    rw [color_between_adjacent m hord pos lo hi sLo sHi l1 l2 hl hlt hgt ch]
    exact interp_bounds _ _ _ (coef_mem pos lo hi hlt hgt).1 (coef_mem pos lo hi hlt hgt).2
  have hex : ∃ e1 ∈ m.stops, ∃ e2 ∈ m.stops,
      (m.stopColor e1.2).channel ch ≤ (m.color pos).channel ch ∧
      (m.color pos).channel ch ≤ (m.stopColor e2.2).channel ch := by
    rcases color_cases m hord hne pos with ⟨e, he, hcol⟩ | ⟨lo, hi, sLo, sHi, l1, l2, hl, hlt, hgt⟩
    · exact ⟨e, he, e, he, by rw [hcol], by rw [hcol]⟩
    · have h := hadj lo hi sLo sHi l1 l2 hl hlt hgt
      have hmLo : (lo, sLo) ∈ m.stops := by rw [hl]; simp
      have hmHi : (hi, sHi) ∈ m.stops := by rw [hl]; simp
      rcases le_total ((m.stopColor sLo).channel ch) ((m.stopColor sHi).channel ch) with hle | hle
      · rw [min_eq_left hle, max_eq_right hle] at h
        exact ⟨_, hmLo, _, hmHi, h.1, h.2⟩
      · rw [min_eq_right hle, max_eq_left hle] at h
        exact ⟨_, hmHi, _, hmLo, h.1, h.2⟩
  refine ⟨hex, hadj, ?_⟩
  intro hall
  obtain ⟨e1, he1, e2, he2, h1, h2⟩ := hex
  exact ⟨le_trans (hall e1 he1).1 h1, le_trans h2 (hall e2 he2).2⟩

/-- C26 at a concrete input: with a black stop at 0.2 and a white stop at 0.8, whose red
channels are 0 and 1, the red channel of the colour at 0.5 lies in [0,1]. -/
theorem color_channel_in_range_witness :
    Assoc.Ordered (Model.empty.run [.addStop (1/5) QColor.black, .addStop (4/5) QColor.white]).stops ∧
    (Model.empty.run [.addStop (1/5) QColor.black, .addStop (4/5) QColor.white]).stops ≠ [] ∧
    0 ≤ ((Model.empty.run [.addStop (1/5) QColor.black, .addStop (4/5) QColor.white]).color
      (1/2)).channel Channel.red ∧
    ((Model.empty.run [.addStop (1/5) QColor.black, .addStop (4/5) QColor.white]).color
      (1/2)).channel Channel.red ≤ 1 :=
  have hord := (run_wellFormed [.addStop (1/5) QColor.black, .addStop (4/5) QColor.white]).1
  have hne : (Model.empty.run [.addStop (1/5) QColor.black,
      .addStop (4/5) QColor.white]).stops ≠ [] := by
    rw [run_fifths_facts.1]; simp
  have hall : ∀ e ∈ (Model.empty.run [.addStop (1/5) QColor.black,
      .addStop (4/5) QColor.white]).stops,
      0 ≤ ((Model.empty.run [.addStop (1/5) QColor.black,
        .addStop (4/5) QColor.white]).stopColor e.2).channel Channel.red ∧
      ((Model.empty.run [.addStop (1/5) QColor.black,
        .addStop (4/5) QColor.white]).stopColor e.2).channel Channel.red ≤ 1 := by
    intro e he
    rw [run_fifths_facts.1] at he
    simp only [List.mem_cons, List.mem_singleton, List.not_mem_nil, or_false] at he
    rcases he with h | h
    · rw [h, run_fifths_facts.2.1]; norm_num [QColor.channel, QColor.black]
    · rw [h, run_fifths_facts.2.2]; norm_num [QColor.channel, QColor.white]
  have h := (color_channel_in_range _ hord hne (1/2) Channel.red).2.2 hall
  ⟨hord, hne, h.1, h.2⟩

/-! ## `deleteStops` -/

theorem removeStop_owns_iff (m : Model) (a s : StopPtr) :
    (m.removeStop a).Owns s ↔ m.Owns s ∧ s ≠ a := by
  constructor
  · exact removeStop_owns m a s
  · rintro ⟨ho, hne⟩
    rcases removeStop_cases m a with h | ⟨_, _, h, _⟩
    · rw [h]; exact ho
    · simp only [Model.Owns, h, Assoc.contains_remove, hne, if_false]
      exact ho

theorem foldl_removeStop_owns_iff (l : List StopPtr) (m : Model) (s : StopPtr) :
    (l.foldl Model.removeStop m).Owns s ↔ m.Owns s ∧ s ∉ l := by
  induction l generalizing m with
  | nil => simp
  | cons a t ih =>
    rw [List.foldl_cons, ih, removeStop_owns_iff]
    simp only [List.mem_cons, not_or]
    tauto

theorem removeStop_currentStop (m : Model) (a : StopPtr) :
    (m.Owns a → m.currentStop = a → (m.removeStop a).currentStop = 0) ∧
    (m.currentStop ≠ a → (m.removeStop a).currentStop = m.currentStop) ∧
    (m.currentStop = 0 → (m.removeStop a).currentStop = 0) := by
  rcases removeStop_cases m a with h | ⟨ho, _, _, _, _, h⟩
  · refine ⟨?_, fun _ => by rw [h], fun h0 => by rw [h]; exact h0⟩
    intro hoa hca
    have h2 := removeStop_current m a hoa
    unfold Model.currentStop at hca ⊢
    rw [h2, if_pos hca]
  · unfold Model.currentStop
    rw [h]
    refine ⟨fun _ hca => by rw [if_pos hca], fun hca => by rw [if_neg hca], fun h0 => ?_⟩
    split_ifs
    · rfl
    · exact h0

theorem removeStop_selectedStops (m : Model) (a s : StopPtr)
    (h : s ∈ (m.removeStop a).selectedStops) : s ∈ m.selectedStops ∧ (m.Owns a → s ≠ a) := by
  rcases removeStop_cases m a with h1 | ⟨ho, _, _, _, h1, _⟩
  · rw [h1] at h
    refine ⟨h, fun hoa hsa => ?_⟩
    have h2 := removeStop_selection m a hoa
    rw [h1] at h2
    unfold Model.selectedStops at h
    rw [h2] at h
    obtain ⟨e, he, hes⟩ := List.mem_map.1 h
    exact ((Assoc.mem_remove _ _ _).1 he).2 (hes.trans hsa)
  · unfold Model.selectedStops at h ⊢
    rw [h1] at h
    obtain ⟨e, he, hes⟩ := List.mem_map.1 h
    have := (Assoc.mem_remove _ _ _).1 he
    exact ⟨List.mem_map.2 ⟨e, this.1, hes⟩, fun _ hsa => this.2 (hes.trans hsa)⟩

theorem foldl_removeStop_selectedStops (l : List StopPtr) (m : Model) (hs : m.SelectionOwned)
    (s : StopPtr) (h : s ∈ (l.foldl Model.removeStop m).selectedStops) :
    s ∈ m.selectedStops ∧ s ∉ l := by
  induction l generalizing m with
  | nil => exact ⟨h, List.not_mem_nil _⟩
  | cons a t ih =>
    rw [List.foldl_cons] at h
    have h1 := ih (m.removeStop a) (selectionOwned_preserved.removeStop m a hs) h
    have h2 := removeStop_selectedStops m a s h1.1
    refine ⟨h2.1, ?_⟩
    intro hmem
    rcases List.mem_cons.1 hmem with h3 | h3
    · exact h2.2 (h3 ▸ hs.1 s h2.1) h3
    · exact h1.2 h3

theorem foldl_removeStop_currentStop (l : List StopPtr) (m : Model) :
    (m.currentStop ∉ l → (l.foldl Model.removeStop m).currentStop = m.currentStop) ∧
    (m.currentStop ∈ l → m.Owns m.currentStop → (l.foldl Model.removeStop m).currentStop = 0) ∧
    (m.currentStop = 0 → (l.foldl Model.removeStop m).currentStop = 0) := by
  induction l generalizing m with
  | nil => exact ⟨fun _ => rfl, fun h => absurd h (List.not_mem_nil _), fun h => h⟩
  | cons a t ih =>
    simp only [List.foldl_cons, List.mem_cons, not_or]
    obtain ⟨s1, s2, s3⟩ := removeStop_currentStop m a
    refine ⟨?_, ?_, ?_⟩
    · rintro ⟨hne, hnt⟩
      have := s2 hne
      rw [← this] at hnt ⊢
      exact (ih _).1 hnt
    · intro hmem ho
      by_cases hca : m.currentStop = a
      · exact (ih _).2.2 (s1 (hca ▸ ho) hca)
      · have hcur := s2 hca
        have hmt : (m.removeStop a).currentStop ∈ t := by
          rw [hcur]; exact hmem.resolve_left hca
        refine (ih _).2.1 hmt ?_
        rw [hcur]
        exact (removeStop_owns_iff m a _).2 ⟨ho, hca⟩
    · intro h0
      exact (ih _).2.2 (s3 h0)

theorem foldl_removeStop_observe (l : List StopPtr) (m : Model) (y : StopPtr) (hy : y ∉ l) :
    (l.foldl Model.removeStop m).position y = m.position y ∧
    (l.foldl Model.removeStop m).stopColor y = m.stopColor y := by
  induction l generalizing m with
  | nil => exact ⟨rfl, rfl⟩
  | cons a t ih =>
    simp only [List.mem_cons, not_or] at hy
    rw [List.foldl_cons]
    have h := ih (m.removeStop a) hy.2
    rw [removeStop_position m a y hy.1, removeStop_stopColor m a y hy.1] at h
    exact h

theorem deleteStops_eq (m : Model) :
    m.deleteStops =
      if (m.selectedStops.foldl Model.removeStop m).currentStop ≠ 0 then
        (m.selectedStops.foldl Model.removeStop m).removeStop
          (m.selectedStops.foldl Model.removeStop m).currentStop
      else m.selectedStops.foldl Model.removeStop m := rfl

/-- C21: in a model with consistent indices (owned stops non-null, selected and current
stops owned), after `deleteStops()` the owned stops are exactly the stops owned before that
were neither selected nor current, each with its position and colour unchanged; no stop
is selected, the current stop is null, and the indices are consistent.  A current stop
that was not selected is removed as well. -/
theorem deleteStops_removes_selected_and_current (m : Model) (hv : m.PointersValid)
    (hs : m.SelectionOwned) (hc : m.Consistent) :
    (∀ s, m.deleteStops.Owns s ↔ (m.Owns s ∧ s ∉ m.selectedStops ∧ s ≠ m.currentStop)) ∧
    (∀ s, m.deleteStops.Owns s →
      m.deleteStops.position s = m.position s ∧ m.deleteStops.stopColor s = m.stopColor s) ∧
    m.deleteStops.selectedStops = [] ∧
    m.deleteStops.currentStop = 0 ∧
    m.deleteStops.Consistent := by
  have hs1 : (m.selectedStops.foldl Model.removeStop m).SelectionOwned :=
    foldl_preserves Model.SelectionOwned _
      (fun m' s h => selectionOwned_preserved.removeStop m' s h) _ m hs
  have hc1 : (m.selectedStops.foldl Model.removeStop m).Consistent :=
    foldl_preserves Model.Consistent _ (fun m' s h => removeStop_consistent m' s h) _ m hc
  have hown1 := foldl_removeStop_owns_iff m.selectedStops m
  have hcur1 := foldl_removeStop_currentStop m.selectedStops m
  have hsel1 : (m.selectedStops.foldl Model.removeStop m).selectedStops = [] := by
    apply List.eq_nil_iff_forall_not_mem.2
    intro s h
    have := foldl_removeStop_selectedStops m.selectedStops m hs s h
    exact this.2 this.1
  have hobs1 := foldl_removeStop_observe m.selectedStops m
  have hcurcase : ((m.selectedStops.foldl Model.removeStop m).currentStop = 0 ∧
        (m.currentStop ∈ m.selectedStops ∨ m.currentStop = 0)) ∨
      ((m.selectedStops.foldl Model.removeStop m).currentStop = m.currentStop ∧
        m.currentStop ≠ 0 ∧ m.currentStop ∉ m.selectedStops) := by
    by_cases hmem : m.currentStop ∈ m.selectedStops
    · exact Or.inl ⟨hcur1.2.1 hmem (hs.1 _ hmem), Or.inl hmem⟩
    · by_cases h0 : m.currentStop = 0
      · exact Or.inl ⟨hcur1.2.2 h0, Or.inr h0⟩
      · exact Or.inr ⟨hcur1.1 hmem, h0, hmem⟩
  have hown : ∀ s, m.deleteStops.Owns s ↔
      (m.Owns s ∧ s ∉ m.selectedStops ∧ s ≠ m.currentStop) := by
    intro s
    rw [deleteStops_eq]
    rcases hcurcase with ⟨h0, hwhy⟩ | ⟨hsame, hne0, hnmem⟩
    · rw [if_neg (not_not.2 h0), hown1]
      constructor
      · rintro ⟨ho, hns⟩
        refine ⟨ho, hns, ?_⟩
        rcases hwhy with h | h
        · intro hsc; exact hns (hsc ▸ h)
        · rw [h]; exact (hv s ho).1
      · rintro ⟨ho, hns, _⟩
        exact ⟨ho, hns⟩
    · rw [if_pos (by rw [hsame]; exact hne0), removeStop_owns_iff, hown1, hsame]
      tauto
  refine ⟨hown, ?_, ?_, ?_, ?_⟩
  · intro s hso
    obtain ⟨_, hns, hnc⟩ := (hown s).1 hso
    rw [deleteStops_eq]
    rcases hcurcase with ⟨h0, _⟩ | ⟨hsame, hne0, _⟩
    · rw [if_neg (not_not.2 h0)]
      exact hobs1 s hns
    · rw [if_pos (by rw [hsame]; exact hne0), hsame, removeStop_position _ _ _ hnc,
        removeStop_stopColor _ _ _ hnc]
      exact hobs1 s hns
  · rw [deleteStops_eq]
    split_ifs
    · apply List.eq_nil_iff_forall_not_mem.2
      intro s h
      have := (removeStop_selectedStops _ _ s h).1
      rw [hsel1] at this
      exact List.not_mem_nil _ this
    · exact hsel1
  · rw [deleteStops_eq]
    split_ifs with h
    · rcases hs1.2 with h0 | ho
      · exact absurd h0 h
      · exact (removeStop_currentStop _ _).1 ho rfl
    · exact not_not.1 h
  · rw [deleteStops_eq]
    split_ifs
    · exact removeStop_consistent _ _ hc1
    · exact hc1

/-- C21 at a concrete input: with stop 1 at 0.1 and stop 2 at 0.5, nothing selected and
stop 2 current, `deleteStops()` removes the current stop 2 and keeps stop 1 at 0.1. -/
theorem deleteStops_removes_selected_and_current_witness :
    (dragModel (1/10) (1/2) [] 2).PointersValid ∧
    (dragModel (1/10) (1/2) [] 2).SelectionOwned ∧
    (dragModel (1/10) (1/2) [] 2).Consistent ∧
    (dragModel (1/10) (1/2) [] 2).deleteStops.Owns 1 ∧
    ¬ (dragModel (1/10) (1/2) [] 2).deleteStops.Owns 2 ∧
    (dragModel (1/10) (1/2) [] 2).deleteStops.position 1 = 1/10 ∧
    (dragModel (1/10) (1/2) [] 2).deleteStops.currentStop = 0 :=
  have hwf := dragModel_wellFormed (1/10) (1/2) [] 2
  have hc := dragModel_consistent (1/10) (1/2) [] 2
  have h := deleteStops_removes_selected_and_current _ hwf.2.1 hwf.2.2.1 hc
  have ho1 : (dragModel (1/10) (1/2) [] 2).deleteStops.Owns 1 :=
    (h.1 1).2 ⟨dragModel_displacing_facts.2.2.1,
      by rw [dragModel_displacing_facts.2.1]; simp,
      by rw [dragModel_displacing_facts.1]; decide⟩
  ⟨hwf.2.1, hwf.2.2.1, hc, ho1,
    fun ho2 => ((h.1 2).1 ho2).2.2 dragModel_displacing_facts.1.symm,
    ((h.2.1 1 ho1).1).trans dragModel_displacing_facts.2.2.2.2,
    h.2.2.2.1⟩

/-! ## `flipAll` twice -/

theorem Assoc.ordered_ext {β : Type} (l1 l2 : List (ℚ × β)) (h1 : Assoc.Ordered l1)
    (h2 : Assoc.Ordered l2) (hmem : ∀ x, x ∈ l1 ↔ x ∈ l2) : l1 = l2 := by
  have hnd : ∀ l : List (ℚ × β), Assoc.Ordered l → l.Nodup := by
    intro l hl
    exact List.Pairwise.imp (fun h heq => by rw [heq] at h; exact lt_irrefl _ h) hl
  have hperm : l1.Perm l2 := (List.perm_ext_iff_of_nodup (hnd l1 h1) (hnd l2 h2)).2 hmem
  haveI : IsAntisymm (ℚ × β) (fun a b => a.1 < b.1) :=
    ⟨fun a b hab hba => absurd hab (not_lt_of_gt hba)⟩
  exact List.eq_of_perm_of_sorted hperm h1 h2

theorem flipAll_effect (m : Model) (hwf : m.WellFormed) (hc : m.Consistent)
    (hexact : ∀ e ∈ m.stops, roundToDouble (1 - e.1) = 1 - e.1) :
    m.flipAll.WellFormed ∧ m.flipAll.Consistent ∧
    (∀ s, m.flipAll.Owns s ↔ m.Owns s) ∧
    (∀ s, m.Owns s → m.flipAll.position s = 1 - m.position s) ∧
    (∀ s, m.flipAll.stopColor s = m.stopColor s) ∧
    m.flipAll.d_ptr.m_selection = m.d_ptr.m_selection ∧
    m.flipAll.d_ptr.m_current = m.d_ptr.m_current := by
  have hwf' : m.flipAll.WellFormed := preserved_flipAll wellFormed_preserved m hwf
  obtain ⟨F, st, inv, hst⟩ := flipAll_inv m hwf hc hexact
  rw [hst] at hwf' ⊢
  refine ⟨hwf', inv.cons, inv.owns, ?_, inv.colour, inv.sel, inv.cur⟩
  intro s ho
  have hk := (owned_index_entries m hc s ho).2
  have hF : F (m.position s) :=
    inv.processed (m.position s, s) (List.mem_reverse.2 (Assoc.mem_of_find? _ _ _ hk))
  exact inv.pos_flipped _ s hk hF

/-- When every key of the position index is a double whose difference `1.0 - key` is a
double too (nothing is rounded in either call), in a model with consistent indices whose
positions lie in [0,1], after two calls of `flipAll()` in a row the position index is the
one before the first call, the reverse index binds every stop as before, every owned stop
has its original position and every stop its original colour, and the selection and the
current stop are as before. -/
theorem flipAll_exact_twice_restores (m : Model) (hwf : m.WellFormed) (hc : m.Consistent)
    (hexact : ∀ e ∈ m.stops, roundToDouble (1 - e.1) = 1 - e.1)
    (hdouble : ∀ e ∈ m.stops, roundToDouble e.1 = e.1) :
    m.flipAll.flipAll.stops = m.stops ∧
    (∀ s, Assoc.find? m.flipAll.flipAll.d_ptr.m_stopToPos s = Assoc.find? m.d_ptr.m_stopToPos s) ∧
    (∀ s, m.Owns s → m.flipAll.flipAll.Owns s ∧ m.flipAll.flipAll.position s = m.position s) ∧
    (∀ s, m.flipAll.flipAll.stopColor s = m.stopColor s) ∧
    m.flipAll.flipAll.d_ptr.m_selection = m.d_ptr.m_selection ∧
    m.flipAll.flipAll.currentStop = m.currentStop := by
  have hexact1 : ∀ e ∈ m.flipAll.stops, roundToDouble (1 - e.1) = 1 - e.1 := by
    intro e he
    exact hdouble (1 - e.1, e.2) ((flipAll_mem m hwf hc hexact e.1 e.2).1 he)
  obtain ⟨hwf1, hc1, ho1, hp1, hcol1, hsel1, hcur1⟩ := flipAll_effect m hwf hc hexact
  obtain ⟨hwf2, hc2, ho2, hp2, hcol2, hsel2, hcur2⟩ := flipAll_effect m.flipAll hwf1 hc1 hexact1
  have hpos : ∀ s, m.Owns s → m.flipAll.flipAll.position s = m.position s := by
    intro s ho
    rw [hp2 s ((ho1 s).2 ho), hp1 s ho]
    ring
  refine ⟨?_, ?_, ?_, ?_, hsel2.trans hsel1, hcur2.trans hcur1⟩
  · apply Assoc.ordered_ext _ _ hwf2.1 hwf.1
    intro x
    have h2 := flipAll_mem m.flipAll hwf1 hc1 hexact1 x.1 x.2
    have h1 := flipAll_mem m hwf hc hexact (1 - x.1) x.2
    rw [sub_sub_cancel] at h1
    exact h2.trans h1
  · intro s
    by_cases ho : m.Owns s
    · have ho'' : m.flipAll.flipAll.Owns s := (ho2 s).2 ((ho1 s).2 ho)
      rw [(owned_index_entries _ hc2 s ho'').1, (owned_index_entries m hc s ho).1, hpos s ho]
    · have hno : ¬ m.flipAll.flipAll.Owns s := fun h => ho ((ho1 s).1 ((ho2 s).1 h))
      have e1 : Assoc.find? m.d_ptr.m_stopToPos s = none :=
        (Assoc.contains_eq_false_iff _ _).1 (by simpa [Model.Owns] using ho)
      have e2 : Assoc.find? m.flipAll.flipAll.d_ptr.m_stopToPos s = none :=
        (Assoc.contains_eq_false_iff _ _).1 (by simpa [Model.Owns] using hno)
      rw [e1, e2]
  · intro s ho
    exact ⟨(ho2 s).2 ((ho1 s).2 ho), hpos s ho⟩
  · intro s
    rw [hcol2, hcol1]

/-! ## `clone` -/

theorem Assoc.mem_insertOrdered_iff {β : Type} (l : List (ℚ × β)) (k : ℚ) (v : β)
    (hord : Assoc.Ordered l) (hk : ∀ e ∈ l, e.1 ≠ k) (x : ℚ × β) :
    x ∈ Assoc.insertOrdered l k v ↔ x = (k, v) ∨ x ∈ l := by
  constructor
  · exact Assoc.mem_insertOrdered l k v x
  · intro h
    have hx : Assoc.find? (Assoc.insertOrdered l k v) x.1 = some x.2 := by
      rw [Assoc.find?_insertOrdered]
      rcases h with h | h
      · rw [h]; simp
      · rw [if_neg (hk x h)]
        exact Assoc.find?_of_mem_ordered l x.1 x.2 hord h
    exact Assoc.mem_of_find? _ _ _ hx

theorem cloneInv_init (m : Model) : CloneInv m [] Model.empty where
  valid := empty_pointersValid
  cons := empty_consistent
  ordered := List.Pairwise.nil
  sel := rfl
  cur := rfl
  keys := by intro k; simp [Model.stops, Model.empty]
  colours := by intro k s s' h; simp at h

theorem cloneInv_step (m : Model) (P : List (ℚ × StopPtr)) (μ : Model) (inv : CloneInv m P μ)
    (k : ℚ) (s : StopPtr) (h0 : 0 ≤ k) (h1 : k ≤ 1) (hnew : ∀ e ∈ P, e.1 ≠ k) :
    CloneInv m (P ++ [(k, s)]) (μ.addStop k (m.stopColor s)).1 := by
  have hfree : ∀ e ∈ μ.stops, e.1 ≠ k := by
    intro e he hek
    obtain ⟨s0, hs0⟩ := (inv.keys e.1).1 ⟨e.2, he⟩
    exact hnew _ hs0 hek
  have hcl : clamp01 k = k := clamp01_of_mem k h0 h1
  have hcon : Assoc.contains μ.d_ptr.m_posToStop (clamp01 k) = false := by
    rw [hcl]; exact not_contains_of_keys_ne μ.stops k hfree
  have hord' : Assoc.Ordered (μ.addStop k (m.stopColor s)).1.stops :=
    ordered_preserved.addStop μ k _ inv.ordered
  have hexp := addStop_of_not_contains μ k (m.stopColor s) hcon
  rw [hcl] at hexp
  have hheap : (μ.addStop k (m.stopColor s)).1.heap =
      heapSetColor (heapSetPosition (μ.heap ++ [(newAddress μ.heap, ({} : QtGradientStopPrivate))])
        (newAddress μ.heap) k) (newAddress μ.heap) (m.stopColor s) := by rw [hexp]
  have hd : (μ.addStop k (m.stopColor s)).1.d_ptr = { μ.d_ptr with
      m_posToStop := Assoc.insertOrdered μ.d_ptr.m_posToStop k (newAddress μ.heap)
      m_stopToPos := Assoc.set μ.d_ptr.m_stopToPos (newAddress μ.heap) k } := by rw [hexp]
  have hstops : (μ.addStop k (m.stopColor s)).1.stops =
      Assoc.insertOrdered μ.stops k (newAddress μ.heap) := by
    unfold Model.stops; rw [hd]
  have hmem := Assoc.mem_insertOrdered_iff μ.stops k (newAddress μ.heap) inv.ordered hfree
  have hcolour : ∀ y, (μ.addStop k (m.stopColor s)).1.stopColor y =
      if y = newAddress μ.heap then m.stopColor s else μ.stopColor y := by
    intro y
    show (deref (μ.addStop k (m.stopColor s)).1.heap y).m_color = _
    unfold deref
    rw [hheap, find?_addStopHeap]
    split_ifs <;> rfl
  exact {
    valid := addStop_pointersValid μ k _ inv.valid
    cons := addStop_consistent μ k _ inv.valid inv.cons
    ordered := hord'
    sel := by rw [hd]; exact inv.sel
    cur := by rw [hd]; exact inv.cur
    keys := by
      intro k'
      rw [hstops]
      constructor
      · rintro ⟨s', hs'⟩
        rcases (hmem _).1 hs' with h | h
        · exact ⟨s, by rw [(Prod.mk.inj h).1]; simp⟩
        · obtain ⟨s0, hs0⟩ := (inv.keys k').1 ⟨s', h⟩
          exact ⟨s0, List.mem_append_left _ hs0⟩
      · rintro ⟨s0, hs0⟩
        rcases List.mem_append.1 hs0 with h | h
        · obtain ⟨s', hs'⟩ := (inv.keys k').2 ⟨s0, h⟩
          exact ⟨s', (hmem _).2 (Or.inr hs')⟩
        · rw [List.mem_singleton] at h
          exact ⟨newAddress μ.heap, (hmem _).2 (Or.inl (by rw [(Prod.mk.inj h).1]))⟩
    colours := by
      intro k' s0 s' hP hμ
      rw [hstops] at hμ
      rw [hcolour]
      rcases (hmem _).1 hμ with h | h
      · obtain ⟨hk', hs'⟩ := Prod.mk.inj h
        rw [if_pos hs']
        rcases List.mem_append.1 hP with h2 | h2
        · exact absurd hk' (hnew _ h2)
        · rw [List.mem_singleton] at h2
          rw [(Prod.mk.inj h2).2]
      · have hk' : k' ≠ k := hfree _ h
        have hown : μ.Owns s' :=
          key_owned μ inv.cons k' s' (Assoc.find?_of_mem_ordered _ _ _ inv.ordered h)
        have hne : s' ≠ newAddress μ.heap := by
          intro heq
          have := (inv.valid s' hown).2
          rw [heq, newAddress_not_live] at this
          exact Bool.noConfusion this
        rw [if_neg hne]
        rcases List.mem_append.1 hP with h2 | h2
        · exact inv.colours k' s0 s' h2 h
        · rw [List.mem_singleton] at h2
          exact absurd (Prod.mk.inj h2).1 hk' }

theorem cloneInv_foldl (m : Model) :
    ∀ (Q P : List (ℚ × StopPtr)) (μ : Model), CloneInv m P μ →
      (P ++ Q).Pairwise (fun a b => a.1 ≠ b.1) → (∀ e ∈ Q, 0 ≤ e.1 ∧ e.1 ≤ 1) →
      CloneInv m (P ++ Q)
        (Q.foldl (fun model it => (model.addStop it.1 (m.stopColor it.2)).1) μ) := by
  intro Q
  induction Q with
  | nil => intro P μ inv _ _; simpa using inv
  | cons e t ih =>
    intro P μ inv hnd hr
    have hPQ : P ++ e :: t = (P ++ [e]) ++ t := by simp
    rw [List.foldl_cons, hPQ]
    have hnd' := hnd
    rw [List.pairwise_append] at hnd'
    refine ih (P ++ [e]) _ ?_ (hPQ ▸ hnd) (fun x hx => hr x (List.mem_cons_of_mem _ hx))
    exact cloneInv_step m P μ inv e.1 e.2 (hr e (List.mem_cons_self _ _)).1
      (hr e (List.mem_cons_self _ _)).2 (fun x hx => hnd'.2.2 x hx e (List.mem_cons_self _ _))

theorem clone_inv (m : Model) (hord : Assoc.Ordered m.stops)
    (hrange : ∀ e ∈ m.stops, 0 ≤ e.1 ∧ e.1 ≤ 1) : CloneInv m m.stops m.clone := by
  have h := cloneInv_foldl m m.stops [] Model.empty (cloneInv_init m)
    (by simpa using hord.imp (fun h => ne_of_lt h)) hrange
  simpa [Model.clone] using h

theorem color_congr (m1 m2 : Model) (h1 : Assoc.Ordered m1.stops) (h2 : Assoc.Ordered m2.stops)
    (hto : ∀ k s, (k, s) ∈ m1.stops → ∃ s', (k, s') ∈ m2.stops ∧ m2.stopColor s' = m1.stopColor s)
    (hback : ∀ k s', (k, s') ∈ m2.stops → ∃ s, (k, s) ∈ m1.stops) (pos : ℚ) :
    m2.color pos = m1.color pos := by
  by_cases hne : m1.stops = []
  · have hne2 : m2.stops = [] := by
      apply List.eq_nil_iff_forall_not_mem.2
      intro e he
      obtain ⟨s, hs⟩ := hback e.1 e.2 he
      rw [hne] at hs
      exact List.not_mem_nil _ hs
    unfold Model.color
    simp [hne, hne2]
  by_cases hkey : Assoc.contains m1.stops pos = true
  · obtain ⟨s, hs⟩ := (Assoc.contains_iff _ _).1 hkey
    obtain ⟨s', hs', hcol⟩ := hto pos s (Assoc.mem_of_find? _ _ _ hs)
    rw [color_of_key m1 pos s hs,
      color_of_key m2 pos s' (Assoc.find?_of_mem_ordered _ _ _ h2 hs'), hcol]
  · have hnot : ∀ e ∈ m1.stops, e.1 ≠ pos := by
      intro e he h
      apply hkey
      exact (Assoc.contains_iff _ _).2
        ⟨e.2, Assoc.find?_of_mem_ordered _ _ _ h1 (by rw [← h]; exact he)⟩
    have hnot' : ∀ e ∈ m2.stops, e.1 ≠ pos := by
      intro e he h
      obtain ⟨s, hs⟩ := hback e.1 e.2 he
      exact hnot _ hs h
    obtain ⟨l1, l2, hl, hb1, hb2⟩ := Assoc.split_at m1.stops pos h1 hnot
    have hside : ∀ e ∈ m2.stops, (∃ s, (e.1, s) ∈ l1) ∨ (∃ s, (e.1, s) ∈ l2) := by
      intro e he
      obtain ⟨s, hs⟩ := hback e.1 e.2 he
      rw [hl] at hs
      rcases List.mem_append.1 hs with h | h
      · exact Or.inl ⟨s, h⟩
      · exact Or.inr ⟨s, h⟩
    rcases List.eq_nil_or_concat l1 with hl1 | ⟨l1', a, hl1⟩
    · subst hl1
      cases l2 with
      | nil => exact absurd hl hne
      | cons b l2' =>
        obtain ⟨kb, sb⟩ := b
        have hlt : pos < kb := hb2 _ (List.mem_cons_self _ _)
        have hp := List.pairwise_cons.1 (by rw [hl] at h1; simpa using h1 :
          Assoc.Ordered ((kb, sb) :: l2'))
        obtain ⟨sb', hsb', hcol⟩ := hto kb sb (by rw [hl]; simp)
        rw [color_below m1 pos kb sb l2' (by simpa using hl) hnot hlt,
          color_of_least m2 pos kb sb' h2 hsb' ?_ hlt, hcol]
        intro e he
        rcases hside e he with ⟨s, hs⟩ | ⟨s, hs⟩
        · simp at hs
        · rcases List.mem_cons.1 hs with h3 | h3
          · exact le_of_eq (congrArg Prod.fst h3).symm
          · exact le_of_lt (hp.1 (e.1, s) h3)
    · rw [List.concat_eq_append] at hl1
      subst hl1
      obtain ⟨ka, sa⟩ := a
      have hgt : ka < pos := hb1 (ka, sa) (by simp)
      have hordl := List.pairwise_append.1 (by rw [hl] at h1; exact h1 :
        Assoc.Ordered ((l1' ++ [(ka, sa)]) ++ l2))
      have hordl1 := List.pairwise_append.1 hordl.1
      have hl1lt : ∀ e ∈ l1', e.1 < ka := fun e he =>
        hordl1.2.2 e he (ka, sa) (List.mem_singleton_self _)
      have hl1le : ∀ k s, (k, s) ∈ l1' ++ [(ka, sa)] → k ≤ ka := by
        intro k s hks
        rcases List.mem_append.1 hks with h3 | h3
        · exact le_of_lt (hl1lt _ h3)
        · exact le_of_eq (congrArg Prod.fst (List.mem_singleton.1 h3))
      obtain ⟨sa', hsa', hcola⟩ := hto ka sa (by rw [hl]; simp)
      cases l2 with
      | nil =>
        rw [color_above m1 pos ka sa l1' (by simpa using hl) hl1lt hnot hgt,
          color_of_greatest m2 pos ka sa' h2 hsa' ?_ hgt, hcola]
        intro e he
        rcases hside e he with ⟨s, hs⟩ | ⟨s, hs⟩
        · exact hl1le _ _ hs
        · simp at hs
      | cons b l2' =>
        obtain ⟨kb, sb⟩ := b
        have hlt : pos < kb := hb2 _ (List.mem_cons_self _ _)
        have hordl2 := List.pairwise_cons.1 hordl.2.1
        have hl' : m1.stops = l1' ++ (ka, sa) :: (kb, sb) :: l2' := by rw [hl]; simp
        obtain ⟨sb', hsb', hcolb⟩ := hto kb sb (by rw [hl']; simp)
        rw [color_between m1 pos ka kb sa sb l1' l2' hl' hl1lt hnot hgt hlt,
          color_of_neighbours m2 pos ka kb sa' sb' h2 hnot' hsa' hsb' hgt hlt ?_ ?_,
          hcola, hcolb]
        · intro e he hlt'
          rcases hside e he with ⟨s, hs⟩ | ⟨s, hs⟩
          · exact hl1le _ _ hs
          · have := hb2 _ hs
            simp only at this
            linarith
        · intro e he hgt'
          rcases hside e he with ⟨s, hs⟩ | ⟨s, hs⟩
          · have := hb1 _ hs
            simp only at this
            linarith
          · rcases List.mem_cons.1 hs with h3 | h3
            · exact le_of_eq (congrArg Prod.fst h3).symm
            · exact le_of_lt (hordl2.1 (e.1, s) h3)

/-- C22: for a model whose position index is in key order with all positions in [0,1],
`clone()` returns a model whose position index has exactly the same positions, the stop
at each position having the colour of the original stop at that position, so that
`color(pos)` agrees on both models for every `pos`; in the new model no stop is selected
and the current stop is null, whatever the selection and the current stop of the original
are, and its indices are consistent.  (The original is the argument `m`, which no call
writes.) -/
theorem clone_copies_stops (m : Model) (hord : Assoc.Ordered m.stops)
    (hrange : ∀ e ∈ m.stops, 0 ≤ e.1 ∧ e.1 ≤ 1) :
    (∀ k, (∃ s', (k, s') ∈ m.clone.stops) ↔ (∃ s, (k, s) ∈ m.stops)) ∧
    (∀ k s s', (k, s) ∈ m.stops → (k, s') ∈ m.clone.stops →
      m.clone.stopColor s' = m.stopColor s) ∧
    (∀ pos, m.clone.color pos = m.color pos) ∧
    m.clone.selectedStops = [] ∧
    m.clone.currentStop = 0 ∧
    m.clone.Consistent := by
  have inv := clone_inv m hord hrange
  refine ⟨inv.keys, inv.colours, ?_, ?_, inv.cur, inv.cons⟩
  · intro pos
    apply color_congr m m.clone hord inv.ordered
    · intro k s hks
      obtain ⟨s', hs'⟩ := (inv.keys k).2 ⟨s, hks⟩
      exact ⟨s', hs', inv.colours k s s' hks hs'⟩
    · intro k s' hks
      exact (inv.keys k).1 ⟨s', hks⟩
  · unfold Model.selectedStops
    rw [inv.sel]
    rfl

/-- C22 at a concrete input: the clone of the model with stop 1 at 0.1, stop 2 at 0.5,
stop 1 selected and stop 2 current has the same colour at 0.3, no selected stop and no
current stop. -/
theorem clone_copies_stops_witness :
    Assoc.Ordered (dragModel (1/10) (1/2) [1, 2] 2).stops ∧
    (∀ e ∈ (dragModel (1/10) (1/2) [1, 2] 2).stops, 0 ≤ e.1 ∧ e.1 ≤ 1) ∧
    (dragModel (1/10) (1/2) [1, 2] 2).clone.color (3/10)
      = (dragModel (1/10) (1/2) [1, 2] 2).color (3/10) ∧
    (dragModel (1/10) (1/2) [1, 2] 2).selectedStops = [1, 2] ∧
    (dragModel (1/10) (1/2) [1, 2] 2).clone.selectedStops = [] ∧
    (dragModel (1/10) (1/2) [1, 2] 2).currentStop = 2 ∧
    (dragModel (1/10) (1/2) [1, 2] 2).clone.currentStop = 0 :=
  have hwf := dragModel_wellFormed (1/10) (1/2) [1, 2] 2
  have h := clone_copies_stops _ hwf.1 hwf.2.2.2.1
  ⟨hwf.1, hwf.2.2.2.1, h.2.2.1 (3/10), dragModel_clamped_facts.2.1, h.2.2.2.1,
    dragModel_clamped_facts.1, h.2.2.2.2.1⟩

/-! ## `flipAll` on doubles -/

theorem roundToDouble_eval (x : ℚ) (e n : Int) (hpos : 0 < x) (h1 : (2 : ℚ) ^ e ≤ x)
    (h2 : x < (2 : ℚ) ^ (e + 1)) (he : -1022 ≤ e)
    (hn : roundHalfEven (x / 2 ^ (e - 52)) = n) :
    roundToDouble x = n * 2 ^ (e - 52) := by
  unfold roundToDouble
  rw [ulpExponent_eq x e hpos h1 h2 he, hn]

theorem double_literals :
    roundToDouble (1/5) = double_0_2 ∧ roundToDouble (4/5) = double_0_8 ∧
    roundToDouble (3/10) = double_0_3 ∧ roundToDouble (7/10) = double_0_7 := by
  refine ⟨?_, ?_, ?_, ?_⟩
  · rw [roundToDouble_eval (1/5) (-3) 7205759403792794 (by norm_num) (by norm_num) (by norm_num)
      (by norm_num) (roundHalfEven_of_gt _ 7205759403792793 (by norm_num) (by norm_num))]
    norm_num [double_0_2]
  · rw [roundToDouble_eval (4/5) (-1) 7205759403792794 (by norm_num) (by norm_num) (by norm_num)
      (by norm_num) (roundHalfEven_of_gt _ 7205759403792793 (by norm_num) (by norm_num))]
    norm_num [double_0_8]
  · rw [roundToDouble_eval (3/10) (-2) 5404319552844595 (by norm_num) (by norm_num) (by norm_num)
      (by norm_num) (roundHalfEven_of_lt _ 5404319552844595 (by norm_num) (by norm_num))]
    norm_num [double_0_3]
  · rw [roundToDouble_eval (7/10) (-1) 6305039478318694 (by norm_num) (by norm_num) (by norm_num)
      (by norm_num) (roundHalfEven_of_lt _ 6305039478318694 (by norm_num) (by norm_num))]
    norm_num [double_0_7]

theorem round_one_sub_0_8 :
    roundToDouble (900719925474099 / 4503599627370496) = 900719925474099 / 4503599627370496 := by
  rw [roundToDouble_eval _ (-3) 7205759403792792 (by norm_num) (by norm_num) (by norm_num)
    (by norm_num) (roundHalfEven_of_lt _ 7205759403792792 (by norm_num) (by norm_num))]
  norm_num

theorem round_one_sub_0_2 :
    roundToDouble (14411518807585587 / 18014398509481984)
      = 3602879701896397 / 4503599627370496 := by
  rw [roundToDouble_eval _ (-1) 7205759403792794 (by norm_num) (by norm_num) (by norm_num)
    (by norm_num) (roundHalfEven_of_tie_odd _ 7205759403792793 (by norm_num) (by decide))]
  norm_num

theorem dragModel_0_2_0_8 :
    dragModel double_0_2 double_0_8 [] 0 =
      { heap := [(1, ⟨double_0_2, QColor.black⟩), (2, ⟨double_0_8, QColor.white⟩)]
        d_ptr := { m_posToStop := [(double_0_2, 1), (double_0_8, 2)],
                   m_stopToPos := [(1, double_0_2), (2, double_0_8)],
                   m_selection := [], m_current := 0 }
        emitted := (dragModel double_0_2 double_0_8 [] 0).emitted } := by
  norm_num [dragModel, Model.run, Model.call, Model.addStop, Model.empty, Assoc.contains,
    Assoc.find?, Model.newStop, newAddress, Assoc.keys, Model.setPosition, Model.setColor,
    heapSetPosition, heapSetColor, Assoc.insertOrdered, Assoc.set, Model.emit, Model.observe,
    Model.selectStop, Model.setCurrentStop, Model.currentStop, double_0_2, double_0_8]

theorem flipAll_0_2_0_8 :
    (dragModel double_0_2 double_0_8 [] 0).flipAll.stops
      = [(900719925474099 / 4503599627370496, 1), (double_0_2, 2)] ∧
    (dragModel double_0_2 double_0_8 [] 0).flipAll.position 1
      = 900719925474099 / 4503599627370496 ∧
    (dragModel double_0_2 double_0_8 [] 0).flipAll.position 2 = double_0_2 ∧
    (dragModel double_0_2 double_0_8 [] 0).flipAll.stopColor 1 = QColor.black ∧
    (dragModel double_0_2 double_0_8 [] 0).flipAll.stopColor 2 = QColor.white := by
  rw [dragModel_0_2_0_8]
  norm_num [Model.flipAll, Model.flipAllStep, doubleSub, Model.stops, double_0_2, double_0_8,
    round_one_sub_0_8, round_one_sub_0_2, Assoc.contains, Assoc.find?, Model.swapStops,
    Model.moveStop, Model.position, Model.stopColor, deref, Model.emit, Model.observe,
    Model.setPosition, heapSetPosition, Assoc.set, Assoc.remove, Assoc.insertOrdered]

/-- C14: the code does not meet the claim on the claim's own example.  With stop 1 at the
double 0.2 and stop 2 at the double 0.8, `flipAll()` visits 0.8 first, computes
`1.0 - 0.8 = 0.19999999999999996`, which is not a key of the snapshot, and moves stop 2
there; for 0.2 it computes `1.0 - 0.2`, which rounds to the double 0.8, finds that key in
the stale snapshot and swaps stop 1 with stop 2.  Stop 1 ends at 0.19999999999999996 (below
1/4, where the claim has it at 0.8) and stop 2 at 0.2. -/
theorem flipAll_rounding_breaks_mirror :
    roundToDouble (1/5) = double_0_2 ∧ roundToDouble (4/5) = double_0_8 ∧
    (dragModel double_0_2 double_0_8 [] 0).WellFormed ∧
    (dragModel double_0_2 double_0_8 [] 0).Consistent ∧
    (dragModel double_0_2 double_0_8 [] 0).position 1 = double_0_2 ∧
    (dragModel double_0_2 double_0_8 [] 0).position 2 = double_0_8 ∧
    (dragModel double_0_2 double_0_8 [] 0).flipAll.position 1
      = 900719925474099 / 4503599627370496 ∧
    (dragModel double_0_2 double_0_8 [] 0).flipAll.position 2 = double_0_2 ∧
    (dragModel double_0_2 double_0_8 [] 0).flipAll.position 1 < 1 / 4 := by
  refine ⟨double_literals.1, double_literals.2.1, dragModel_wellFormed _ _ _ _,
    dragModel_consistent _ _ _ _, ?_, ?_, flipAll_0_2_0_8.2.1, flipAll_0_2_0_8.2.2.1, ?_⟩
  · rw [dragModel_0_2_0_8]; simp [Model.position, deref, Assoc.find?]
  · rw [dragModel_0_2_0_8]; simp [Model.position, deref, Assoc.find?]
  · rw [flipAll_0_2_0_8.2.1]; norm_num

/-- C15: the code does not meet the claim on stops at the doubles 0.2 (black) and 0.8
(white).  After `flipAll()` both stops lie at or below 0.2, so the colour at 0.8 is white,
the colour of the highest stop, while the colour at `1 - 0.8` before the call is black. -/
theorem flipAll_rounding_breaks_mirrored_color :
    (dragModel double_0_2 double_0_8 [] 0).Consistent ∧
    (dragModel double_0_2 double_0_8 [] 0).stops ≠ [] ∧
    (dragModel double_0_2 double_0_8 [] 0).flipAll.color double_0_8 = QColor.white ∧
    (dragModel double_0_2 double_0_8 [] 0).color (1 - double_0_8) = QColor.black ∧
    (dragModel double_0_2 double_0_8 [] 0).color (roundToDouble (1 - double_0_8))
      = QColor.black := by
  have hstops : (dragModel double_0_2 double_0_8 [] 0).stops
      = [(double_0_2, 1), (double_0_8, 2)] := by
    rw [dragModel_0_2_0_8]; rfl
  have hblack : (dragModel double_0_2 double_0_8 [] 0).stopColor 1 = QColor.black := by
    rw [dragModel_0_2_0_8]; simp [Model.stopColor, deref, Assoc.find?]
  have hbefore : (dragModel double_0_2 double_0_8 [] 0).color (1 - double_0_8)
      = QColor.black := by
    rw [color_below _ (1 - double_0_8) double_0_2 1 [(double_0_8, 2)] hstops
      (by rw [hstops]; intro e he; simp at he; rcases he with h | h <;>
        (rw [h]; norm_num [double_0_2, double_0_8]))
      (by norm_num [double_0_2, double_0_8]), hblack]
  have hround : roundToDouble (1 - double_0_8) = 1 - double_0_8 := by
    have : (1 : ℚ) - double_0_8 = 900719925474099 / 4503599627370496 := by
      norm_num [double_0_8]
    rw [this]; exact round_one_sub_0_8
  refine ⟨dragModel_consistent _ _ _ _, by rw [hstops]; simp, ?_, hbefore, by rw [hround]; exact hbefore⟩
  rw [color_above _ double_0_8 double_0_2 2 [(900719925474099 / 4503599627370496, 1)]
    (by rw [flipAll_0_2_0_8.1]; rfl)
    (by intro e he; simp at he; rw [he]; norm_num [double_0_2])
    (by rw [flipAll_0_2_0_8.1]; intro e he; simp at he; rcases he with h | h <;>
      (rw [h]; norm_num [double_0_2, double_0_8]))
    (by norm_num [double_0_2, double_0_8]), flipAll_0_2_0_8.2.2.2.2]

theorem round_one_sub_0_7 :
    roundToDouble (1351079888211149 / 4503599627370496)
      = 1351079888211149 / 4503599627370496 := by
  rw [roundToDouble_eval _ (-2) 5404319552844596 (by norm_num) (by norm_num) (by norm_num)
    (by norm_num) (roundHalfEven_of_lt _ 5404319552844596 (by norm_num) (by norm_num))]
  norm_num

theorem roundHalfEven_of_tie_even (x : ℚ) (n : Int) (h1 : x - n = 1 / 2) (heven : n % 2 = 0) :
    roundHalfEven x = n := by
  have hf : Int.floor x = n := Int.floor_eq_iff.2 ⟨by linarith, by linarith⟩
  unfold roundHalfEven
  rw [hf, if_neg (by rw [h1]; exact lt_irrefl _), if_neg (by rw [h1]; exact lt_irrefl _),
    if_pos heven]

theorem round_one_sub_0_3 :
    roundToDouble (12610078956637389 / 18014398509481984)
      = 3152519739159347 / 4503599627370496 := by
  rw [roundToDouble_eval _ (-1) 6305039478318694 (by norm_num) (by norm_num) (by norm_num)
    (by norm_num) (roundHalfEven_of_tie_even _ 6305039478318694 (by norm_num) (by decide))]
  norm_num

theorem round_0_7 :
    roundToDouble (3152519739159347 / 4503599627370496)
      = 3152519739159347 / 4503599627370496 := by
  rw [roundToDouble_eval _ (-1) 6305039478318694 (by norm_num) (by norm_num) (by norm_num)
    (by norm_num) (roundHalfEven_of_lt _ 6305039478318694 (by norm_num) (by norm_num))]
  norm_num

theorem dragModel_0_3_0_7 :
    dragModel double_0_3 double_0_7 [] 0 =
      { heap := [(1, ⟨double_0_3, QColor.black⟩), (2, ⟨double_0_7, QColor.white⟩)]
        d_ptr := { m_posToStop := [(double_0_3, 1), (double_0_7, 2)],
                   m_stopToPos := [(1, double_0_3), (2, double_0_7)],
                   m_selection := [], m_current := 0 }
        emitted := (dragModel double_0_3 double_0_7 [] 0).emitted } := by
  norm_num [dragModel, Model.run, Model.call, Model.addStop, Model.empty, Assoc.contains,
    Assoc.find?, Model.newStop, newAddress, Assoc.keys, Model.setPosition, Model.setColor,
    heapSetPosition, heapSetColor, Assoc.insertOrdered, Assoc.set, Model.emit, Model.observe,
    Model.selectStop, Model.setCurrentStop, Model.currentStop, double_0_3, double_0_7]

theorem flipAll_0_3_0_7 :
    (dragModel double_0_3 double_0_7 [] 0).flipAll =
      { heap := [(1, ⟨1351079888211149 / 4503599627370496, QColor.black⟩),
                 (2, ⟨double_0_3, QColor.white⟩)]
        d_ptr := { m_posToStop := [(double_0_3, 2), (1351079888211149 / 4503599627370496, 1)],
                   m_stopToPos := [(1, 1351079888211149 / 4503599627370496), (2, double_0_3)],
                   m_selection := [], m_current := 0 }
        emitted := (dragModel double_0_3 double_0_7 [] 0).flipAll.emitted } := by
  rw [dragModel_0_3_0_7]
  norm_num [Model.flipAll, Model.flipAllStep, doubleSub, Model.stops, double_0_3, double_0_7,
    round_one_sub_0_7, round_one_sub_0_3, Assoc.contains, Assoc.find?, Model.swapStops,
    Model.moveStop, Model.position, Model.stopColor, deref, Model.emit, Model.observe,
    Model.setPosition, heapSetPosition, Assoc.set, Assoc.remove, Assoc.insertOrdered]

theorem flipAll_twice_0_3_0_7 :
    (dragModel double_0_3 double_0_7 [] 0).flipAll.flipAll.stops
      = [(double_0_3, 2), (double_0_7, 1)] ∧
    (dragModel double_0_3 double_0_7 [] 0).flipAll.flipAll.position 1 = double_0_7 ∧
    (dragModel double_0_3 double_0_7 [] 0).flipAll.flipAll.position 2 = double_0_3 := by
  rw [flipAll_0_3_0_7]
  norm_num [Model.flipAll, Model.flipAllStep, doubleSub, Model.stops, double_0_3, double_0_7,
    round_0_7, round_one_sub_0_3, Assoc.contains, Assoc.find?, Model.swapStops,
    Model.moveStop, Model.position, Model.stopColor, deref, Model.emit, Model.observe,
    Model.setPosition, heapSetPosition, Assoc.set, Assoc.remove, Assoc.insertOrdered]

/-- C25: the code does not meet the claim on stops at the doubles 0.3 and 0.7.  The first
`flipAll()` leaves stop 2 at 0.3 and stop 1 at 0.30000000000000004; the second moves
stop 1 to 0.7 and cannot move stop 2, whose target 0.7 is then taken.  After the two calls
stop 1 is at 0.7 and stop 2 at 0.3: the two stops have changed places. -/
theorem flipAll_twice_rounding_swaps_stops :
    roundToDouble (3/10) = double_0_3 ∧ roundToDouble (7/10) = double_0_7 ∧
    (dragModel double_0_3 double_0_7 [] 0).WellFormed ∧
    (dragModel double_0_3 double_0_7 [] 0).Consistent ∧
    (dragModel double_0_3 double_0_7 [] 0).stops = [(double_0_3, 1), (double_0_7, 2)] ∧
    (dragModel double_0_3 double_0_7 [] 0).position 1 = double_0_3 ∧
    (dragModel double_0_3 double_0_7 [] 0).position 2 = double_0_7 ∧
    (dragModel double_0_3 double_0_7 [] 0).flipAll.flipAll.stops
      = [(double_0_3, 2), (double_0_7, 1)] ∧
    (dragModel double_0_3 double_0_7 [] 0).flipAll.flipAll.position 1 = double_0_7 ∧
    (dragModel double_0_3 double_0_7 [] 0).flipAll.flipAll.position 2 = double_0_3 := by
  refine ⟨double_literals.2.2.1, double_literals.2.2.2, dragModel_wellFormed _ _ _ _,
    dragModel_consistent _ _ _ _, ?_, ?_, ?_, flipAll_twice_0_3_0_7.1, flipAll_twice_0_3_0_7.2.1,
    flipAll_twice_0_3_0_7.2.2⟩
  · rw [dragModel_0_3_0_7]; rfl
  · rw [dragModel_0_3_0_7]; simp [Model.position, deref, Assoc.find?]
  · rw [dragModel_0_3_0_7]; simp [Model.position, deref, Assoc.find?]

/-! ## `addStop` with a NaN position -/

/-- On a number, `RealModel.addStop` on the empty model stores the clamped position, as
`Model.addStop` does. -/
theorem realModel_addStop_num (x : ℚ) (c : QColor) :
    (RealModel.empty.addStop (.num x) c).1.m_posToStop = [(.num (clamp01 x), 1)] ∧
    (Model.empty.addStop x c).1.stops = [(clamp01 x, 1)] := by
  constructor
  · unfold RealModel.addStop RealModel.empty
    simp only [RealMap.find?, RealMap.insert, Option.isSome_none, Bool.false_eq_true, if_false,
      QReal.lt, decide_eq_true_eq, Assoc.keys, List.map_nil, List.foldr_nil, zero_add]
    unfold clamp01
    by_cases h0 : x < 0
    · have h1 : ¬ (1 : ℚ) < x := by linarith
      simp [h0, h1, min_eq_right (show x ≤ 1 by linarith), max_eq_left (le_of_lt h0)]
    · by_cases h1 : (1 : ℚ) < x
      · simp [h0, h1, min_eq_left (le_of_lt h1)]
      · simp [h0, h1, min_eq_right (not_lt.1 h1), max_eq_right (not_lt.1 h0)]
  · have hcon : Assoc.contains Model.empty.d_ptr.m_posToStop (clamp01 x) = false := by
      simp [Model.empty, Assoc.contains, Assoc.find?]
    rw [addStop_of_not_contains _ x c hcon]
    simp [Model.stops, Model.empty, Assoc.insertOrdered, newAddress, Assoc.keys]

/-- C1: the code does not meet the claim for a NaN position.  Both clamp tests of
`addStop` are false for NaN, the empty position index does not contain it, and NaN
becomes the key of the new stop 1, its reverse-index value and its `position()`.
Afterwards the reverse index maps stop 1 to NaN, but `position() == p` is false for
`p` NaN, and `at(0.5)` returns stop 1 although the reverse index does not map it to 0.5. -/
theorem addStop_nan_breaks_index_consistency :
    QReal.lt .nan (.num 0) = false ∧ QReal.lt (.num 1) .nan = false ∧
    (RealModel.empty.addStop .nan QColor.black).2 = 1 ∧
    (RealModel.empty.addStop .nan QColor.black).1.m_posToStop = [(.nan, 1)] ∧
    (RealModel.empty.addStop .nan QColor.black).1.m_stopToPos = [(1, .nan)] ∧
    (RealModel.empty.addStop .nan QColor.black).1.position 1 = .nan ∧
    QReal.eq ((RealModel.empty.addStop .nan QColor.black).1.position 1) .nan = false ∧
    (RealModel.empty.addStop .nan QColor.black).1.at (.num (1/2)) = 1 ∧
    Assoc.find? (RealModel.empty.addStop .nan QColor.black).1.m_stopToPos 1
      ≠ some (.num (1/2)) := by
  refine ⟨rfl, rfl, rfl, rfl, rfl, rfl, rfl, rfl, ?_⟩
  intro h
  have h' : (some QReal.nan : Option QReal) = some (.num (1/2)) := h
  exact QReal.noConfusion (Option.some.inj h')

/-- C24: the code does not meet the claim for a NaN position argument.  After the single
public call `addStop(NaN, black)` on the empty model, the only key of the position index
and the `position()` of the owned stop 1 are NaN, for which neither `0 <= p` nor `p <= 1`
holds. -/
theorem addStop_nan_outside_unit_interval :
    (RealModel.empty.addStop .nan QColor.black).1.m_posToStop = [(.nan, 1)] ∧
    Assoc.find? (RealModel.empty.addStop .nan QColor.black).1.m_stopToPos 1 = some .nan ∧
    (RealModel.empty.addStop .nan QColor.black).1.position 1 = .nan ∧
    QReal.le (.num 0) ((RealModel.empty.addStop .nan QColor.black).1.position 1) = false ∧
    QReal.le ((RealModel.empty.addStop .nan QColor.black).1.position 1) (.num 1) = false := by
  exact ⟨rfl, rfl, rfl, rfl, rfl⟩

theorem round_quarters :
    roundToDouble (1/4) = 1/4 ∧ roundToDouble (3/4) = 3/4 := by
  constructor
  · rw [roundToDouble_eval (1/4) (-2) 4503599627370496 (by norm_num) (by norm_num) (by norm_num)
      (by norm_num) (roundHalfEven_of_lt _ 4503599627370496 (by norm_num) (by norm_num))]
    norm_num
  · rw [roundToDouble_eval (3/4) (-1) 6755399441055744 (by norm_num) (by norm_num) (by norm_num)
      (by norm_num) (roundHalfEven_of_lt _ 6755399441055744 (by norm_num) (by norm_num))]
    norm_num

theorem dragModel_quarters :
    (dragModel (1/4) (3/4) [] 0).stops = [(1/4, 1), (3/4, 2)] ∧
    Assoc.find? (dragModel (1/4) (3/4) [] 0).d_ptr.m_stopToPos 1 = some (1/4) ∧
    Assoc.find? (dragModel (1/4) (3/4) [] 0).d_ptr.m_stopToPos 2 = some (3/4) := by
  norm_num [dragModel, Model.run, Model.call, Model.addStop, Model.empty, Assoc.contains,
    Assoc.find?, Model.newStop, newAddress, Assoc.keys, Model.setPosition, Model.setColor,
    heapSetPosition, heapSetColor, Assoc.insertOrdered, Assoc.set, Model.emit, Model.observe,
    Model.selectStop, Model.setCurrentStop, Model.currentStop, Model.stops]

/-- The mirror property without rounding, at a concrete input: with stops at 0.25 and 0.75,
whose differences from 1.0 are doubles, after `flipAll()` the stop formerly at 0.25 is at
0.75 and the stop formerly at 0.75 is at 0.25. -/
theorem flipAll_exact_mirrors_positions_witness :
    (dragModel (1/4) (3/4) [] 0).WellFormed ∧
    (dragModel (1/4) (3/4) [] 0).Consistent ∧
    (∀ e ∈ (dragModel (1/4) (3/4) [] 0).stops, roundToDouble (1 - e.1) = 1 - e.1) ∧
    (dragModel (1/4) (3/4) [] 0).flipAll.position 1 = 3/4 ∧
    (dragModel (1/4) (3/4) [] 0).flipAll.position 2 = 1/4 :=
  have hwf := dragModel_wellFormed (1/4) (3/4) [] 0
  have hc := dragModel_consistent (1/4) (3/4) [] 0
  have hexact : ∀ e ∈ (dragModel (1/4) (3/4) [] 0).stops,
      roundToDouble (1 - e.1) = 1 - e.1 := by
    rw [dragModel_quarters.1]
    intro e he
    simp only [List.mem_cons, List.mem_singleton, List.not_mem_nil, or_false] at he
    have h34 : (1 : ℚ) - 1/4 = 3/4 := by norm_num
    have h14 : (1 : ℚ) - 3/4 = 1/4 := by norm_num
    rcases he with h | h
    · rw [h]; simp only []; rw [h34]; exact round_quarters.2
    · rw [h]; simp only []; rw [h14]; exact round_quarters.1
  have h := (flipAll_exact_mirrors_positions _ hwf hc hexact).1
  ⟨hwf, hc, hexact, ((h 1 (1/4) dragModel_quarters.2.1).1).trans (by norm_num),
    ((h 2 (3/4) dragModel_quarters.2.2).1).trans (by norm_num)⟩

end QtGradient
